import Mathlib

/-!
# sgx-perf analyzer: call-tree reconstruction and call statistics

A shallow embedding of `analyzer/src/calls.cpp`, `analyzer/src/calls.h`,
`analyzer/src/util.h`, `analyzer/src/util.cpp` (`skip_call`), `analyzer/src/graph.cpp`
(`dot_graph`) and of the weights and the option cases `g` and `p` of
`analyzer/src/main.cpp`.

Conventions of the embedding:

* A `single_call_data_t *` that points into a thread's `calls` array is the index of the
  slot (`Option Nat` for the stored `parent` field, `Option Int` for the cursor of the
  indirect-parent walk, which can step to the slot before the array).
* A `call_data_t *` is a `call_ref`: enclave id, call kind, position in the registry vector.
* The slots `0 .. next_call_index - 1` of `thread_t.calls` are the written ones; they are the
  list `thread_t.calls`, so `next_call_index` is its length.  Reading any other slot is a
  read of memory the program never wrote and is reported as `fault.out_of_bounds`.
* `uint64_t` subtraction wraps modulo `2^64` (`usub64`); the squares accumulated by
  `calc_stats` wrap as well.  Event counters and sums of durations are far below `2^64`
  and are kept as natural numbers.
* The `double` arithmetic rounds after every conversion, division, product and sum;
  `binary64` is round-to-nearest-even with 53 significant bits.  `percentile_idx` rounds
  with `binary64`; in the classifiers the rounding is a parameter `rnd`.
* The report of a call site is the list of its lines (`report_line`), each with the numbers
  it shows; the text formatting of `countformat` and `timeformat` is left out.  The graph
  of an enclave is the list of its lines (`dot_line`), the histogram of a site the list of
  its pairs of bin start and bin count.
* Strings handed to the option cases are lists of characters; `percentile / 100.0f` of the
  histogram export is rounded to 24 significant bits (`binary32`).
-/

namespace SgxPerf

/-! ## Data model (calls.h) -/

/-- The call kinds of `call_type_t`. -/
inductive call_type_t
  | UNDEF
  | ECALL
  | OCALL
  deriving DecidableEq, Repr

/-- One invocation (`single_call_data_t`); `parent` is the slot index of the parent record in
the same thread's array, `none` for `nullptr`. -/
structure single_call_data_t where
  event_id : Nat
  call_id : Nat
  type : call_type_t
  start : Nat
  end_ : Nat
  exec : Nat
  parent : Option Nat
  deriving DecidableEq, Repr

/-- A `call_data_t *`: the call site stored at position `idx` of the `ecalls` (kind `ECALL`)
or `ocalls` (kind `OCALL`) vector of enclave `eid`. -/
structure call_ref where
  eid : Nat
  type : call_type_t
  idx : Nat
  deriving DecidableEq, Repr

/-- A `single_call_data_t *` kept in `single_calls`: the address of slot `idx` of the
`calls` array of thread `tid`. -/
structure slot_ref where
  tid : Nat
  idx : Nat
  deriving DecidableEq, Repr

/-- The statistics record `stats_t`. -/
structure stats_t where
  sum : Nat := 0
  sq_sum : Nat := 0
  avg : Nat := 0
  calls : Nat := 0
  median : Nat := 0
  std : Nat := 0
  aexs : Nat := 0
  num_less_1us : Nat := 0
  num_less_5us : Nat := 0
  num_less_10us : Nat := 0
  deriving DecidableEq, Repr

/-- A relation entry (`parent_call_data_t`). -/
structure parent_call_data_t where
  count : Nat := 0
  call_data : Option call_ref := none
  num_less_than_10us_from_start : Nat := 0
  num_less_than_20us_from_start : Nat := 0
  num_less_than_10us_from_end : Nat := 0
  num_less_than_20us_from_end : Nat := 0
  num_less_1us : Nat := 0
  num_less_5us : Nat := 0
  num_less_10us : Nat := 0
  num_less_20us : Nat := 0
  deriving DecidableEq, Repr

/-- A call site (`call_data_t`). -/
structure call_data_t where
  type : call_type_t
  call_id : Nat
  name : String
  exectimes : List Nat
  single_calls : List slot_ref
  aex_counts : List Nat
  has_direct_parents : Bool
  num_ecall_called_from_ocalls : Nat
  direct_parents_data : List parent_call_data_t
  has_indirect_parents : Bool
  indirect_parents_data : List parent_call_data_t
  all_stats : stats_t
  stats_95th : stats_t
  deriving DecidableEq, Repr

/-- An enclave (`enclave_data_t`).  The registries `ecalls` and `ocalls` are the pointed-to
sites in vector order; `ecalls_sorted` and `ocalls_sorted` are vectors of pointers to the
same sites, each pointer given as the position of its site in the registry. -/
structure enclave_data_t where
  eid : Nat
  ecalls : List call_data_t
  ecalls_sorted : List Nat
  ecall_count : Nat
  ocalls : List call_data_t
  ocalls_sorted : List Nat
  ocall_count : Nat
  first_ecall_start : Nat
  last_ecall_end : Nat
  deriving DecidableEq, Repr

/-- The default constructor of `enclave_data_t`. -/
def enclave_data_t.init : enclave_data_t :=
  { eid := 0, ecalls := [], ecalls_sorted := [], ecall_count := 0, ocalls := [],
    ocalls_sorted := [], ocall_count := 0, first_ecall_start := 2 ^ 64 - 1,
    last_ecall_end := 0 }

/-- A thread (`thread_t`): `calls` holds the written slots, `events` is the number of slots
allocated by `thread_callback`. -/
structure thread_t where
  id : Nat
  pthread_id : Nat
  events : Nat
  calls : List single_call_data_t
  deriving DecidableEq, Repr

/-- The field `next_call_index`: the number of written slots. -/
def thread_t.next_call_index (t : thread_t) : Nat := t.calls.length

/-- The value-initialised `thread_t` that `threads[tid]` creates for an unknown thread id:
no array at all. -/
def thread_t.init : thread_t := { id := 0, pthread_id := 0, events := 0, calls := [] }

/-- The globals `encls` and `threads` (two `std::map`s whose `operator[]` creates missing
entries). -/
structure analyzer_state where
  encls : Nat → enclave_data_t
  threads : Nat → thread_t

/-- One row handed to `call_data_callback` (the columns `data[0] .. data[9]`). -/
structure call_row where
  iid : Nat
  type : Nat
  tid : Nat
  id : Nat
  eid : Nat
  exectime : Nat
  aex_count : Option Nat
  parent_call : Option Nat
  starttime : Nat
  endtime : Nat
  deriving DecidableEq, Repr

/-- The ways `call_data_callback` can fail to return. -/
inductive fault
  | assertion
  | out_of_bounds
  | out_of_range
  | diverges
  deriving DecidableEq, Repr

deriving instance DecidableEq for Except

/-- Subtraction of two `uint64_t`: the difference modulo `2^64`. -/
def usub64 (a b : Nat) : Nat := ((2 ^ 64 - b % 2 ^ 64) + a) % 2 ^ 64

/-- Replace the entry of a map. -/
def map_set {α : Type} (m : Nat → α) (k : Nat) (v : α) : Nat → α :=
  fun j => if j = k then v else m j

/-! ## Registry and thread loading (calls.cpp, lines 43-113 and 739-749) -/

/-- The fresh `call_data_t` that `ecalls_callback` / `ocalls_callback` allocate. -/
def new_call_data (ty : call_type_t) (id : Nat) (name : String) : call_data_t :=
  { type := ty, call_id := id, name := name, exectimes := [], single_calls := [],
    aex_counts := [], has_direct_parents := false, num_ecall_called_from_ocalls := 0,
    direct_parents_data := [], has_indirect_parents := false, indirect_parents_data := [],
    all_stats := {}, stats_95th := {} }

/-- The function `ecalls_callback`. -/
def ecalls_callback (s : analyzer_state) (id eid : Nat) (name : String) : analyzer_state :=
  let e := s.encls eid
  let e1 : enclave_data_t :=
    { e with ecalls := e.ecalls ++ [new_call_data .ECALL id name], ecall_count := 0 }
  { s with encls := map_set s.encls eid e1 }

/-- The function `ocalls_callback`. -/
def ocalls_callback (s : analyzer_state) (id eid : Nat) (name : String) : analyzer_state :=
  let e := s.encls eid
  let e1 : enclave_data_t :=
    { e with ocalls := e.ocalls ++ [new_call_data .OCALL id name], ocall_count := 0 }
  { s with encls := map_set s.encls eid e1 }

/-- The relation tables allocated in `analyze_calls` for one enclave: an into-boundary site
gets one direct entry per out-of-boundary site and one indirect entry per into-boundary
site, an out-of-boundary site the other way round. -/
def alloc_parent_tables (e : enclave_data_t) : enclave_data_t :=
  { e with
    ecalls := e.ecalls.map (fun c =>
      { c with direct_parents_data := List.replicate e.ocalls.length {},
               indirect_parents_data := List.replicate e.ecalls.length {} })
    ocalls := e.ocalls.map (fun c =>
      { c with direct_parents_data := List.replicate e.ecalls.length {},
               indirect_parents_data := List.replicate e.ocalls.length {} }) }

/-- The function `thread_callback`. -/
def thread_callback (s : analyzer_state) (id pthread_id events : Nat) : analyzer_state :=
  let t : thread_t := { id := id, pthread_id := pthread_id, events := events, calls := [] }
  { s with threads := map_set s.threads id t }

/-- The empty globals. -/
def analyzer_state.init : analyzer_state :=
  { encls := fun _ => enclave_data_t.init, threads := fun _ => thread_t.init }

/-! ## Direct-parent scan (calls.cpp, lines 167-200 and 266-298) -/

/-- The loop `for (uint64_t i = start; ; --i)`: the slot whose `event_id` is
`parent_event_id`, scanning downwards from slot `i`.  A slot outside the written ones is an
out-of-bounds read; `assert(i != 0)` fires when slot 0 does not match. -/
def scan_parent (calls : List single_call_data_t) (parent_event_id : Nat) :
    Nat → Except fault Nat
  | 0 =>
    match calls[0]? with
    | none => .error .out_of_bounds
    | some p => if p.event_id = parent_event_id then .ok 0 else .error .assertion
  | i + 1 =>
    match calls[i + 1]? with
    | none => .error .out_of_bounds
    | some p => if p.event_id = parent_event_id then .ok (i + 1)
                else scan_parent calls parent_event_id i

/-- The direct-parent search of a row: no search without a parent event id, otherwise the
scan started at `next_call_index - 1` (an unsigned subtraction). -/
def find_direct_parent (t : thread_t) (parent_call : Option Nat) :
    Except fault (Option Nat) :=
  match parent_call with
  | none => .ok none
  | some parent_event_id =>
    match scan_parent t.calls parent_event_id (usub64 t.next_call_index 1) with
    | .error f => .error f
    | .ok i => .ok (some i)

/-! ## Indirect-parent walk (calls.cpp, lines 202-242 and 300-334) -/

/-- The comparison `c > scd.parent` of two pointers, `c` being the address of slot `i`:
every slot address is above `nullptr`. -/
def ptr_gt (i : Int) (parent : Option Nat) : Bool :=
  match parent with
  | none => true
  | some p => decide ((p : Int) < i)

/-- Read slot `i` through a cursor: only written slots can be read. -/
def read_slot (calls : List single_call_data_t) (i : Int) : Option single_call_data_t :=
  if 0 ≤ i then calls[i.toNat]? else none

/-- The loop `while (c && c > scd.parent)` for a new record of kind `kind` (`other` is the
opposite kind) with resolved parent `parent`.  The first argument bounds the number of loop
bodies executed; the result is the slot of the matched record, or `none` when the loop ends
without a match. -/
def indirect_walk (calls : List single_call_data_t) (kind other : call_type_t)
    (parent : Option Nat) : Nat → Option Int → Except fault (Option Nat)
  | _, none => .ok none
  | 0, some i => if ptr_gt i parent then .error .diverges else .ok none
  | fuel + 1, some i =>
    if ptr_gt i parent then
      match read_slot calls i with
      | none => .error .out_of_bounds
      | some c =>
        if c.type = kind then
          if c.parent = parent then .ok (some i.toNat)
          else indirect_walk calls kind other parent fuel
                 (match c.parent with
                  | some q => some ((q : Int) - 1)
                  | none => none)
        else if c.type = other then
          indirect_walk calls kind other parent fuel
            (match c.parent with
             | some q => some (q : Int)
             | none => none)
        else indirect_walk calls kind other parent fuel (some i)
    else .ok none

/-- The indirect-parent search of a row: skipped on an empty thread, otherwise the walk
started at the most recently written slot.  Each loop body moves the cursor to a lower slot
on every reachable thread, so `next_call_index` bodies are enough. -/
def find_indirect_parent (t : thread_t) (kind other : call_type_t) (parent : Option Nat) :
    Except fault (Option Nat) :=
  if t.next_call_index ≠ 0 then
    indirect_walk t.calls kind other parent t.next_call_index
      (some ((t.next_call_index : Int) - 1))
  else .ok none

/-! ## Relation-entry updates (calls.cpp, lines 176-190 and 216-230) -/

/-- The update of a direct relation entry for the new record `scd` and its parent record
`p`: `count++`, the call site named, and the two gap families bucketed independently. -/
def update_direct (dpcd : parent_call_data_t) (cd : call_ref) (scd p : single_call_data_t) :
    parent_call_data_t :=
  let timediff_start := usub64 scd.start p.start
  let timediff_end := usub64 p.end_ scd.end_
  let d1 : parent_call_data_t := { dpcd with count := dpcd.count + 1, call_data := some cd }
  let d2 : parent_call_data_t :=
    if timediff_start < 10000 then
      { d1 with num_less_than_10us_from_start := d1.num_less_than_10us_from_start + 1 }
    else if timediff_start < 20000 then
      { d1 with num_less_than_20us_from_start := d1.num_less_than_20us_from_start + 1 }
    else d1
  if timediff_end < 10000 then
    { d2 with num_less_than_10us_from_end := d2.num_less_than_10us_from_end + 1 }
  else if timediff_end < 20000 then
    { d2 with num_less_than_20us_from_end := d2.num_less_than_20us_from_end + 1 }
  else d2

/-- The update of an indirect relation entry for the new record `scd` and the matched
record `c`: the call site named, `count++`, and the gap counted in the first bucket it is
below. -/
def update_indirect (ipcd : parent_call_data_t) (cd : call_ref) (scd c : single_call_data_t) :
    parent_call_data_t :=
  let timediff := usub64 scd.start c.end_
  let d1 : parent_call_data_t := { ipcd with call_data := some cd, count := ipcd.count + 1 }
  if timediff < 1000 then { d1 with num_less_1us := d1.num_less_1us + 1 }
  else if timediff < 5000 then { d1 with num_less_5us := d1.num_less_5us + 1 }
  else if timediff < 10000 then { d1 with num_less_10us := d1.num_less_10us + 1 }
  else if timediff < 20000 then { d1 with num_less_20us := d1.num_less_20us + 1 }
  else d1

/-- The body executed when the direct-parent scan stops at slot `dp` (nothing without a
parent).  `n_other` is the size of the registry vector of the other kind in the row's
enclave, from which the named call site is fetched; `bump` says whether
`num_ecall_called_from_ocalls` is incremented (the into-boundary branch).  The table is
accessed with `at`, which throws on an id outside the table. -/
def direct_relation (eid : Nat) (other : call_type_t) (n_other : Nat) (bump : Bool)
    (thiz : call_data_t) (scd : single_call_data_t) (calls : List single_call_data_t)
    (dp : Option Nat) : Except fault call_data_t :=
  match dp with
  | none => .ok thiz
  | some i =>
    match calls[i]? with
    | none => .error .out_of_bounds
    | some p =>
      match thiz.direct_parents_data[p.call_id]? with
      | none => .error .out_of_range
      | some dpcd =>
        if p.call_id < n_other then
          .ok { thiz with
                has_direct_parents := true
                num_ecall_called_from_ocalls :=
                  if bump then thiz.num_ecall_called_from_ocalls + 1
                  else thiz.num_ecall_called_from_ocalls
                direct_parents_data :=
                  thiz.direct_parents_data.set p.call_id
                    (update_direct dpcd ⟨eid, other, p.call_id⟩ scd p) }
        else .error .out_of_bounds

/-- The body executed when the indirect-parent walk matches slot `ip` (nothing without a
match).  `n_same` is the size of the registry vector of the row's own kind. -/
def indirect_relation (eid : Nat) (kind : call_type_t) (n_same : Nat)
    (thiz : call_data_t) (scd : single_call_data_t) (calls : List single_call_data_t)
    (ip : Option Nat) : Except fault call_data_t :=
  match ip with
  | none => .ok thiz
  | some i =>
    match calls[i]? with
    | none => .error .out_of_bounds
    | some c =>
      match thiz.indirect_parents_data[c.call_id]? with
      | none => .error .out_of_range
      | some ipcd =>
        if c.call_id < n_same then
          .ok { thiz with
                has_indirect_parents := true
                indirect_parents_data :=
                  thiz.indirect_parents_data.set c.call_id
                    (update_indirect ipcd ⟨eid, kind, c.call_id⟩ scd c) }
        else .error .out_of_bounds

/-! ## The row callback (calls.cpp, lines 115-343) -/

/-- What processing one row resolved: the record written, the slot it was written to, the
record of its resolved direct parent and the record matched as its indirect parent. -/
structure observation where
  row : call_row
  scd : single_call_data_t
  slot : Nat
  direct : Option single_call_data_t
  indirect_slot : Option Nat
  indirect : Option single_call_data_t
  deriving DecidableEq, Repr

/-- The record at an optional slot. -/
def slot_record (calls : List single_call_data_t) (i : Option Nat) :
    Option single_call_data_t :=
  match i with
  | none => none
  | some k => calls[k]?

/-- The record `scd` as first filled in from the row: no parent yet. -/
def scd_of_row (kind : call_type_t) (r : call_row) : single_call_data_t :=
  { event_id := r.iid, call_id := r.id, type := kind, start := r.starttime,
    end_ := r.endtime, exec := r.exectime, parent := none }

/-- The part of `call_data_callback` shared by both branches, from the construction of `scd`
to the registration in `single_calls`, acting on the call site `thiz` and the thread `t`.
The registered back-reference is `&t.calls[t.next_call_index]` taken after the increment. -/
def site_step (eid : Nat) (kind other : call_type_t) (n_same n_other : Nat) (bump : Bool)
    (thiz : call_data_t) (t : thread_t) (r : call_row) :
    Except fault (call_data_t × thread_t × observation) :=
  let scd0 : single_call_data_t := scd_of_row kind r
  match find_direct_parent t r.parent_call with
  | .error f => .error f
  | .ok dp =>
    match direct_relation eid other n_other bump thiz scd0 t.calls dp with
    | .error f => .error f
    | .ok thiz1 =>
      let scd : single_call_data_t := { scd0 with parent := dp }
      match find_indirect_parent t kind other dp with
      | .error f => .error f
      | .ok ip =>
        match indirect_relation eid kind n_same thiz1 scd t.calls ip with
        | .error f => .error f
        | .ok thiz2 =>
          if t.next_call_index < t.events then
            .ok ({ thiz2 with
                   single_calls := thiz2.single_calls ++ [⟨r.tid, t.next_call_index + 1⟩] },
                 { t with calls := t.calls ++ [scd] },
                 { row := r, scd := scd, slot := t.next_call_index,
                   direct := slot_record t.calls dp, indirect_slot := ip,
                   indirect := slot_record t.calls ip })
          else .error .out_of_bounds

/-- Lines 144-149: the interrupt count of the row, when it has one, is appended to
`aex_counts` and added to `all_stats.aexs`. -/
def count_aex (thiz : call_data_t) (r : call_row) : call_data_t :=
  match r.aex_count with
  | some aex_count =>
    { thiz with aex_counts := thiz.aex_counts ++ [aex_count]
                all_stats := { thiz.all_stats with aexs := thiz.all_stats.aexs + aex_count } }
  | none => thiz

/-- Lines 151-152: the active window of the enclave. -/
def ecall_window (e : enclave_data_t) (r : call_row) : enclave_data_t :=
  { e with
    first_ecall_start :=
      if e.first_ecall_start > r.starttime then r.starttime else e.first_ecall_start
    last_ecall_end :=
      if e.last_ecall_end < r.endtime then r.endtime else e.last_ecall_end }

/-- Lines 154-155 and 253-254: the duration is appended to `exectimes` and added to
`all_stats.sum`. -/
def count_exectime (thiz : call_data_t) (r : call_row) : call_data_t :=
  { thiz with exectimes := thiz.exectimes ++ [r.exectime]
              all_stats := { thiz.all_stats with sum := thiz.all_stats.sum + r.exectime } }

/-- The branch `type == 15` (into-boundary call). -/
def ecall_branch (s : analyzer_state) (r : call_row) :
    Except fault (analyzer_state × observation) :=
  let e := s.encls r.eid
  match e.ecalls[r.id]? with
  | none => .error .out_of_bounds
  | some thiz =>
    match site_step r.eid .ECALL .OCALL e.ecalls.length e.ocalls.length true
            (count_exectime (count_aex thiz r) r) (s.threads r.tid) r with
    | .error f => .error f
    | .ok out =>
      let e1 := ecall_window e r
      .ok ({ encls := map_set s.encls r.eid { e1 with ecalls := e1.ecalls.set r.id out.1 }
             threads := map_set s.threads r.tid out.2.1 }, out.2.2)

/-- The branch `type == 17` (out-of-boundary call). -/
def ocall_branch (s : analyzer_state) (r : call_row) :
    Except fault (analyzer_state × observation) :=
  let e := s.encls r.eid
  match e.ocalls[r.id]? with
  | none => .error .out_of_bounds
  | some thiz =>
    match site_step r.eid .OCALL .ECALL e.ocalls.length e.ecalls.length false
            (count_exectime thiz r) (s.threads r.tid) r with
    | .error f => .error f
    | .ok out =>
      .ok ({ encls := map_set s.encls r.eid { e with ocalls := e.ocalls.set r.id out.1 }
             threads := map_set s.threads r.tid out.2.1 }, out.2.2)

/-- The function `call_data_callback` together with what the row resolved (`none` for a row
that is neither an into-boundary nor an out-of-boundary call, which changes nothing). -/
def call_data_step (s : analyzer_state) (r : call_row) :
    Except fault (analyzer_state × Option observation) :=
  if r.type = 15 then
    match ecall_branch s r with
    | .error f => .error f
    | .ok (s1, o) => .ok (s1, some o)
  else if r.type = 17 then
    match ocall_branch s r with
    | .error f => .error f
    | .ok (s1, o) => .ok (s1, some o)
  else .ok (s, none)

/-- The function `call_data_callback`: the globals after the row. -/
def call_data_callback (s : analyzer_state) (r : call_row) : Except fault analyzer_state :=
  match call_data_step s r with
  | .error f => .error f
  | .ok (s1, _) => .ok s1

/-- The rows of the query processed in order, with the list of what they resolved. -/
def process_rows : analyzer_state → List call_row →
    Except fault (analyzer_state × List observation)
  | s, [] => .ok (s, [])
  | s, r :: rs =>
    match call_data_step s r with
    | .error f => .error f
    | .ok (s1, o) =>
      match process_rows s1 rs with
      | .error f => .error f
      | .ok (s2, os) => .ok (s2, o.toList ++ os)

/-- The fault a computation ended with, `none` when it returned. -/
def failure_of {α : Type} (x : Except fault α) : Option fault :=
  match x with
  | .error f => some f
  | .ok _ => none

/-- The call site a `call_ref` points to. -/
def analyzer_state.site (s : analyzer_state) (c : call_ref) : Option call_data_t :=
  match c.type with
  | .ECALL => (s.encls c.eid).ecalls[c.idx]?
  | .OCALL => (s.encls c.eid).ocalls[c.idx]?
  | .UNDEF => none

/-! ## Scenario A of the specification -/

/-- One enclave (id 0) with two into-boundary sites and one out-of-boundary site, and one
thread (id 0) with room for three records, loaded as `analyze_calls` does. -/
def scenarioA_state : analyzer_state :=
  let s1 := ecalls_callback analyzer_state.init 0 0 "ecall_A"
  let s2 := ecalls_callback s1 1 0 "ecall_C"
  let s3 := ocalls_callback s2 0 0 "ocall_B"
  let s4 : analyzer_state := { s3 with encls := fun eid => alloc_parent_tables (s3.encls eid) }
  thread_callback s4 0 0 3

/-- The rows of Scenario A: into-boundary A (0..100) encloses out-of-boundary B (10..90)
encloses into-boundary C (20..80). -/
def scenarioA_rows : List call_row :=
  [ { iid := 1, type := 15, tid := 0, id := 0, eid := 0, exectime := 100, aex_count := some 0,
      parent_call := none, starttime := 0, endtime := 100 },
    { iid := 2, type := 17, tid := 0, id := 0, eid := 0, exectime := 80, aex_count := none,
      parent_call := some 1, starttime := 10, endtime := 90 },
    { iid := 3, type := 15, tid := 0, id := 1, eid := 0, exectime := 60, aex_count := some 0,
      parent_call := some 2, starttime := 20, endtime := 80 } ]

/-! ## Rounding to double precision -/

/-- Rounding of a rational to the nearest integer, ties to even. -/
def round_half_even (q : ℚ) : ℤ :=
  let f := ⌊q⌋
  if q - (f : ℚ) < 1 / 2 then f
  else if 1 / 2 < q - (f : ℚ) then f + 1
  else if f % 2 = 0 then f else f + 1

/-- The number of halvings that bring `n` below 2, at most `fuel` of them. -/
def halvings : Nat → Nat → Nat
  | 0, _ => 0
  | fuel + 1, n => if 2 ≤ n then halvings fuel (n / 2) + 1 else 0

/-- The exponent `e` with `2^e <= |x| < 2^(e+1)` of a rational `x` other than zero. -/
def binade (x : ℚ) : ℤ :=
  let e0 : ℤ := (halvings x.num.natAbs x.num.natAbs : ℤ) - (halvings x.den x.den : ℤ)
  if (2 : ℚ) ^ e0 ≤ |x| then e0 else e0 - 1

/-- Rounding to the nearest binary64 number (53 significant bits, ties to even), the
rounding of every `double` operation of the program.  The exponent range is not limited:
the quotients, products and sums of the classifiers lie far inside the normal range. -/
def binary64 (x : ℚ) : ℚ :=
  if x = 0 then 0
  else
    let u : ℚ := (2 : ℚ) ^ (binade x - 52)
    (round_half_even (x / u) : ℚ) * u

/-! ## Percentile index (util.h, lines 20-27) -/

/-- The function `percentile_idx`:
`static_cast<uint64_t>(std::min(std::ceil(percentile * vec.size()), (double)(vec.size() - 1)))`
for a vector of `n` elements.  The size is converted to `double` and multiplied in
`double`, so the product is rounded; `size - 1` is an unsigned subtraction whose result is
converted to `double`; the ceiling and the minimum are exact.  The minimum is a whole
number and its conversion to `uint64_t` is its value (a negative one has no defined
conversion and gives 0 here). -/
def percentile_idx (percentile : ℚ) (n : Nat) : Nat :=
  let product : ℚ := binary64 (percentile * binary64 (n : ℚ))
  let last : ℚ := binary64 ((usub64 n 1 : Nat) : ℚ)
  ⌊min ((⌈product⌉ : ℤ) : ℚ) last⌋.toNat

/-! ## Statistics (calls.cpp, lines 345-361 and 765-798) -/

/-- The value of a `uint64_t` stored into an `int64_t` (two's complement). -/
def to_int64 (n : Nat) : Int :=
  if n % 2 ^ 64 < 2 ^ 63 then ((n % 2 ^ 64 : Nat) : Int) else ((n % 2 ^ 64 : Nat) : Int) - 2 ^ 64

/-- The value of an `int64_t` converted to `uint64_t`. -/
def to_uint64 (z : Int) : Nat := (z % 2 ^ 64).toNat

/-- An arithmetic result brought back into the range of `long` (wrap-around). -/
def wrap_int64 (z : Int) : Int := to_int64 (to_uint64 z)

/-- The call `std::inner_product(first1, last1, first2, init)` with a `long` accumulator:
`acc = acc + x * y` for each pair, in 64-bit signed arithmetic. -/
def inner_product : List Int → List Int → Int → Int
  | x :: xs, y :: ys, acc => inner_product xs ys (wrap_int64 (acc + wrap_int64 (x * y)))
  | _, _, acc => acc

/-- The vector `diff` of `calc_stats`: each duration minus the average, an unsigned 64-bit
difference stored as `int64_t`. -/
def diff_vector (xs : List Nat) (avg : Nat) : List Int :=
  xs.map (fun x => to_int64 (usub64 x avg))

/-- The function `calc_stats` on the statistics record `s` of call site `c`.  Its iterator
ranges cover the first `s.calls` durations; a range longer than the vector is an
out-of-bounds read.  `fsqrt` is the double-precision square root of a `uint64_t` converted
back to `uint64_t`, `(uint64_t)std::sqrt(x)`. -/
def calc_stats (fsqrt : Nat → Nat) (s : stats_t) (c : call_data_t) : Except fault stats_t :=
  if 0 < s.calls then
    if c.exectimes.length < s.calls then .error .out_of_bounds
    else
      let avg := s.sum / s.calls
      let diff : List Int := diff_vector (c.exectimes.take s.calls) avg
      let sq_sum := to_uint64 (inner_product diff diff 0)
      .ok { s with
            avg := avg
            sq_sum := sq_sum
            num_less_1us := ((c.exectimes.take s.calls).filter (fun val => val < 1000)).length
            num_less_5us := ((c.exectimes.take s.calls).filter (fun val => val < 5000)).length
            num_less_10us := ((c.exectimes.take s.calls).filter (fun val => val < 10000)).length
            std := fsqrt (sq_sum / s.calls) }
  else .ok s

/-- The per-site body of the two aggregation loops of `analyze_calls`: the count, the
ascending sort of the durations, the full statistics, then the statistics of the prefix
selected by `percentile_idx(95 / 100.0, exectimes)`.  (`calc_aex_stats` writes only
`aex_stats`, a field that calls.h does not declare; it is left out.) -/
def analyze_call (fsqrt : Nat → Nat) (c : call_data_t) : Except fault call_data_t :=
  let c1 : call_data_t := { c with all_stats := { c.all_stats with calls := c.exectimes.length } }
  let c2 : call_data_t := { c1 with exectimes := c1.exectimes.insertionSort (fun a b => a ≤ b) }
  match calc_stats fsqrt c2.all_stats c2 with
  | .error f => .error f
  | .ok st =>
    let c3 : call_data_t := { c2 with all_stats := st }
    let c4 : call_data_t :=
      { c3 with stats_95th :=
          { c3.stats_95th with calls := percentile_idx (binary64 (95 / 100)) c3.exectimes.length } }
    let c5 : call_data_t :=
      { c4 with stats_95th :=
          { c4.stats_95th with sum := (c4.exectimes.take c4.stats_95th.calls).sum } }
    match calc_stats fsqrt c5.stats_95th c5 with
    | .error f => .error f
    | .ok st95 => .ok { c5 with stats_95th := st95 }

/-- A call site that recorded the ten durations of Scenario D, in arrival order. -/
def scenarioD_site : call_data_t :=
  { new_call_data .OCALL 0 "ocall_D" with
    exectimes := [100, 3, 1, 4, 9, 2, 6, 5, 8, 7]
    all_stats := { sum := 145 } }

/-- A call site with no recorded invocation. -/
def idle_site : call_data_t := new_call_data .OCALL 0 "ocall_idle"

/-- A call site that recorded a duration of 0 ns and one of 2^33 ns (about 8.6 s). -/
def long_call_site : call_data_t :=
  { new_call_data .ECALL 0 "ecall_main" with
    exectimes := [0, 2 ^ 33]
    all_stats := { sum := 2 ^ 33 } }

/-! ## Well-nested traces and siblings -/

/-- The opposite call kind. -/
def other_kind : call_type_t → call_type_t
  | .ECALL => .OCALL
  | .OCALL => .ECALL
  | .UNDEF => .UNDEF

/-- A well-nested single-thread record sequence: every record is an into-boundary or an
out-of-boundary call that starts before it ends; records are in start-time order; a record
still running when a later record starts is that record's parent or was appended before its
parent; and a resolved parent is an earlier record of the other call kind that encloses the
record. -/
def well_nested (rs : List single_call_data_t) : Prop :=
  (∀ (j : Nat) (r : single_call_data_t), rs[j]? = some r →
      (r.type = .ECALL ∨ r.type = .OCALL) ∧ r.start ≤ r.end_) ∧
  (∀ (i j : Nat) (ri rj : single_call_data_t), i < j → rs[i]? = some ri → rs[j]? = some rj →
      ri.start ≤ rj.start ∧ (ri.end_ < rj.start ∨ ∃ x, rj.parent = some x ∧ i ≤ x)) ∧
  (∀ (j : Nat) (r : single_call_data_t) (p : Nat), rs[j]? = some r → r.parent = some p →
      p < j ∧ ∃ q, rs[p]? = some q ∧ q.type ≠ r.type ∧ q.start ≤ r.start ∧ r.end_ ≤ q.end_)

/-- Slot `j` holds a record of call kind `kind` whose resolved direct parent is `parent`. -/
def is_sibling (calls : List single_call_data_t) (kind : call_type_t) (parent : Option Nat)
    (j : Nat) : Prop :=
  ∃ c, calls[j]? = some c ∧ c.type = kind ∧ c.parent = parent

/-- The result `res` is the nearest preceding sibling: the highest slot holding a sibling,
or `none` when no slot holds one. -/
def nearest_sibling (calls : List single_call_data_t) (kind : call_type_t)
    (parent : Option Nat) (res : Option Nat) : Prop :=
  match res with
  | some j => is_sibling calls kind parent j ∧ ∀ j', j < j' → ¬ is_sibling calls kind parent j'
  | none => ∀ j, ¬ is_sibling calls kind parent j

/-- What the walk relies on, in terms of slots only: two distinct kinds, parents at lower
slots and of the other kind, every record between a record and its parent hanging at or
above that parent, the same for the new record's parent `P`, and, for a new record without
parent, no parentless record of the other kind. -/
structure walk_pre (calls : List single_call_data_t) (kind other : call_type_t)
    (P : Option Nat) : Prop where
  hk : kind ≠ other
  H1 : ∀ (j : Nat) (c : single_call_data_t), calls[j]? = some c →
    c.type = kind ∨ c.type = other
  H2 : ∀ (j : Nat) (c : single_call_data_t) (q : Nat), calls[j]? = some c →
    c.parent = some q →
    q < j ∧ (∃ cq, calls[q]? = some cq ∧ cq.type ≠ c.type) ∧
    ∀ (m : Nat) (cm : single_call_data_t), q < m → m < j → calls[m]? = some cm →
      ∃ x, cm.parent = some x ∧ q ≤ x
  H3 : ∀ p : Nat, P = some p →
    (∃ cp, calls[p]? = some cp ∧ cp.type ≠ kind) ∧
    ∀ (m : Nat) (cm : single_call_data_t), p < m → calls[m]? = some cm →
      ∃ x, cm.parent = some x ∧ p ≤ x
  H4 : P = none → ∀ (j : Nat) (c : single_call_data_t), calls[j]? = some c →
    c.type = other → c.parent ≠ none

/-- The call-site id of the record at an optional slot. -/
def slot_call_id (calls : List single_call_data_t) (i : Option Nat) : Option Nat :=
  (slot_record calls i).map (fun c => c.call_id)

/-- A thread on which an out-of-boundary call without parent lies between two
into-boundary calls without parent. -/
def parentless_ocall_calls : List single_call_data_t :=
  [ { event_id := 1, call_id := 0, type := .ECALL, start := 0, end_ := 10, exec := 10,
      parent := none },
    { event_id := 2, call_id := 0, type := .OCALL, start := 20, end_ := 30, exec := 10,
      parent := none } ]

/-- The into-boundary call that follows `parentless_ocall_calls`. -/
def parentless_ocall_new : single_call_data_t :=
  { event_id := 3, call_id := 0, type := .ECALL, start := 40, end_ := 50, exec := 10,
    parent := none }

/-- A thread with an into-boundary call (0..100) that encloses an out-of-boundary call
(10..20), which encloses an into-boundary call (12..15). -/
def nested_thread : thread_t :=
  { id := 0, pthread_id := 0, events := 4,
    calls :=
      [ { event_id := 1, call_id := 0, type := .ECALL, start := 0, end_ := 100, exec := 100,
          parent := none },
        { event_id := 2, call_id := 1, type := .OCALL, start := 10, end_ := 20, exec := 10,
          parent := some 0 },
        { event_id := 3, call_id := 1, type := .ECALL, start := 12, end_ := 15, exec := 3,
          parent := some 1 } ] }

/-- A second out-of-boundary call (30..40) made from the outer call of `nested_thread`. -/
def nested_new : single_call_data_t :=
  { event_id := 4, call_id := 0, type := .OCALL, start := 30, end_ := 40, exec := 10,
    parent := some 0 }

/-- An out-of-boundary call site with one direct and one indirect relation entry. -/
def bucket_site : call_data_t :=
  { new_call_data .OCALL 0 "ocall_B" with
    direct_parents_data := [{}], indirect_parents_data := [{}] }

/-- A thread with an into-boundary call (0..100000) and a first out-of-boundary call
(10..90) made from it. -/
def bucket_thread : thread_t :=
  { id := 0, pthread_id := 0, events := 3,
    calls :=
      [ { event_id := 1, call_id := 0, type := .ECALL, start := 0, end_ := 100000,
          exec := 100000, parent := none },
        { event_id := 2, call_id := 0, type := .OCALL, start := 10, end_ := 90, exec := 80,
          parent := some 0 } ] }

/-- A second out-of-boundary call (15000..20000) made from the same into-boundary call. -/
def bucket_row : call_row :=
  { iid := 3, type := 17, tid := 0, id := 0, eid := 0, exectime := 5000, aex_count := none,
    parent_call := some 1, starttime := 15000, endtime := 20000 }

/-- The value a computation returned, `d` when it ended with a fault. -/
def result_or {α : Type} (x : Except fault α) (d : α) : α :=
  match x with
  | .ok a => a
  | .error _ => d

/-- An observation that resolved nothing. -/
def observation.blank (r : call_row) : observation :=
  { row := r, scd := scd_of_row .UNDEF r, slot := 0, direct := none, indirect_slot := none,
    indirect := none }

/-- What `site_step` returns for `bucket_row` on `bucket_site` and `bucket_thread`. -/
def bucket_out : call_data_t × thread_t × observation :=
  result_or (site_step 0 .OCALL .ECALL 1 1 false bucket_site bucket_thread bucket_row)
    (bucket_site, bucket_thread, observation.blank bucket_row)

/-- The effect of one observation with gaps `gap_from_start` and `gap_to_end` on a direct
relation entry: the count grows by 1, each gap is counted in the first threshold bucket of
its family it is strictly below (none from 20000 on), and the indirect buckets stay. -/
def direct_bucketed (e e' : parent_call_data_t) (gap_from_start gap_to_end : Nat) : Prop :=
  e'.count = e.count + 1 ∧
  e'.num_less_than_10us_from_start =
    e.num_less_than_10us_from_start + (if gap_from_start < 10000 then 1 else 0) ∧
  e'.num_less_than_20us_from_start =
    e.num_less_than_20us_from_start +
      (if 10000 ≤ gap_from_start ∧ gap_from_start < 20000 then 1 else 0) ∧
  e'.num_less_than_10us_from_end =
    e.num_less_than_10us_from_end + (if gap_to_end < 10000 then 1 else 0) ∧
  e'.num_less_than_20us_from_end =
    e.num_less_than_20us_from_end +
      (if 10000 ≤ gap_to_end ∧ gap_to_end < 20000 then 1 else 0) ∧
  e'.num_less_1us = e.num_less_1us ∧ e'.num_less_5us = e.num_less_5us ∧
  e'.num_less_10us = e.num_less_10us ∧ e'.num_less_20us = e.num_less_20us

/-- The effect of one observation with gap `gap` on an indirect relation entry: the count
grows by 1, the gap is counted in the first threshold bucket it is strictly below (none from
20000 on), and the direct buckets stay. -/
def indirect_bucketed (e e' : parent_call_data_t) (gap : Nat) : Prop :=
  e'.count = e.count + 1 ∧
  e'.num_less_1us = e.num_less_1us + (if gap < 1000 then 1 else 0) ∧
  e'.num_less_5us = e.num_less_5us + (if 1000 ≤ gap ∧ gap < 5000 then 1 else 0) ∧
  e'.num_less_10us = e.num_less_10us + (if 5000 ≤ gap ∧ gap < 10000 then 1 else 0) ∧
  e'.num_less_20us = e.num_less_20us + (if 10000 ≤ gap ∧ gap < 20000 then 1 else 0) ∧
  e'.num_less_than_10us_from_start = e.num_less_than_10us_from_start ∧
  e'.num_less_than_20us_from_start = e.num_less_than_20us_from_start ∧
  e'.num_less_than_10us_from_end = e.num_less_than_10us_from_end ∧
  e'.num_less_than_20us_from_end = e.num_less_than_20us_from_end

/-- The call site a row belongs to. -/
def row_ref (r : call_row) : Option call_ref :=
  if r.type = 15 then some ⟨r.eid, .ECALL, r.id⟩
  else if r.type = 17 then some ⟨r.eid, .OCALL, r.id⟩
  else none

/-- The observation is an invocation of the call site `ref`. -/
def observation.of_site (o : observation) (ref : call_ref) : Bool :=
  decide (row_ref o.row = some ref)

/-- The invocation has a resolved direct parent. -/
def observation.has_direct (o : observation) : Bool := o.direct.isSome

/-- The invocation has a resolved direct parent of call kind `k`. -/
def observation.direct_kind (o : observation) (k : call_type_t) : Bool :=
  match o.direct with
  | some p => decide (p.type = k)
  | none => false

/-- The invocation has a resolved direct parent whose record carries call-site id `k`. -/
def observation.direct_key (o : observation) (k : Nat) : Bool :=
  match o.direct with
  | some p => decide (p.call_id = k)
  | none => false

/-- The invocation has a matched indirect parent whose record carries call-site id `k`. -/
def observation.indirect_key (o : observation) (k : Nat) : Bool :=
  match o.indirect with
  | some c => decide (c.call_id = k)
  | none => false

/-- What processing one invocation `o` of the call site `ref` does to that call site, `c`
before and `c1` after: the duration is recorded, the invoked-from-other-kind counter grows
when the site is an into-boundary one and a direct parent was resolved, the direct and the
indirect relation table change in the one entry keyed by the call-site id of the resolved
record, and the registered back-reference is the slot after the one written. -/
structure site_update (ref : call_ref) (c c1 : call_data_t) (o : observation) : Prop where
  exectimes : c1.exectimes = c.exectimes ++ [o.row.exectime]
  sum : c1.all_stats.sum = c.all_stats.sum + o.row.exectime
  stats_95th : c1.stats_95th = c.stats_95th
  single_calls : c1.single_calls = c.single_calls ++ [⟨o.row.tid, o.slot + 1⟩]
  counter : c1.num_ecall_called_from_ocalls =
    c.num_ecall_called_from_ocalls +
      (if ref.type = .ECALL ∧ o.direct.isSome = true then 1 else 0)
  direct : (o.direct = none ∧ c1.direct_parents_data = c.direct_parents_data) ∨
    ∃ p e, o.direct = some p ∧ c.direct_parents_data[p.call_id]? = some e ∧
      c1.direct_parents_data = c.direct_parents_data.set p.call_id
        (update_direct e ⟨ref.eid, other_kind ref.type, p.call_id⟩
          (scd_of_row ref.type o.row) p)
  indirect : (o.indirect = none ∧ c1.indirect_parents_data = c.indirect_parents_data) ∨
    ∃ p e, o.indirect = some p ∧ c.indirect_parents_data[p.call_id]? = some e ∧
      c1.indirect_parents_data = c.indirect_parents_data.set p.call_id
        (update_indirect e ⟨ref.eid, ref.type, p.call_id⟩ o.scd p)

/-- A relation entry after `n` further observations that name the call site `cd`: the
count grew by `n`, the entry names `cd` once it was written, and it is untouched when
`n = 0`. -/
def entry_counted (e e' : parent_call_data_t) (n : Nat) (cd : call_ref) : Prop :=
  e'.count = e.count + n ∧ (n ≠ 0 → e'.call_data = some cd) ∧ (n = 0 → e' = e)

/-- A relation table after further observations, `n k` of them keyed by id `k`. -/
def table_counted (tab tab' : List parent_call_data_t) (n : Nat → Nat)
    (cd : Nat → call_ref) : Prop :=
  ∀ (k : Nat) (e : parent_call_data_t), tab[k]? = some e →
    ∃ e', tab'[k]? = some e' ∧ entry_counted e e' (n k) (cd k)

/-- The globals and observations after the rows, the start state and no observation when
processing ends with a fault. -/
def rows_out (s : analyzer_state) (rows : List call_row) :
    analyzer_state × List observation :=
  result_or (process_rows s rows) (s, [])

/-- The rows of Scenario A with the out-of-boundary call left out: the second
into-boundary call names the first as its parent event. -/
def ecall_in_ecall_rows : List call_row :=
  [ { iid := 1, type := 15, tid := 0, id := 0, eid := 0, exectime := 100, aex_count := some 0,
      parent_call := none, starttime := 0, endtime := 100 },
    { iid := 2, type := 15, tid := 0, id := 1, eid := 0, exectime := 60, aex_count := some 0,
      parent_call := some 1, starttime := 20, endtime := 80 } ]

/-- Two enclaves (ids 0 and 1), each with one into-boundary and one out-of-boundary call
site, and one thread (id 0) with room for three records. -/
def two_enclaves_state : analyzer_state :=
  let s1 := ecalls_callback analyzer_state.init 0 0 "e0_ecall"
  let s2 := ecalls_callback s1 0 1 "e1_ecall"
  let s3 := ocalls_callback s2 0 0 "e0_ocall"
  let s4 := ocalls_callback s3 0 1 "e1_ocall"
  let s5 : analyzer_state := { s4 with encls := fun eid => alloc_parent_tables (s4.encls eid) }
  thread_callback s5 0 0 3

/-- The same two enclaves when enclave 1 has no out-of-boundary call site. -/
def two_enclaves_bare_state : analyzer_state :=
  let s1 := ecalls_callback analyzer_state.init 0 0 "e0_ecall"
  let s2 := ecalls_callback s1 0 1 "e1_ecall"
  let s3 := ocalls_callback s2 0 0 "e0_ocall"
  let s4 : analyzer_state := { s3 with encls := fun eid => alloc_parent_tables (s3.encls eid) }
  thread_callback s4 0 0 3

/-- An into-boundary call of enclave 0 makes an out-of-boundary call, from which enclave 1
is entered. -/
def two_enclaves_rows : List call_row :=
  [ { iid := 1, type := 15, tid := 0, id := 0, eid := 0, exectime := 100, aex_count := some 0,
      parent_call := none, starttime := 0, endtime := 100 },
    { iid := 2, type := 17, tid := 0, id := 0, eid := 0, exectime := 80, aex_count := none,
      parent_call := some 1, starttime := 10, endtime := 90 },
    { iid := 3, type := 15, tid := 0, id := 0, eid := 1, exectime := 60, aex_count := some 0,
      parent_call := some 2, starttime := 20, endtime := 80 } ]

/-- The call site of the inner into-boundary call C of Scenario A as loaded. -/
def scenarioA_site_C : call_data_t :=
  { new_call_data .ECALL 1 "ecall_C" with
    direct_parents_data := [{}], indirect_parents_data := [{}, {}] }

/-! ## Call-site filter (util.cpp, lines 114-137) -/

/-- The function `skip_call`: `cd` is `none` for a null pointer, `set` lists the members of
the `std::set` of site ids. -/
def skip_call (cd : Option call_data_t) (set : List Nat) : Bool :=
  match cd with
  | none => true
  | some c =>
    if set.isEmpty then
      if c.all_stats.calls = 0 then true else false
    else
      if set.find? (fun i => i == c.call_id) = none then true else false

/-! ## Sorting step (calls.cpp, lines 803-809) -/

/-- The full invocation count `a->all_stats.calls` behind the pointer to position `i` of a
registry. -/
def calls_at (sites : List call_data_t) (i : Nat) : Nat :=
  match sites[i]? with
  | some c => c.all_stats.calls
  | none => 0

/-- The order that the comparator `a->all_stats.calls > b->all_stats.calls` sorts by: `a`
may stand before `b` when `b` has no more invocations than `a`. -/
def calls_ge (sites : List call_data_t) (a b : Nat) : Prop :=
  calls_at sites b ≤ calls_at sites a

instance calls_ge_decidable (sites : List call_data_t) : DecidableRel (calls_ge sites) :=
  fun a b => inferInstanceAs (Decidable (calls_at sites b ≤ calls_at sites a))

instance calls_ge_total (sites : List call_data_t) : IsTotal Nat (calls_ge sites) :=
  ⟨fun a b => Nat.le_total (calls_at sites b) (calls_at sites a)⟩

instance calls_ge_trans (sites : List call_data_t) : IsTrans Nat (calls_ge sites) :=
  ⟨fun _ _ _ hab hbc => Nat.le_trans hbc hab⟩

/-- The copy of a registry's pointer vector, sorted with `std::sort` under the comparator
above.  `std::sort` leaves the relative order of sites with equal counts open; the model
keeps them in registry order. -/
def sort_sites (sites : List call_data_t) : List Nat :=
  (List.range sites.length).insertionSort (calls_ge sites)

/-- The body of the sorting step for one enclave. -/
def sort_enclave (e : enclave_data_t) : enclave_data_t :=
  { e with ecalls_sorted := sort_sites e.ecalls, ocalls_sorted := sort_sites e.ocalls }

/-- The sites that a sorted pointer vector points to, front to back. -/
def pointed_sites (sites : List call_data_t) (ptrs : List Nat) : List call_data_t :=
  ptrs.filterMap (fun i => sites[i]?)

/-- An enclave with three into-boundary sites of 1, 3 and 2 invocations. -/
def ranking_enclave : enclave_data_t :=
  { enclave_data_t.init with
    ecalls :=
      [ { new_call_data .ECALL 0 "a" with all_stats := { calls := 1 } },
        { new_call_data .ECALL 1 "b" with all_stats := { calls := 3 } },
        { new_call_data .ECALL 2 "c" with all_stats := { calls := 2 } } ] }

/-! ## Double-precision arithmetic (the classifiers of calls.cpp, lines 385-456) -/

/-- A value of type `double`: not-a-number, an infinity, or a finite number given by its
exact value (the sign of zero is not kept). -/
inductive double
  | nan
  | inf (negative : Bool)
  | fin (q : ℚ)
  deriving DecidableEq

/-- The quotient `a / (double)b` of two unsigned counters: both are converted to `double`
and the quotient is rounded by `rnd`; a zero divisor gives not-a-number for `0 / 0` and an
infinity otherwise. -/
def fdiv (rnd : ℚ → ℚ) (a b : Nat) : double :=
  let x := rnd (a : ℚ)
  let y := rnd (b : ℚ)
  if y = 0 then
    if x = 0 then .nan else .inf (decide (x < 0))
  else .fin (rnd (x / y))

/-- The product `x * w` of a `double` and a finite weight. -/
def fmul (rnd : ℚ → ℚ) (x : double) (w : ℚ) : double :=
  match x with
  | .nan => .nan
  | .inf negative => if w = 0 then .nan else .inf (negative != decide (w < 0))
  | .fin q => .fin (rnd (q * w))

/-- The sum `x + y` of two `double`s. -/
def fadd (rnd : ℚ → ℚ) (x y : double) : double :=
  match x, y with
  | .nan, _ => .nan
  | _, .nan => .nan
  | .inf a, .inf b => if a = b then .inf a else .nan
  | .inf a, .fin _ => .inf a
  | .fin _, .inf b => .inf b
  | .fin p, .fin q => .fin (rnd (p + q))

/-- The comparison `x > w` of a `double` with a finite weight. -/
def fgt (x : double) (w : ℚ) : Bool :=
  match x with
  | .nan => false
  | .inf negative => !negative
  | .fin q => decide (w < q)

/-- The comparison `x <= w` of a `double` with a finite weight. -/
def fle (x : double) (w : ℚ) : Bool :=
  match x with
  | .nan => false
  | .inf negative => negative
  | .fin q => decide (q ≤ w)

/-- The record `weights_t` (main.h); each field holds the value of a finite `double`. -/
structure weights_t where
  alpha : ℚ := 0
  beta : ℚ := 0
  gamma : ℚ := 0
  delta : ℚ := 0
  epsilon : ℚ := 0
  lambda : ℚ := 0
  deriving DecidableEq

/-- The member `phases` of `config_t` (main.h). -/
structure phases_t where
  calls : Bool := false
  sync : Bool := false
  sec : Bool := false
  deriving DecidableEq, Repr

/-- The record `config_t` (main.h); a `std::set` of ids is the ascending list of its
members, a `std::string` the list of its characters. -/
structure config_t where
  ecall_call_minimum : Nat := 0
  ocall_call_minimum : Nat := 0
  phases : phases_t := {}
  duplication_weights : weights_t := {}
  reordering_weights : weights_t := {}
  merging_weights : weights_t := {}
  batching_weights : weights_t := {}
  ecall_set : List Nat := []
  ocall_set : List Nat := []
  graph : List Char := []
  call_data_filename : List Char := []
  edl_path : List Char := []
  deriving DecidableEq

/-- The configuration that `main` sets up when no option is given (main.cpp, lines 75-102):
each decimal literal is the binary64 number nearest to it. -/
def default_config : config_t :=
  { ecall_call_minimum := 0, ocall_call_minimum := 0,
    phases := { calls := true, sync := true, sec := true },
    graph := [], call_data_filename := [],
    duplication_weights :=
      { alpha := binary64 (35 / 100), beta := binary64 (50 / 100), gamma := binary64 (65 / 100) },
    reordering_weights :=
      { alpha := binary64 1, beta := binary64 (75 / 100), gamma := binary64 (5 / 10) },
    merging_weights :=
      { alpha := binary64 1, beta := binary64 (75 / 100), gamma := binary64 (50 / 100),
        delta := binary64 (25 / 100), epsilon := binary64 (35 / 100),
        lambda := binary64 (35 / 100) },
    batching_weights :=
      { alpha := binary64 1, beta := binary64 (75 / 100), gamma := binary64 (50 / 100),
        delta := binary64 (25 / 100), epsilon := binary64 (35 / 100),
        lambda := binary64 (35 / 100) } }

/-- The weighted sum that `batch_opportunity` and `merge_opportunity` accumulate in `w`. -/
def bucket_score (rnd : ℚ → ℚ) (w : weights_t) (pcd : parent_call_data_t) : double :=
  let w0 : double := .fin 0
  let w1 := fadd rnd w0 (fmul rnd (fdiv rnd pcd.num_less_1us pcd.count) w.alpha)
  let w2 := fadd rnd w1 (fmul rnd (fdiv rnd pcd.num_less_5us pcd.count) w.beta)
  let w3 := fadd rnd w2 (fmul rnd (fdiv rnd pcd.num_less_10us pcd.count) w.gamma)
  fadd rnd w3 (fmul rnd (fdiv rnd pcd.num_less_20us pcd.count) w.delta)

/-- The function `batch_opportunity`; `c` is the site that `pcd.call_data` points to. -/
def batch_opportunity (rnd : ℚ → ℚ) (cfg : config_t) (pcd : parent_call_data_t)
    (c : call_data_t) : Bool :=
  let r := fdiv rnd pcd.count c.all_stats.calls
  if fle r cfg.batching_weights.lambda then false
  else fgt (bucket_score rnd cfg.batching_weights pcd) cfg.batching_weights.epsilon

/-- The function `merge_opportunity`; `c` is the site that owns the entry. -/
def merge_opportunity (rnd : ℚ → ℚ) (cfg : config_t) (pcd : parent_call_data_t)
    (c : call_data_t) : Bool :=
  let r := fdiv rnd pcd.count c.all_stats.calls
  if fle r cfg.merging_weights.lambda then false
  else fgt (bucket_score rnd cfg.merging_weights pcd) cfg.merging_weights.epsilon

/-- The function `duplication_or_move_opportunity`. -/
def duplication_or_move_opportunity (rnd : ℚ → ℚ) (cfg : config_t) (c : call_data_t) : Bool :=
  let r := fgt (fdiv rnd c.stats_95th.num_less_1us c.stats_95th.calls) cfg.duplication_weights.alpha
  let r := r || fgt (fdiv rnd c.stats_95th.num_less_5us c.stats_95th.calls) cfg.duplication_weights.beta
  let r := r || fgt (fdiv rnd c.stats_95th.num_less_10us c.stats_95th.calls) cfg.duplication_weights.gamma
  r

/-- The function `reorder_start_opportunity`. -/
def reorder_start_opportunity (rnd : ℚ → ℚ) (cfg : config_t) (pcd : parent_call_data_t) : Bool :=
  let w0 : double := .fin 0
  let w1 := fadd rnd w0
    (fmul rnd (fdiv rnd pcd.num_less_than_10us_from_start pcd.count) cfg.reordering_weights.alpha)
  let w2 := fadd rnd w1
    (fmul rnd (fdiv rnd pcd.num_less_than_20us_from_start pcd.count) cfg.reordering_weights.beta)
  fgt w2 cfg.reordering_weights.gamma

/-- The function `reorder_end_opportunity`. -/
def reorder_end_opportunity (rnd : ℚ → ℚ) (cfg : config_t) (pcd : parent_call_data_t) : Bool :=
  let w0 : double := .fin 0
  let w1 := fadd rnd w0
    (fmul rnd (fdiv rnd pcd.num_less_than_10us_from_end pcd.count) cfg.reordering_weights.alpha)
  let w2 := fadd rnd w1
    (fmul rnd (fdiv rnd pcd.num_less_than_20us_from_end pcd.count) cfg.reordering_weights.beta)
  fgt w2 cfg.reordering_weights.gamma



/-! ## Exact values of the classifier arithmetic -/

/-- The quotient `a / (double)b` for a divisor that does not convert to zero. -/
def fl_quot (rnd : ℚ → ℚ) (a b : Nat) : ℚ := rnd (rnd (a : ℚ) / rnd (b : ℚ))

/-- The sum that the reorder classifiers accumulate, each operation rounded by `rnd`:
`w = 0.0; w += (a / c) * alpha; w += (b / c) * beta`. -/
def reorder_sum (rnd : ℚ → ℚ) (w : weights_t) (a b c : Nat) : ℚ :=
  rnd (rnd (0 + rnd (fl_quot rnd a c * w.alpha)) + rnd (fl_quot rnd b c * w.beta))

/-- The exact results of the operations behind `reorder_sum`. -/
def reorder_values (w : weights_t) (a b c : Nat) : List ℚ :=
  [(c : ℚ), (a : ℚ), (b : ℚ), (a : ℚ) / c, (a : ℚ) / c * w.alpha, (b : ℚ) / c,
   (b : ℚ) / c * w.beta, (a : ℚ) / c * w.alpha + (b : ℚ) / c * w.beta]

/-- The sum that `batch_opportunity` and `merge_opportunity` accumulate, each operation
rounded by `rnd`. -/
def bucket_sum (rnd : ℚ → ℚ) (w : weights_t) (pcd : parent_call_data_t) : ℚ :=
  let w1 := rnd (0 + rnd (fl_quot rnd pcd.num_less_1us pcd.count * w.alpha))
  let w2 := rnd (w1 + rnd (fl_quot rnd pcd.num_less_5us pcd.count * w.beta))
  let w3 := rnd (w2 + rnd (fl_quot rnd pcd.num_less_10us pcd.count * w.gamma))
  rnd (w3 + rnd (fl_quot rnd pcd.num_less_20us pcd.count * w.delta))

/-- The exact results of the operations behind `bucket_sum` and the ratio of an entry
count to the invocation count `calls` of a site. -/
def bucket_values (w : weights_t) (pcd : parent_call_data_t) (calls : Nat) : List ℚ :=
  let c : ℚ := pcd.count
  let t1 : ℚ := (pcd.num_less_1us : ℚ) / c * w.alpha
  let t2 : ℚ := (pcd.num_less_5us : ℚ) / c * w.beta
  let t3 : ℚ := (pcd.num_less_10us : ℚ) / c * w.gamma
  let t4 : ℚ := (pcd.num_less_20us : ℚ) / c * w.delta
  [c, (calls : ℚ), c / calls,
   (pcd.num_less_1us : ℚ), (pcd.num_less_1us : ℚ) / c, t1,
   (pcd.num_less_5us : ℚ), (pcd.num_less_5us : ℚ) / c, t2, t1 + t2,
   (pcd.num_less_10us : ℚ), (pcd.num_less_10us : ℚ) / c, t3, t1 + t2 + t3,
   (pcd.num_less_20us : ℚ), (pcd.num_less_20us : ℚ) / c, t4, t1 + t2 + t3 + t4]

/-- The exact results of the operations of `duplication_or_move_opportunity`. -/
def duplication_values (s : stats_t) : List ℚ :=
  [(s.calls : ℚ), (s.num_less_1us : ℚ), (s.num_less_5us : ℚ), (s.num_less_10us : ℚ),
   (s.num_less_1us : ℚ) / s.calls, (s.num_less_5us : ℚ) / s.calls,
   (s.num_less_10us : ℚ) / s.calls]

/-- No value of the list is changed by the rounding `rnd`. -/
def exact_on (rnd : ℚ → ℚ) (xs : List ℚ) : Prop := ∀ x ∈ xs, rnd x = x

instance exact_on_decidable (rnd : ℚ → ℚ) (xs : List ℚ) : Decidable (exact_on rnd xs) :=
  inferInstanceAs (Decidable (∀ x ∈ xs, rnd x = x))

/-- An entry of count 56 with one gap below the first bound and 36 below the second. -/
def tie_entry : parent_call_data_t :=
  { count := 56, num_less_than_10us_from_start := 1, num_less_than_20us_from_start := 36,
    num_less_than_10us_from_end := 1, num_less_than_20us_from_end := 36,
    num_less_1us := 1, num_less_5us := 36 }

/-- An indirect entry of count 5 with one gap below 1 µs and one below 5 µs. -/
def near_entry : parent_call_data_t :=
  { count := 5, num_less_1us := 1, num_less_5us := 1 }

/-- An indirect entry of count 5 with two gaps below 10 µs and three below 20 µs. -/
def far_entry : parent_call_data_t :=
  { count := 5, num_less_10us := 2, num_less_20us := 3 }

/-- A site with six invocations. -/
def six_call_site : call_data_t :=
  { new_call_data .ECALL 0 "ecall_A" with all_stats := { calls := 6 } }

/-- The indirect entry of Scenario B: one successor, its gap below 1 µs. -/
def scenarioB_entry : parent_call_data_t :=
  { count := 1, num_less_1us := 1 }

/-- The owning site of Scenario B: two invocations. -/
def scenarioB_owner : call_data_t :=
  { new_call_data .ECALL 0 "ecall_A" with all_stats := { calls := 2 } }

/-- The exact score `(n1*alpha + n5*beta + n10*gamma + n20*delta) / count` of an entry. -/
def exact_score (w : weights_t) (pcd : parent_call_data_t) : ℚ :=
  ((pcd.num_less_1us : ℚ) * w.alpha + (pcd.num_less_5us : ℚ) * w.beta +
    (pcd.num_less_10us : ℚ) * w.gamma + (pcd.num_less_20us : ℚ) * w.delta) / (pcd.count : ℚ)

/-- An entry of count 2 whose two gaps from the start lie below both bounds and whose gaps
to the end lie below neither. -/
def exact_entry : parent_call_data_t :=
  { count := 2, num_less_than_10us_from_start := 2, num_less_than_20us_from_start := 2,
    num_less_1us := 1 }

/-! ## Aggregation of an enclave (calls.cpp, lines 765-798) -/

/-- One aggregation loop of `analyze_calls` over a registry. -/
def analyze_sites (fsqrt : Nat → Nat) : List call_data_t → Except fault (List call_data_t)
  | [] => .ok []
  | c :: cs =>
    match analyze_call fsqrt c with
    | .error f => .error f
    | .ok c1 =>
      match analyze_sites fsqrt cs with
      | .error f => .error f
      | .ok cs1 => .ok (c1 :: cs1)

/-- The body of the aggregation step for one enclave: both registries are aggregated and
the counts of all sites of a kind are added up in `ecall_count` and `ocall_count`. -/
def analyze_enclave (fsqrt : Nat → Nat) (e : enclave_data_t) : Except fault enclave_data_t :=
  match analyze_sites fsqrt e.ecalls with
  | .error f => .error f
  | .ok ecalls =>
    match analyze_sites fsqrt e.ocalls with
    | .error f => .error f
    | .ok ocalls =>
      .ok { e with ecalls := ecalls, ecall_count := (ecalls.map (fun c => c.all_stats.calls)).sum,
                   ocalls := ocalls, ocall_count := (ocalls.map (fun c => c.all_stats.calls)).sum }

/-- The aggregation step followed by the sorting step, for the enclave stored under
`eid`. -/
def aggregate (fsqrt : Nat → Nat) (s : analyzer_state) (eid : Nat) : Except fault analyzer_state :=
  match analyze_enclave fsqrt (s.encls eid) with
  | .error f => .error f
  | .ok e => .ok { s with encls := map_set s.encls eid (sort_enclave e) }

/-! ## The report of one call site (calls.cpp, lines 458-581) -/

/-- A line of the report of `print_call_data`, with the numbers it shows; `countformat`
lines carry the count and the total it is set against. -/
inductive report_line
  | header (call_id : Nat) (name : String)
  | calls (n total : Nat)
  | overall_duration (ns : Nat)
  | mean_duration (avg std : Nat)
  | longest_call (ns : Nat)
  | called_directly (n total : Nat)
  | called_from_ocall (n total : Nat)
  | can_be_made_private
  | less_1us (n total : Nat)
  | less_5us (n total : Nat)
  | less_10us (n total : Nat)
  | duplicate_or_move
  | separator
  | faster_than (percent ns : Nat)
  | mean_duration_95th (avg std : Nat)
  | less_1us_95th (n total : Nat)
  | less_5us_95th (n total : Nat)
  | less_10us_95th (n total : Nat)
  | direct_successor_of
  | indirect_successor_of
  | related_site (same : Bool) (call_id : Nat) (name : String) (n total : Nat)
  | from_start_10us (n total : Nat)
  | from_start_20us (n total : Nat)
  | reorder_before (call_id parent_id : Nat)
  | from_end_10us (n total : Nat)
  | from_end_20us (n total : Nat)
  | reorder_after (call_id parent_id : Nat)
  | gap_1us (n total : Nat)
  | gap_5us (n total : Nat)
  | gap_10us (n total : Nat)
  | gap_20us (n total : Nat)
  | batching_opportunity
  | merging_opportunity
  | entry_end
  | aex_statistics
  | footer
  | footer_end
  deriving DecidableEq, Repr

/-- The lines written so far and the fault that ended the output, if any. -/
abbrev report := List report_line × Option fault

/-- Output `a` followed by output `b`; nothing follows a fault. -/
def report.andThen (a b : report) : report :=
  match a.2 with
  | some _ => a
  | none => (a.1 ++ b.1, b.2)

/-- Lines written without a fault. -/
def emit (ls : List report_line) : report := (ls, none)

/-- A line that shows `v.at(i)`; `at` throws `std::out_of_range` for `i >= v.size()`. -/
def emit_at (mk : Nat → report_line) (v : List Nat) (i : Nat) : report :=
  match v[i]? with
  | some x => ([mk x], none)
  | none => ([], some .out_of_range)

/-- The body of the loop over `direct_parents_data`; `c` is the site being printed. -/
def print_direct_entry (rnd : ℚ → ℚ) (cfg : config_t) (s : analyzer_state) (c : call_data_t)
    (pc : parent_call_data_t) : report :=
  match pc.call_data with
  | none => emit []
  | some r =>
    match s.site r with
    | none => ([], some .out_of_bounds)
    | some p =>
      emit ([ .related_site false p.call_id p.name pc.count c.all_stats.calls,
              .from_start_10us pc.num_less_than_10us_from_start pc.count,
              .from_start_20us pc.num_less_than_20us_from_start pc.count ] ++
            (if reorder_start_opportunity rnd cfg pc then [.reorder_before c.call_id p.call_id]
             else []) ++
            [ .from_end_10us pc.num_less_than_10us_from_end pc.count,
              .from_end_20us pc.num_less_than_20us_from_end pc.count ] ++
            (if reorder_end_opportunity rnd cfg pc then [.reorder_after c.call_id p.call_id]
             else []) ++
            [ .entry_end ])

/-- The body of the loop over `indirect_parents_data`; `cref` points to the site `c` being
printed. -/
def print_indirect_entry (rnd : ℚ → ℚ) (cfg : config_t) (s : analyzer_state) (cref : call_ref)
    (c : call_data_t) (pc : parent_call_data_t) : report :=
  match pc.call_data with
  | none => emit []
  | some r =>
    match s.site r with
    | none => ([], some .out_of_bounds)
    | some p =>
      emit ([ .related_site (decide (r = cref)) p.call_id p.name pc.count c.all_stats.calls,
              .gap_1us pc.num_less_1us pc.count,
              .gap_5us pc.num_less_5us pc.count,
              .gap_10us pc.num_less_10us pc.count,
              .gap_20us pc.num_less_20us pc.count ] ++
            (if r = cref then
               (if batch_opportunity rnd cfg pc p then [.batching_opportunity] else [])
             else
               (if merge_opportunity rnd cfg pc c then [.merging_opportunity] else [])) ++
            [ .entry_end ])

/-- A `std::for_each` over relation entries. -/
def print_entries (body : parent_call_data_t → report) : List parent_call_data_t → report
  | [] => emit []
  | pc :: rest => (body pc).andThen (print_entries body rest)

/-- The statistics block of `print_call_data`, printed for a site with invocations. -/
def print_statistics (rnd : ℚ → ℚ) (cfg : config_t) (s : analyzer_state) (cref : call_ref)
    (c : call_data_t) : report :=
  let n := c.exectimes.length
  (emit [ .overall_duration c.all_stats.sum, .mean_duration c.all_stats.avg c.all_stats.std ]).andThen
  ((emit_at .longest_call c.exectimes (usub64 n 1)).andThen
  ((emit (if c.type = .ECALL then
      [ .called_directly (usub64 c.all_stats.calls c.num_ecall_called_from_ocalls) c.all_stats.calls,
        .called_from_ocall c.num_ecall_called_from_ocalls c.all_stats.calls ] ++
      (if c.num_ecall_called_from_ocalls = c.all_stats.calls then [.can_be_made_private] else [])
    else [])).andThen
  ((emit ((if c.type = .OCALL then [.less_1us c.all_stats.num_less_1us c.all_stats.calls] else []) ++
      [ .less_5us c.all_stats.num_less_5us c.all_stats.calls,
        .less_10us c.all_stats.num_less_10us c.all_stats.calls ] ++
      (if c.type = .OCALL then
         (if duplication_or_move_opportunity rnd cfg c then [.duplicate_or_move] else [])
       else []) ++
      [ .separator ])).andThen
  ((emit_at (.faster_than 50) c.exectimes (percentile_idx (binary64 (50 / 100)) n)).andThen
  ((emit_at (.faster_than 75) c.exectimes (percentile_idx (binary64 (75 / 100)) n)).andThen
  ((emit_at (.faster_than 95) c.exectimes (percentile_idx (binary64 (95 / 100)) n)).andThen
  ((emit ([ .mean_duration_95th c.stats_95th.avg c.stats_95th.std ] ++
      (if c.type = .OCALL then [.less_1us_95th c.stats_95th.num_less_1us c.stats_95th.calls]
       else []) ++
      [ .less_5us_95th c.stats_95th.num_less_5us c.stats_95th.calls,
        .less_10us_95th c.stats_95th.num_less_10us c.stats_95th.calls ])).andThen
  ((if c.type = .OCALL ∨ 0 < c.num_ecall_called_from_ocalls then
      (emit [ .separator, .direct_successor_of ]).andThen
        (print_entries (print_direct_entry rnd cfg s c) c.direct_parents_data)
    else emit []).andThen
  ((emit (if c.type = .ECALL ∧ c.aex_counts ≠ [] then [ .separator, .aex_statistics ] else [])).andThen
  (if c.has_indirect_parents then
      (emit [ .separator, .indirect_successor_of ]).andThen
        (print_entries (print_indirect_entry rnd cfg s cref c) c.indirect_parents_data)
    else emit []))))))))))

/-- The function `print_call_data(e, c, print_min)`; the pointer `c` is `cref`, resolved in
the globals `s`. -/
def print_call_data (rnd : ℚ → ℚ) (cfg : config_t) (s : analyzer_state) (e : enclave_data_t)
    (cref : call_ref) (print_min : Nat) : report :=
  match s.site cref with
  | none => ([], some .out_of_bounds)
  | some c =>
    if c.all_stats.calls < print_min then emit []
    else
      (emit ([ .header c.call_id c.name ] ++
        (if c.type = .ECALL then [.calls c.all_stats.calls e.ecall_count] else []) ++
        (if c.type = .OCALL then [.calls c.all_stats.calls e.ocall_count] else []))).andThen
      ((if 0 < c.all_stats.calls then print_statistics rnd cfg s cref c else emit []).andThen
      (emit [ .footer, .footer_end ]))

/-- The globals of Scenario A after all rows, the aggregation and the sorting. -/
def scenarioA_report_state : analyzer_state :=
  let s := (rows_out scenarioA_state scenarioA_rows).1
  result_or (aggregate Nat.sqrt s 0) s

/-- The globals of Scenario A before any row, after the aggregation and the sorting: no
site has an invocation (Scenario C for the out-of-boundary site). -/
def idle_report_state : analyzer_state :=
  result_or (aggregate Nat.sqrt scenarioA_state 0) scenarioA_state

/-- The site of Scenario D after the aggregation. -/
def scenarioD_analyzed : call_data_t :=
  result_or (analyze_call Nat.sqrt scenarioD_site) scenarioD_site

/-! ## Bucket counters of a relation entry -/

/-- The two from-start bucket counters of a relation entry. -/
def start_buckets (e : parent_call_data_t) : List Nat :=
  [e.num_less_than_10us_from_start, e.num_less_than_20us_from_start]

/-- The two to-end bucket counters of a relation entry. -/
def end_buckets (e : parent_call_data_t) : List Nat :=
  [e.num_less_than_10us_from_end, e.num_less_than_20us_from_end]

/-- The four gap bucket counters of an indirect relation entry. -/
def gap_buckets (e : parent_call_data_t) : List Nat :=
  [e.num_less_1us, e.num_less_5us, e.num_less_10us, e.num_less_20us]

/-- All eight bucket counters of a relation entry. -/
def all_buckets (e : parent_call_data_t) : List Nat :=
  start_buckets e ++ end_buckets e ++ gap_buckets e

/-- No counter of the list went down. -/
def none_down (old new : List Nat) : Prop :=
  (old.zip new).all (fun p => decide (p.1 ≤ p.2)) = true

/-- At most one counter of the list was incremented, by one, and none went down. -/
def at_most_one_up (old new : List Nat) : Prop :=
  none_down old new ∧ new.sum ≤ old.sum + 1

/-- No counter of the entry went down. -/
def entry_le (e e' : parent_call_data_t) : Prop :=
  e.count ≤ e'.count ∧ none_down (all_buckets e) (all_buckets e')

/-- The from-start buckets and the to-end buckets of a direct relation entry each sum to at
most its count. -/
def direct_bounded (e : parent_call_data_t) : Prop :=
  e.num_less_than_10us_from_start + e.num_less_than_20us_from_start ≤ e.count ∧
  e.num_less_than_10us_from_end + e.num_less_than_20us_from_end ≤ e.count

/-- The gap buckets of an indirect relation entry sum to at most its count. -/
def indirect_bounded (e : parent_call_data_t) : Prop :=
  e.num_less_1us + e.num_less_5us + e.num_less_10us + e.num_less_20us ≤ e.count

/-- Table `tab1` holds, key by key, the entries of `tab` with no counter gone down, and
keeps the bound `B` on every entry that had it. -/
def table_grown (B : parent_call_data_t → Prop) (tab tab1 : List parent_call_data_t) : Prop :=
  tab1.length = tab.length ∧
  ∀ (k : Nat) (e : parent_call_data_t), tab[k]? = some e →
    ∃ e1, tab1[k]? = some e1 ∧ entry_le e e1 ∧ (B e → B e1)

/-- The globals of Scenario A after its first row (the outer into-boundary call A). -/
def scenarioA_after_A : analyzer_state :=
  (rows_out scenarioA_state (scenarioA_rows.take 1)).1

/-- The globals of Scenario A after its second row (the out-of-boundary call B), processed
on its own from `scenarioA_after_A`. -/
def scenarioA_after_B : analyzer_state :=
  (rows_out scenarioA_after_A ((scenarioA_rows.drop 1).take 1)).1

/-- Two rows of one thread: an into-boundary call (1000..2000) and an
out-of-boundary call (1100..1200) made from it. -/
def late_rows : List call_row :=
  [ { iid := 1, type := 15, tid := 0, id := 0, eid := 0, exectime := 1000,
      aex_count := some 0, parent_call := none, starttime := 1000, endtime := 2000 },
    { iid := 2, type := 17, tid := 0, id := 0, eid := 0, exectime := 100, aex_count := none,
      parent_call := some 1, starttime := 1100, endtime := 1200 } ]

/-- The globals of Scenario A after `late_rows`. -/
def late_state : analyzer_state := (rows_out scenarioA_state late_rows).1

/-- An out-of-boundary row (500..3000) that names the into-boundary call of `late_rows`
as its parent event although it starts before and ends after it. -/
def early_row : call_row :=
  { iid := 3, type := 17, tid := 0, id := 0, eid := 0, exectime := 2500, aex_count := none,
    parent_call := some 1, starttime := 500, endtime := 3000 }

/-! ## A site with a single invocation -/

/-- The out-of-boundary site of Scenario A after its only row: one duration of 80 ns. -/
def single_call_site : call_data_t :=
  { new_call_data .OCALL 0 "ocall_B" with exectimes := [80], all_stats := { sum := 80 } }

/-! ## Histogram export (calls.cpp, lines 583-647) -/

/-- Rounding to the nearest binary32 number (24 significant bits, ties to even), the
rounding of the `float` division `percentile / 100.0f`. -/
def binary32 (x : ℚ) : ℚ :=
  if x = 0 then 0
  else
    let u : ℚ := (2 : ℚ) ^ (binade x - 23)
    (round_half_even (x / u) : ℚ) * u

/-- The value `*std::max_element(v.begin(), v.begin() + size)`: the largest of the first
`size` elements; for an empty range the iterator returned is `v.begin() + size` itself. -/
def range_max (v : List Nat) (size : Nat) : Option Nat :=
  match v.take size with
  | [] => v[size]?
  | x :: xs => some (xs.foldl max x)

/-- The value `*std::min_element(v.begin(), v.begin() + size)`. -/
def range_min (v : List Nat) (size : Nat) : Option Nat :=
  match v.take size with
  | [] => v[size]?
  | x :: xs => some (xs.foldl min x)

/-- The loop that fills the array `bin`: both assertions are checked for every value. -/
def fill_bins (max min bins binwidth : Nat) : List Nat → List Nat → Except fault (List Nat)
  | [], bin => .ok bin
  | val :: rest, bin =>
    if val ≤ max then
      let n := usub64 val min / binwidth
      if n < bins + 1 then
        fill_bins max min bins binwidth rest (bin.set n (bin.getD n 0 + 1))
      else .error .assertion
    else .error .assertion

/-- The number of bins chosen for the range `max - min`. -/
def bin_count (range : Nat) : Nat :=
  let bins := if range < 100 then range else 100
  if bins = 0 then 1 else bins

/-- The lines `min + i*binwidth, bin[i]` that `export_call_data_histogram` writes to the
data file once the file is open, for a percentile given as a whole number. -/
def histogram_lines (c : call_data_t) (percentile : Nat) : Except fault (List (Nat × Nat)) :=
  let size := percentile_idx (binary32 ((percentile : ℚ) / 100)) c.exectimes.length
  match range_max c.exectimes size with
  | none => .error .out_of_bounds
  | some max =>
    match range_min c.exectimes size with
    | none => .error .out_of_bounds
    | some min =>
      let bins := bin_count (usub64 max min)
      let binwidth := (usub64 max min / bins + 1) % 2 ^ 64
      match fill_bins max min bins binwidth (c.exectimes.take size)
          (List.replicate (bins + 1) 0) with
      | .error f => .error f
      | .ok bin =>
        .ok ((List.range (bins + 1)).map
          (fun i => ((min + i * binwidth) % 2 ^ 64, bin.getD i 0)))

/-- The function `export_call_data_histogram`: nothing is written without a data folder
name, for a site that `skip_call` leaves out, or when the folder cannot be made
(`folder_ok` is the outcome of `mkdir`). -/
def export_call_data_histogram (cfg : config_t) (folder_ok : Bool) (c : call_data_t)
    (percentile : Nat) : Except fault (Option (List (Nat × Nat))) :=
  if cfg.call_data_filename = [] then .ok none
  else if c.type = .ECALL ∧ skip_call (some c) cfg.ecall_set = true then .ok none
  else if c.type = .OCALL ∧ skip_call (some c) cfg.ocall_set = true then .ok none
  else if folder_ok = false then .ok none
  else
    match histogram_lines c percentile with
    | .error f => .error f
    | .ok lines => .ok (some lines)

/-! ## Graph export (graph.cpp, lines 32-100) -/

/-- A line of the DOT description that `dot_graph` returns: the opening line with the
enclave id, a node with its name, call id and whether it is drawn as a box, an edge with
the names of its ends, its label and whether it is dashed, and the closing brace. -/
inductive dot_line
  | open_graph (eid : Nat)
  | node (name : String) (call_id : Nat) (box : Bool)
  | edge (parent child : String) (label : Nat) (dashed : Bool)
  | close_graph
  deriving DecidableEq, Repr

/-- One of the two loops over the relation entries of the site `cd`: an entry is left out
when `skip_call` says so for the site its `call_data` points to (a null pointer included),
with the inclusion set `set` of that site's kind. -/
def dot_edges (s : analyzer_state) (set : List Nat) (cd : call_data_t) (dashed : Bool) :
    List parent_call_data_t → Except fault (List dot_line)
  | [] => .ok []
  | pcd :: rest =>
    match pcd.call_data with
    | none =>
      if skip_call none set then dot_edges s set cd dashed rest
      else .error .out_of_bounds
    | some r =>
      match s.site r with
      | none => .error .out_of_bounds
      | some p =>
        if skip_call (some p) set then dot_edges s set cd dashed rest
        else
          match dot_edges s set cd dashed rest with
          | .error f => .error f
          | .ok lines => .ok (.edge p.name cd.name pcd.count dashed :: lines)

/-- The body of the loop over a registry: nothing for a site that `skip_call` leaves out
with the set `own` of its kind, otherwise its node, its indirect relations (sites of the
same kind, dashed) and its direct relations (sites of the other kind, set `others`). -/
def dot_site (s : analyzer_state) (own others : List Nat) (box : Bool) (cd : call_data_t) :
    Except fault (List dot_line) :=
  if skip_call (some cd) own then .ok []
  else
    match dot_edges s own cd true cd.indirect_parents_data with
    | .error f => .error f
    | .ok indirect =>
      match dot_edges s others cd false cd.direct_parents_data with
      | .error f => .error f
      | .ok direct => .ok (.node cd.name cd.call_id box :: (indirect ++ direct))

/-- A `std::for_each` over a registry. -/
def dot_sites (s : analyzer_state) (own others : List Nat) (box : Bool) :
    List call_data_t → Except fault (List dot_line)
  | [] => .ok []
  | cd :: rest =>
    match dot_site s own others box cd with
    | .error f => .error f
    | .ok lines =>
      match dot_sites s own others box rest with
      | .error f => .error f
      | .ok more => .ok (lines ++ more)

/-- The function `dot_graph`. -/
def dot_graph (cfg : config_t) (s : analyzer_state) (eid : Nat) :
    Except fault (List dot_line) :=
  match dot_sites s cfg.ecall_set cfg.ocall_set true (s.encls eid).ecalls with
  | .error f => .error f
  | .ok ecalls =>
    match dot_sites s cfg.ocall_set cfg.ecall_set false (s.encls eid).ocalls with
    | .error f => .error f
    | .ok ocalls => .ok (.open_graph eid :: (ecalls ++ ocalls ++ [.close_graph]))

/-! ## The graph in the words of the specification -/

/-- The call site passes the filter of its kind. -/
def passes (set : List Nat) (c : call_data_t) : Bool := !skip_call (some c) set

/-- The edge from the parent `p` into `child` for the relation entry `entry` of the child
that the id of `p` keys: an edge labelled with the count when the parent passes the filter
and the count is not zero, otherwise none. -/
def edge_of (set : List Nat) (child : call_data_t) (dashed : Bool) (p : call_data_t)
    (entry : Option parent_call_data_t) : Option dot_line :=
  match entry with
  | none => none
  | some e =>
    if passes set p = true ∧ e.count ≠ 0 then some (.edge p.name child.name e.count dashed)
    else none

/-- The edges into `child` from the sites `parents` of one kind, each looked up in the
child's table `tab` under the id of the parent. -/
def spec_edges (parents : List call_data_t) (set : List Nat) (child : call_data_t)
    (dashed : Bool) (tab : List parent_call_data_t) : List dot_line :=
  parents.filterMap (fun p => edge_of set child dashed p tab[p.call_id]?)

/-- The node of a site that passes the filter, followed by its dashed edges from the sites
`same` of its kind and its solid edges from the sites `other` of the other kind; nothing
for a site that does not pass. -/
def spec_site (same other : List call_data_t) (own others : List Nat) (box : Bool)
    (c : call_data_t) : List dot_line :=
  if passes own c = true then
    .node c.name c.call_id box ::
      (spec_edges same own c true c.indirect_parents_data ++
       spec_edges other others c false c.direct_parents_data)
  else []

/-- The graph of an enclave: its into-boundary sites, then its out-of-boundary sites. -/
def graph_spec (cfg : config_t) (e : enclave_data_t) (eid : Nat) : List dot_line :=
  .open_graph eid ::
    ((e.ecalls.map (spec_site e.ecalls e.ocalls cfg.ecall_set cfg.ocall_set true)).flatten ++
     (e.ocalls.map (spec_site e.ocalls e.ecalls cfg.ocall_set cfg.ecall_set false)).flatten ++
     [.close_graph])

/-- A relation entry keyed by `k` in a table whose entries name sites of kind `kind` of
enclave `eid`: either untouched, or counted and naming the site at position `k`. -/
def entry_names_key (eid : Nat) (kind : call_type_t) (k : Nat) (e : parent_call_data_t) :
    Prop :=
  (e.count = 0 ∧ e.call_data = none) ∨ (e.count ≠ 0 ∧ e.call_data = some ⟨eid, kind, k⟩)

/-- A registry as `analyze_calls` loads it: the site at position `k` has id `k` (the ids
are dense) and its relation tables are the zeroed vectors of `alloc_parent_tables`, one
entry per site of the other kind and one entry per site of the same kind. -/
def loaded_sites (same other : List call_data_t) : Prop :=
  ∀ p ∈ same.enum, p.2.call_id = p.1 ∧
    p.2.direct_parents_data = List.replicate other.length {} ∧
    p.2.indirect_parents_data = List.replicate same.length {}

/-- Both registries of an enclave are as `analyze_calls` loads them. -/
def loaded_enclave (e : enclave_data_t) : Prop :=
  loaded_sites e.ecalls e.ocalls ∧ loaded_sites e.ocalls e.ecalls

/-- A registry of kind `kind` whose relation tables can be drawn: the site at position `k`
has id `k`, its tables have one entry per site they are keyed by, and every entry is
untouched or names the site whose position is its key. -/
def drawable_sites (eid : Nat) (kind : call_type_t) (same other : List call_data_t) : Prop :=
  ∀ (k : Nat) (c : call_data_t), same[k]? = some c →
    c.call_id = k ∧
    c.direct_parents_data.length = other.length ∧
    c.indirect_parents_data.length = same.length ∧
    (∀ (i : Nat) (e : parent_call_data_t), c.direct_parents_data[i]? = some e →
      entry_names_key eid (other_kind kind) i e) ∧
    (∀ (i : Nat) (e : parent_call_data_t), c.indirect_parents_data[i]? = some e →
      entry_names_key eid kind i e)

/-- Both registries of the enclave stored under `eid` can be drawn. -/
def drawable (s : analyzer_state) (eid : Nat) : Prop :=
  drawable_sites eid .ECALL (s.encls eid).ecalls (s.encls eid).ocalls ∧
  drawable_sites eid .OCALL (s.encls eid).ocalls (s.encls eid).ecalls

instance loaded_sites_decidable (same other : List call_data_t) :
    Decidable (loaded_sites same other) := by
  unfold loaded_sites
  infer_instance

instance loaded_enclave_decidable (e : enclave_data_t) : Decidable (loaded_enclave e) := by
  unfold loaded_enclave
  infer_instance

/-! ## Option parsing (main.cpp, lines 106-203) -/

/-- The characters `isspace` accepts in the "C" locale. -/
def is_space (ch : Char) : Bool :=
  ch.toNat = 32 || (9 ≤ ch.toNat && ch.toNat ≤ 13)

/-- The library function `strtoul(str, nullptr, 10)` on a 64-bit `unsigned long`: leading
white space is skipped, an optional sign is read, then the longest run of decimal digits;
without a digit the result is 0, a value of `2^64` or more gives `ULONG_MAX`, and a minus
sign negates the value modulo `2^64`. -/
def strtoul (str : List Char) : Nat :=
  let s1 := str.dropWhile is_space
  let neg := decide (s1.head? = some '-')
  let s2 := if s1.head? = some '-' ∨ s1.head? = some '+' then s1.drop 1 else s1
  let digits := s2.takeWhile Char.isDigit
  if digits = [] then 0
  else
    let v := digits.foldl (fun a ch => 10 * a + (ch.toNat - '0'.toNat)) 0
    if 2 ^ 64 ≤ v then 2 ^ 64 - 1
    else if neg then (2 ^ 64 - v) % 2 ^ 64 else v

/-- The member function `std::set<uint64_t>::insert`. -/
def set_insert (x : Nat) (set : List Nat) : List Nat :=
  if x ∈ set then set else set.orderedInsert (fun a b => a ≤ b) x

/-- The body of the loop of `case 'g'` for one token: a token that starts with `e` puts
its number into `ecall_set`, one that starts with `o` into `ocall_set`. -/
def select_token (cfg : config_t) (token : List Char) : config_t :=
  let cfg1 : config_t :=
    if token.head? = some 'e' then
      { cfg with ecall_set := set_insert (strtoul (token.drop 1)) cfg.ecall_set }
    else cfg
  if token.head? = some 'o' then
    { cfg1 with ocall_set := set_insert (strtoul (token.drop 1)) cfg1.ocall_set }
  else cfg1

/-- The member function `std::string::find` for a delimiter of one character: the position
of its first occurrence, `none` for `npos`. -/
def find_char (delim : Char) : List Char → Option Nat
  | [] => none
  | ch :: rest => if ch = delim then some 0 else (find_char delim rest).map (fun i => i + 1)

/-- The loop `while ((pos = s.find(delim)) != std::string::npos)` of `case 'g'`: the token
before the first comma is handled and erased together with the comma.  Every pass erases
at least one character, so the first argument, the number of passes allowed, is never
used up when it starts above the length of `s`. -/
def option_g_loop : Nat → config_t → List Char → config_t
  | 0, cfg, _ => cfg
  | fuel + 1, cfg, s =>
    match find_char ',' s with
    | none => cfg
    | some pos =>
      let token := s.take pos
      option_g_loop fuel (select_token cfg token) (s.drop (pos + 1))

/-- The `case 'g'` of the option loop of `main`. -/
def option_g (cfg : config_t) (optarg : List Char) : config_t :=
  option_g_loop (optarg.length + 1) cfg optarg

/-- The `case 'p'` of the option loop of `main`. -/
def option_p (cfg : config_t) (optarg : List Char) : config_t :=
  let cfg0 : config_t := { cfg with phases := { calls := false, sync := false, sec := false } }
  if 'c' ∈ optarg then
    { cfg0 with phases := { cfg0.phases with calls := true } }
  else if 's' ∈ optarg then
    { cfg0 with phases := { cfg0.phases with sync := true } }
  else if 'i' ∈ optarg then
    { cfg0 with phases := { cfg0.phases with calls := true, sec := true } }
  else cfg0

/-- The phases that a phases string asks for, letter by letter: `c` the call analysis, `s`
the synchronisation analysis, `i` the interface analysis together with the call
analysis. -/
def requested_phases (optarg : List Char) : phases_t :=
  { calls := decide ('c' ∈ optarg ∨ 'i' ∈ optarg), sync := decide ('s' ∈ optarg),
    sec := decide ('i' ∈ optarg) }

/-- The ids that a list of ids names with the given letter, token by token. -/
def requested_ids (letter : Char) (optarg : List Char) : List Nat :=
  ((optarg.splitOn ',').filter (fun token => token.head? = some letter)).map
    (fun token => strtoul (token.drop 1))

/-! ## A thread that starts with an out-of-boundary call -/

/-- A thread on which an out-of-boundary call without parent (0..100) is followed by an
into-boundary call (10..90) made from it; a parentless into-boundary call (200..300)
comes next. -/
def parentless_first_rows : List call_row :=
  [ { iid := 1, type := 17, tid := 0, id := 0, eid := 0, exectime := 100, aex_count := none,
      parent_call := none, starttime := 0, endtime := 100 },
    { iid := 2, type := 15, tid := 0, id := 0, eid := 0, exectime := 80, aex_count := some 0,
      parent_call := some 1, starttime := 10, endtime := 90 },
    { iid := 3, type := 15, tid := 0, id := 1, eid := 0, exectime := 100, aex_count := some 0,
      parent_call := none, starttime := 200, endtime := 300 } ]

/-- The thread of `parentless_first_rows` after its first two rows. -/
def parentless_first_thread : thread_t :=
  (rows_out scenarioA_state (parentless_first_rows.take 2)).1.threads 0

/-- Every parent reference of the written records points to a lower slot. -/
def parents_below (calls : List single_call_data_t) : Prop :=
  ∀ (j : Nat) (c : single_call_data_t) (q : Nat), calls[j]? = some c → c.parent = some q → q < j

/-! ## Direct-parent resolution -/

theorem usub64_one (n : Nat) (h0 : 0 < n) (h64 : n ≤ 2 ^ 64) : usub64 n 1 = n - 1 := by
  unfold usub64
  norm_num
  omega

theorem scan_parent_spec (calls : List single_call_data_t) (pid : Nat) :
    ∀ i, i < calls.length →
      (∃ j, scan_parent calls pid i = .ok j ∧ j ≤ i ∧
          (∃ p, calls[j]? = some p ∧ p.event_id = pid) ∧
          ∀ k p, j < k → k ≤ i → calls[k]? = some p → p.event_id ≠ pid) ∨
      (scan_parent calls pid i = .error .assertion ∧
          ∀ k p, k ≤ i → calls[k]? = some p → p.event_id ≠ pid) := by
  intro i
  induction i with
  | zero =>
    intro h
    obtain ⟨p, hp⟩ : ∃ p, calls[0]? = some p := ⟨calls[0], List.getElem?_eq_getElem h⟩
    by_cases he : p.event_id = pid
    · left
      refine ⟨0, ?_, le_refl _, ⟨p, hp, he⟩, ?_⟩
      · simp [scan_parent, hp, he]
      · intro k q h1 h2; omega
    · right
      refine ⟨?_, ?_⟩
      · simp [scan_parent, hp, he]
      · intro k q hk hq
        have : k = 0 := by omega
        subst this
        rw [hp] at hq
        cases hq
        exact he
  | succ i ih =>
    intro h
    obtain ⟨p, hp⟩ : ∃ p, calls[i + 1]? = some p := ⟨calls[i + 1], List.getElem?_eq_getElem h⟩
    by_cases he : p.event_id = pid
    · left
      refine ⟨i + 1, ?_, le_refl _, ⟨p, hp, he⟩, ?_⟩
      · simp [scan_parent, hp, he]
      · intro k q h1 h2; omega
    · have hstep : scan_parent calls pid (i + 1) = scan_parent calls pid i := by
        simp [scan_parent, hp, he]
      rcases ih (by omega) with ⟨j, hj, hji, hex, hall⟩ | ⟨hj, hall⟩
      · left
        refine ⟨j, by rw [hstep]; exact hj, by omega, hex, ?_⟩
        intro k q h1 h2 hq
        by_cases hk : k = i + 1
        · subst hk
          rw [hp] at hq
          cases hq
          exact he
        · exact hall k q h1 (by omega) hq
      · right
        refine ⟨by rw [hstep]; exact hj, ?_⟩
        intro k q h2 hq
        by_cases hk : k = i + 1
        · subst hk
          rw [hp] at hq
          cases hq
          exact he
        · exact hall k q (by omega) hq

theorem scan_parent_nil (pid i : Nat) : scan_parent [] pid i = .error .out_of_bounds := by
  cases i <;> simp [scan_parent]

theorem find_direct_parent_some (t : thread_t) (pid : Nat) :
    find_direct_parent t (some pid) =
      (match scan_parent t.calls pid (usub64 t.next_call_index 1) with
       | .error f => .error f
       | .ok i => .ok (some i)) := rfl

/-- On a non-empty thread a parent event id that occurs among the written records resolves
to the highest slot holding it. -/
theorem find_direct_parent_found (t : thread_t) (pid j : Nat) (p : single_call_data_t)
    (h64 : t.calls.length ≤ 2 ^ 64) (hj : t.calls[j]? = some p) (hp : p.event_id = pid) :
    ∃ i, find_direct_parent t (some pid) = .ok (some i) ∧ j ≤ i ∧
      (∃ q, t.calls[i]? = some q ∧ q.event_id = pid) ∧
      ∀ k q, i < k → t.calls[k]? = some q → q.event_id ≠ pid := by
  have hjlt : j < t.calls.length := by
    by_contra hcon
    rw [List.getElem?_eq_none (by omega)] at hj
    cases hj
  have hstart : usub64 t.next_call_index 1 = t.calls.length - 1 :=
    usub64_one _ (by unfold thread_t.next_call_index; omega) h64
  rcases scan_parent_spec t.calls pid (t.calls.length - 1) (by omega) with
    ⟨i, hi, hile, hex, hall⟩ | ⟨_, hall⟩
  · refine ⟨i, ?_, ?_, hex, ?_⟩
    · rw [find_direct_parent_some, hstart, hi]
    · by_contra hcon
      exact hall j p (by omega) (by omega) hj hp
    · intro k q hk hq
      have hklt : k < t.calls.length := by
        by_contra hcon
        rw [List.getElem?_eq_none (by omega)] at hq
        cases hq
      exact hall k q hk (by omega) hq
  · exact absurd hp (hall j p (by omega) hj)

/-- On a non-empty thread a parent event id that no written record carries makes the
assertion fire. -/
theorem find_direct_parent_absent (t : thread_t) (pid : Nat)
    (h0 : 0 < t.calls.length) (h64 : t.calls.length ≤ 2 ^ 64)
    (hno : ∀ (k : Nat) (q : single_call_data_t), t.calls[k]? = some q → q.event_id ≠ pid) :
    find_direct_parent t (some pid) = .error .assertion := by
  have hstart : usub64 t.next_call_index 1 = t.calls.length - 1 :=
    usub64_one _ (by unfold thread_t.next_call_index; omega) h64
  rcases scan_parent_spec t.calls pid (t.calls.length - 1) (by omega) with
    ⟨i, _, _, ⟨q, hq, hqe⟩, _⟩ | ⟨herr, _⟩
  · exact absurd hqe (hno i q hq)
  · rw [find_direct_parent_some, hstart, herr]

/-- Claim C1 at its failing input, a row with a parent event id on a thread without
records: the scan starts at slot `2^64 - 1`, reads outside the written records, and the
assertion `i != 0` is not what stops it.  Shown for every thread and parent event id, and for
`call_data_callback` on the first row of Scenario A given a parent event id. -/
theorem direct_parent_scan_on_empty_thread (t : thread_t) (pid : Nat) :
    find_direct_parent { t with calls := [] } (some pid) = .error .out_of_bounds ∧
    find_direct_parent { t with calls := [] } (some pid) ≠ .error .assertion ∧
    failure_of (call_data_callback scenarioA_state
      { iid := 1, type := 15, tid := 0, id := 0, eid := 0, exectime := 100,
        aex_count := some 0, parent_call := some 7, starttime := 0, endtime := 100 })
      = some .out_of_bounds := by
  have h : find_direct_parent { t with calls := [] } (some pid) = .error .out_of_bounds := by
    simp [find_direct_parent_some, scan_parent_nil]
  refine ⟨h, ?_, ?_⟩
  · rw [h]; decide
  · decide

/-! ## Indirect-parent resolution -/

theorem indirect_walk_succ (calls : List single_call_data_t) (kind other : call_type_t)
    (P : Option Nat) (fuel : Nat) (i : Int) :
    indirect_walk calls kind other P (fuel + 1) (some i) =
      if ptr_gt i P then
        match read_slot calls i with
        | none => .error .out_of_bounds
        | some c =>
          if c.type = kind then
            if c.parent = P then .ok (some i.toNat)
            else indirect_walk calls kind other P fuel
                   (match c.parent with
                    | some q => some ((q : Int) - 1)
                    | none => none)
          else if c.type = other then
            indirect_walk calls kind other P fuel
              (match c.parent with
               | some q => some (q : Int)
               | none => none)
          else indirect_walk calls kind other P fuel (some i)
      else .ok none := by
  rw [indirect_walk]

theorem indirect_walk_none (calls : List single_call_data_t) (kind other : call_type_t)
    (P : Option Nat) (fuel : Nat) :
    indirect_walk calls kind other P fuel none = .ok none := by
  cases fuel <;> rw [indirect_walk]

theorem indirect_walk_correct (calls : List single_call_data_t) (kind other : call_type_t)
    (P : Option Nat) (hpre : walk_pre calls kind other P) :
    ∀ (fuel : Nat) (i : Int), -1 ≤ i → i < calls.length → i + 1 ≤ fuel →
      (i = -1 → P ≠ none) →
      (∀ j : Nat, i < j → ¬ is_sibling calls kind P j) →
      ∃ res, indirect_walk calls kind other P fuel (some i) = .ok res ∧
        nearest_sibling calls kind P res := by
  intro fuel
  induction fuel with
  | zero =>
    intro i h1 _ h3 h4 hinv
    have hi : i = -1 := by omega
    obtain ⟨p, hp⟩ := Option.ne_none_iff_exists'.mp (h4 hi)
    refine ⟨none, ?_, ?_⟩
    · subst hi
      subst hp
      rw [indirect_walk]
      have : ptr_gt (-1) (some p) = false := by
        simp only [ptr_gt, decide_eq_false_iff_not]
        omega
      simp [this]
    · intro j
      exact hinv j (by omega)
  | succ fuel ih =>
    intro i h1 h2 h3 h4 hinv
    rw [indirect_walk_succ]
    by_cases hgt : ptr_gt i P = true
    · rw [if_pos hgt]
      have hi0 : 0 ≤ i := by
        by_contra hneg
        have hi : i = -1 := by omega
        obtain ⟨p, hp⟩ := Option.ne_none_iff_exists'.mp (h4 hi)
        subst hi
        subst hp
        simp only [ptr_gt, decide_eq_true_eq] at hgt
        omega
      have hlt : i.toNat < calls.length := by omega
      obtain ⟨c, hc⟩ : ∃ c, calls[i.toNat]? = some c :=
        ⟨calls[i.toNat], List.getElem?_eq_getElem hlt⟩
      have hread : read_slot calls i = some c := by
        simp [read_slot, hi0, hc]
      rw [hread]
      simp only []
      -- facts about the new record's parent
      have hP : ∀ p, P = some p → (p : Int) < i := by
        intro p hp
        subst hp
        simpa [ptr_gt] using hgt
      by_cases hck : c.type = kind
      · rw [if_pos hck]
        by_cases hcp : c.parent = P
        · rw [if_pos hcp]
          refine ⟨some i.toNat, rfl, ⟨c, hc, hck, hcp⟩, ?_⟩
          intro j' hj'
          exact hinv j' (by omega)
        · rw [if_neg hcp]
          cases hq : c.parent with
          | none =>
            exfalso
            cases hPp : P with
            | none => exact hcp (by rw [hq, hPp])
            | some p =>
              have hpi := hP p hPp
              obtain ⟨x, hx, _⟩ := (hpre.H3 p hPp).2 i.toNat c (by omega) hc
              rw [hq] at hx
              cases hx
          | some q =>
            obtain ⟨hqlt, ⟨cq, hcq, hcqt⟩, hbetween⟩ := hpre.H2 _ c q hc hq
            have hrec := ih ((q : Int) - 1) (by omega) (by omega) (by omega) ?_ ?_
            · obtain ⟨res, hres, hpost⟩ := hrec
              exact ⟨res, hres, hpost⟩
            · intro hq0 hPn
              have hq0' : q = 0 := by omega
              subst hq0'
              have hcqo : cq.type = other := by
                rcases hpre.H1 0 cq hcq with h | h
                · exact absurd (h.trans hck.symm) hcqt
                · exact h
              have hne := hpre.H4 hPn 0 cq hcq hcqo
              obtain ⟨y, hy⟩ := Option.ne_none_iff_exists'.mp hne
              have := (hpre.H2 0 cq y hcq hy).1
              omega
            · intro j hj hsib
              obtain ⟨cj, hcj, hcjk, hcjp⟩ := hsib
              by_cases hji : (i : Int) < j
              · exact hinv j hji ⟨cj, hcj, hcjk, hcjp⟩
              · by_cases hjeq : j = i.toNat
                · subst hjeq
                  rw [hc] at hcj
                  cases hcj
                  exact hcp hcjp
                · by_cases hjq : j = q
                  · subst hjq
                    rw [hcq] at hcj
                    cases hcj
                    exact hcqt (hcjk.trans hck.symm)
                  · obtain ⟨x, hx, hqx⟩ := hbetween j cj (by omega) (by omega) hcj
                    have hPx : P = some x := by rw [← hcjp, hx]
                    have hxj := (hpre.H2 j cj x hcj hx).1
                    have hxq : x ≠ q := by
                      intro h
                      apply hcp
                      rw [hq, hPx, h]
                    obtain ⟨y, hy, hxy⟩ := (hpre.H3 x hPx).2 i.toNat c (by omega) hc
                    rw [hq] at hy
                    cases hy
                    omega
      · rw [if_neg hck]
        have hco : c.type = other := (hpre.H1 _ c hc).resolve_left hck
        rw [if_pos hco]
        cases hq : c.parent with
        | none =>
          exfalso
          cases hPp : P with
          | none => exact hpre.H4 hPp _ c hc hco hq
          | some p =>
            have hpi := hP p hPp
            obtain ⟨x, hx, _⟩ := (hpre.H3 p hPp).2 i.toNat c (by omega) hc
            rw [hq] at hx
            cases hx
        | some q =>
          obtain ⟨hqlt, ⟨cq, hcq, hcqt⟩, hbetween⟩ := hpre.H2 _ c q hc hq
          have hrec := ih (q : Int) (by omega) (by omega) (by omega) (by omega) ?_
          · obtain ⟨res, hres, hpost⟩ := hrec
            exact ⟨res, hres, hpost⟩
          · intro j hj hsib
            obtain ⟨cj, hcj, hcjk, hcjp⟩ := hsib
            by_cases hji : (i : Int) < j
            · exact hinv j hji ⟨cj, hcj, hcjk, hcjp⟩
            · by_cases hjeq : j = i.toNat
              · subst hjeq
                rw [hc] at hcj
                cases hcj
                exact hck hcjk
              · obtain ⟨x, hx, hqx⟩ := hbetween j cj (by omega) (by omega) hcj
                have hPx : P = some x := by rw [← hcjp, hx]
                have hxj := (hpre.H2 j cj x hcj hx).1
                by_cases hxq : x = q
                · subst hxq
                  obtain ⟨cp, hcp, hcpt⟩ := (hpre.H3 x hPx).1
                  rw [hcq] at hcp
                  cases hcp
                  rcases hpre.H1 x cq hcq with h | h
                  · exact hcpt h
                  · exact hcqt (h.trans hco.symm)
                · obtain ⟨y, hy, hxy⟩ := (hpre.H3 x hPx).2 i.toNat c (by omega) hc
                  rw [hq] at hy
                  cases hy
                  omega
    · rw [if_neg hgt]
      refine ⟨none, rfl, ?_⟩
      intro j hsib
      obtain ⟨cj, hcj, hcjk, hcjp⟩ := hsib
      cases hPp : P with
      | none =>
        rw [hPp] at hgt
        simp [ptr_gt] at hgt
      | some p =>
        rw [hPp] at hgt hcjp
        simp only [ptr_gt, decide_eq_true_eq, not_lt] at hgt
        have hpj := (hpre.H2 j cj p hcj hcjp).1
        exact hinv j (by omega) ⟨cj, hcj, hcjk, by rw [hPp]; exact hcjp⟩

theorem walk_pre_of_well_nested (calls : List single_call_data_t) (scd : single_call_data_t)
    (hwn : well_nested (calls ++ [scd]))
    (htop : scd.parent = none → ∀ c ∈ calls, c.type ≠ scd.type → c.parent ≠ none) :
    walk_pre calls scd.type (other_kind scd.type) scd.parent := by
  obtain ⟨hty, hord, hpar⟩ := hwn
  have hin : ∀ (j : Nat) (c : single_call_data_t), calls[j]? = some c →
      (calls ++ [scd])[j]? = some c ∧ j < calls.length := by
    intro j c hc
    have hj : j < calls.length := by
      by_contra hcon
      rw [List.getElem?_eq_none (by omega)] at hc
      cases hc
    exact ⟨by rw [List.getElem?_append_left hj]; exact hc, hj⟩
  have hnew : (calls ++ [scd])[calls.length]? = some scd := by
    simp
  have hback : ∀ (j : Nat) (c : single_call_data_t), j < calls.length →
      (calls ++ [scd])[j]? = some c → calls[j]? = some c := by
    intro j c hj hc
    rw [List.getElem?_append_left hj] at hc
    exact hc
  have hst := (hty _ scd hnew).1
  refine ⟨?_, ?_, ?_, ?_, ?_⟩
  · rcases hst with h | h <;> rw [h] <;> decide
  · intro j c hc
    have hct := (hty j c (hin j c hc).1).1
    rcases hst with h | h <;> rcases hct with h' | h' <;> rw [h, h'] <;> decide
  · intro j c q hc hq
    obtain ⟨hcj, hjn⟩ := hin j c hc
    obtain ⟨hqj, cq, hcq, hcqt, hs, he⟩ := hpar j c q hcj hq
    refine ⟨hqj, ⟨cq, hback q cq (by omega) hcq, hcqt⟩, ?_⟩
    intro m cm hqm hmj hcm
    obtain ⟨hcm', _⟩ := hin m cm hcm
    have h1 := (hord m j cm c hmj hcm' hcj).1
    have h2 := (hty j c hcj).2
    rcases (hord q m cq cm hqm hcq hcm').2 with h | h
    · omega
    · exact h
  · intro p hp
    obtain ⟨hpn, cp, hcp, hcpt, hs, he⟩ := hpar _ scd p hnew hp
    refine ⟨⟨cp, hback p cp hpn hcp, hcpt⟩, ?_⟩
    intro m cm hpm hcm
    obtain ⟨hcm', hmn⟩ := hin m cm hcm
    have h1 := (hord m _ cm scd hmn hcm' hnew).1
    have h2 := (hty _ scd hnew).2
    rcases (hord p m cp cm hpm hcp hcm').2 with h | h
    · omega
    · exact h
  · intro hnone j c hc hco
    refine htop hnone c (List.getElem?_mem hc) ?_
    rw [hco]
    rcases hst with h | h <;> rw [h] <;> decide

theorem update_indirect_count (ipcd : parent_call_data_t) (cd : call_ref)
    (scd c : single_call_data_t) : (update_indirect ipcd cd scd c).count = ipcd.count + 1 := by
  unfold update_indirect
  simp only []
  split_ifs <;> rfl

theorem well_nested_parentless_ocall :
    well_nested (parentless_ocall_calls ++ [parentless_ocall_new]) := by
  refine ⟨?_, ?_, ?_⟩
  · intro j r h
    rcases j with _ | _ | _ | j <;>
      simp [parentless_ocall_calls, parentless_ocall_new] at h <;> subst h <;> simp
  · intro i j ri rj hij hi hj
    rcases i with _ | _ | _ | i <;> rcases j with _ | _ | _ | j <;>
      simp [parentless_ocall_calls, parentless_ocall_new] at hi hj <;>
      first
      | omega
      | (subst hi; subst hj; simp)
  · intro j r p h hp
    rcases j with _ | _ | _ | j <;>
      simp [parentless_ocall_calls, parentless_ocall_new] at h <;> subst h <;> simp at hp

theorem well_nested_nested_thread : well_nested (nested_thread.calls ++ [nested_new]) := by
  refine ⟨?_, ?_, ?_⟩
  · intro j r h
    rcases j with _ | _ | _ | _ | j <;>
      simp [nested_thread, nested_new] at h <;> subst h <;> simp
  · intro i j ri rj hij hi hj
    rcases i with _ | _ | _ | _ | i <;> rcases j with _ | _ | _ | _ | j <;>
      simp [nested_thread, nested_new] at hi hj <;>
      first
      | omega
      | (subst hi; subst hj; simp)
  · intro j r p h hp
    rcases j with _ | _ | _ | _ | j <;>
      simp [nested_thread, nested_new] at h <;> subst h <;> simp at hp <;> subst hp <;>
      simp [nested_thread, nested_new]

/-- Claim C2 as stated fails: on a well-nested thread holding an into-boundary call
without parent followed by an out-of-boundary call without parent, the walk for a further
into-boundary call without parent steps from the out-of-boundary record to its null parent
and matches nothing, although slot 0 holds a record of the same kind with the same (absent)
parent. -/
theorem indirect_walk_misses_sibling_behind_parentless_ocall :
    well_nested (parentless_ocall_calls ++ [parentless_ocall_new]) ∧
    find_indirect_parent { id := 0, pthread_id := 0, events := 3, calls := parentless_ocall_calls }
      parentless_ocall_new.type (other_kind parentless_ocall_new.type)
      parentless_ocall_new.parent = .ok none ∧
    is_sibling parentless_ocall_calls parentless_ocall_new.type parentless_ocall_new.parent 0 :=
  ⟨well_nested_parentless_ocall, by decide, ⟨_, rfl, rfl, rfl⟩⟩

/-- Claim C2, amended: on a well-nested thread, for a new record that has a resolved parent
or is preceded by no parentless record of the other kind, the walk returns (it neither
faults nor runs out of iterations) and matches exactly the highest slot holding a record of
the new record's kind with the new record's resolved parent, and nothing when there is no
such slot.  The relation update that follows leaves the table's size alone and adds 1 to
the count of the entry keyed by the matched record's call-site id and 0 to every other
entry. -/
theorem indirect_parent_is_nearest_sibling (t : thread_t) (scd : single_call_data_t)
    (hwn : well_nested (t.calls ++ [scd]))
    (htop : scd.parent = none → ∀ c ∈ t.calls, c.type ≠ scd.type → c.parent ≠ none) :
    ∃ res, find_indirect_parent t scd.type (other_kind scd.type) scd.parent = .ok res ∧
      nearest_sibling t.calls scd.type scd.parent res ∧
      ∀ (eid n_same : Nat) (thiz thiz' : call_data_t),
        indirect_relation eid scd.type n_same thiz scd t.calls res = .ok thiz' →
        thiz'.indirect_parents_data.length = thiz.indirect_parents_data.length ∧
        ∀ (k : Nat) (e : parent_call_data_t), thiz.indirect_parents_data[k]? = some e →
          ∃ e', thiz'.indirect_parents_data[k]? = some e' ∧
            e'.count = e.count + (if slot_call_id t.calls res = some k then 1 else 0) := by
  have hpre := walk_pre_of_well_nested t.calls scd hwn htop
  have hfind : ∃ res, find_indirect_parent t scd.type (other_kind scd.type) scd.parent
      = .ok res ∧ nearest_sibling t.calls scd.type scd.parent res := by
    unfold find_indirect_parent thread_t.next_call_index
    by_cases hn : t.calls.length = 0
    · refine ⟨none, by simp [hn], ?_⟩
      intro j hsib
      obtain ⟨c, hc, _⟩ := hsib
      rw [List.getElem?_eq_none (by omega)] at hc
      cases hc
    · rw [if_pos hn]
      exact indirect_walk_correct t.calls scd.type (other_kind scd.type) scd.parent hpre
        t.calls.length ((t.calls.length : Int) - 1) (by omega) (by omega) (by omega)
        (by omega) (by intro j hj hsib
                       obtain ⟨c, hc, _⟩ := hsib
                       rw [List.getElem?_eq_none (by omega)] at hc
                       cases hc)
  obtain ⟨res, hres, hnear⟩ := hfind
  refine ⟨res, hres, hnear, ?_⟩
  intro eid n_same thiz thiz' hrel
  unfold indirect_relation at hrel
  cases res with
  | none =>
    simp only [Except.ok.injEq] at hrel
    subst hrel
    refine ⟨rfl, ?_⟩
    intro k e he
    exact ⟨e, he, by simp [slot_call_id, slot_record]⟩
  | some i =>
    simp only [] at hrel
    cases hc : t.calls[i]? with
    | none => rw [hc] at hrel; cases hrel
    | some c =>
      rw [hc] at hrel
      simp only [] at hrel
      cases hd : thiz.indirect_parents_data[c.call_id]? with
      | none => rw [hd] at hrel; cases hrel
      | some ipcd =>
        rw [hd] at hrel
        simp only [] at hrel
        split_ifs at hrel with hlt
        simp only [Except.ok.injEq] at hrel
        subst hrel
        refine ⟨by simp, ?_⟩
        intro k e he
        by_cases hk : c.call_id = k
        · subst hk
          rw [hd] at he
          cases he
          have hlen : c.call_id < thiz.indirect_parents_data.length := by
            by_contra hcon
            rw [List.getElem?_eq_none (by omega)] at hd
            cases hd
          refine ⟨update_indirect ipcd ⟨eid, scd.type, c.call_id⟩ scd c,
            by simp [List.getElem?_set, hlen], ?_⟩
          rw [update_indirect_count]
          simp [slot_call_id, slot_record, hc]
        · refine ⟨e, by simp [List.getElem?_set, hk, he], ?_⟩
          simp [slot_call_id, slot_record, hc, hk]

theorem indirect_parent_is_nearest_sibling_witness :
    well_nested (nested_thread.calls ++ [nested_new]) ∧
    ∃ res, find_indirect_parent nested_thread nested_new.type (other_kind nested_new.type)
        nested_new.parent = .ok res ∧
      nearest_sibling nested_thread.calls nested_new.type nested_new.parent res ∧
      ∀ (eid n_same : Nat) (thiz thiz' : call_data_t),
        indirect_relation eid nested_new.type n_same thiz nested_new nested_thread.calls res
          = .ok thiz' →
        thiz'.indirect_parents_data.length = thiz.indirect_parents_data.length ∧
        ∀ (k : Nat) (e : parent_call_data_t), thiz.indirect_parents_data[k]? = some e →
          ∃ e', thiz'.indirect_parents_data[k]? = some e' ∧
            e'.count = e.count +
              (if slot_call_id nested_thread.calls res = some k then 1 else 0) :=
  ⟨well_nested_nested_thread,
   indirect_parent_is_nearest_sibling nested_thread nested_new well_nested_nested_thread
     (by intro h; exact absurd h (by decide))⟩

/-! ## What one row does to its call site -/

theorem direct_relation_ok (eid : Nat) (other : call_type_t) (n_other : Nat) (bump : Bool)
    (thiz thiz1 : call_data_t) (scd : single_call_data_t) (calls : List single_call_data_t)
    (dp : Option Nat)
    (h : direct_relation eid other n_other bump thiz scd calls dp = .ok thiz1) :
    (dp = none ∧ thiz1 = thiz) ∨
    ∃ i p e, dp = some i ∧ calls[i]? = some p ∧
      thiz.direct_parents_data[p.call_id]? = some e ∧ p.call_id < n_other ∧
      thiz1 = { thiz with
                has_direct_parents := true
                num_ecall_called_from_ocalls :=
                  if bump then thiz.num_ecall_called_from_ocalls + 1
                  else thiz.num_ecall_called_from_ocalls
                direct_parents_data :=
                  thiz.direct_parents_data.set p.call_id
                    (update_direct e ⟨eid, other, p.call_id⟩ scd p) } := by
  unfold direct_relation at h
  cases dp with
  | none =>
    left
    simp only [Except.ok.injEq] at h
    exact ⟨rfl, h.symm⟩
  | some i =>
    right
    simp only [] at h
    cases hc : calls[i]? with
    | none => rw [hc] at h; cases h
    | some p =>
      rw [hc] at h
      simp only [] at h
      cases hd : thiz.direct_parents_data[p.call_id]? with
      | none => rw [hd] at h; cases h
      | some e =>
        rw [hd] at h
        simp only [] at h
        by_cases hlt : p.call_id < n_other
        · rw [if_pos hlt] at h
          simp only [Except.ok.injEq] at h
          exact ⟨i, p, e, rfl, hc, hd, hlt, h.symm⟩
        · rw [if_neg hlt] at h
          cases h

theorem indirect_relation_ok (eid : Nat) (kind : call_type_t) (n_same : Nat)
    (thiz thiz2 : call_data_t) (scd : single_call_data_t) (calls : List single_call_data_t)
    (ip : Option Nat)
    (h : indirect_relation eid kind n_same thiz scd calls ip = .ok thiz2) :
    (ip = none ∧ thiz2 = thiz) ∨
    ∃ i c e, ip = some i ∧ calls[i]? = some c ∧
      thiz.indirect_parents_data[c.call_id]? = some e ∧ c.call_id < n_same ∧
      thiz2 = { thiz with
                has_indirect_parents := true
                indirect_parents_data :=
                  thiz.indirect_parents_data.set c.call_id
                    (update_indirect e ⟨eid, kind, c.call_id⟩ scd c) } := by
  unfold indirect_relation at h
  cases ip with
  | none =>
    left
    simp only [Except.ok.injEq] at h
    exact ⟨rfl, h.symm⟩
  | some i =>
    right
    simp only [] at h
    cases hc : calls[i]? with
    | none => rw [hc] at h; cases h
    | some c =>
      rw [hc] at h
      simp only [] at h
      cases hd : thiz.indirect_parents_data[c.call_id]? with
      | none => rw [hd] at h; cases h
      | some e =>
        rw [hd] at h
        simp only [] at h
        by_cases hlt : c.call_id < n_same
        · rw [if_pos hlt] at h
          simp only [Except.ok.injEq] at h
          exact ⟨i, c, e, rfl, hc, hd, hlt, h.symm⟩
        · rw [if_neg hlt] at h
          cases h

theorem site_step_ok (eid : Nat) (kind other : call_type_t) (n_same n_other : Nat)
    (bump : Bool) (thiz thiz' : call_data_t) (t t' : thread_t) (r : call_row)
    (o : observation)
    (h : site_step eid kind other n_same n_other bump thiz t r = .ok (thiz', t', o)) :
    ∃ dp ip thiz1 thiz2,
      find_direct_parent t r.parent_call = .ok dp ∧
      direct_relation eid other n_other bump thiz (scd_of_row kind r) t.calls dp = .ok thiz1 ∧
      find_indirect_parent t kind other dp = .ok ip ∧
      indirect_relation eid kind n_same thiz1 { scd_of_row kind r with parent := dp } t.calls ip
        = .ok thiz2 ∧
      t.next_call_index < t.events ∧
      thiz' = { thiz2 with
                single_calls := thiz2.single_calls ++ [⟨r.tid, t.next_call_index + 1⟩] } ∧
      t' = { t with calls := t.calls ++ [{ scd_of_row kind r with parent := dp }] } ∧
      o = { row := r, scd := { scd_of_row kind r with parent := dp },
            slot := t.next_call_index, direct := slot_record t.calls dp, indirect_slot := ip,
            indirect := slot_record t.calls ip } := by
  unfold site_step at h
  simp only [] at h
  cases h1 : find_direct_parent t r.parent_call with
  | error f => rw [h1] at h; cases h
  | ok dp =>
    rw [h1] at h
    simp only [] at h
    cases h2 : direct_relation eid other n_other bump thiz (scd_of_row kind r) t.calls dp with
    | error f => rw [h2] at h; cases h
    | ok thiz1 =>
      rw [h2] at h
      simp only [] at h
      cases h3 : find_indirect_parent t kind other dp with
      | error f => rw [h3] at h; cases h
      | ok ip =>
        rw [h3] at h
        simp only [] at h
        cases h4 : indirect_relation eid kind n_same thiz1
            { scd_of_row kind r with parent := dp } t.calls ip with
        | error f => rw [h4] at h; cases h
        | ok thiz2 =>
          rw [h4] at h
          simp only [] at h
          split_ifs at h with hcap
          simp only [Except.ok.injEq, Prod.mk.injEq] at h
          obtain ⟨ha, hb, hc⟩ := h
          exact ⟨dp, ip, thiz1, thiz2, rfl, h2, h3, h4, hcap, ha.symm, hb.symm, hc.symm⟩

/-! ## Gap bucketing -/

theorem update_direct_spec (e : parent_call_data_t) (cd : call_ref)
    (scd p : single_call_data_t) :
    (update_direct e cd scd p).count = e.count + 1 ∧
    (update_direct e cd scd p).call_data = some cd ∧
    (update_direct e cd scd p).num_less_than_10us_from_start =
      e.num_less_than_10us_from_start + (if usub64 scd.start p.start < 10000 then 1 else 0) ∧
    (update_direct e cd scd p).num_less_than_20us_from_start =
      e.num_less_than_20us_from_start +
        (if 10000 ≤ usub64 scd.start p.start ∧ usub64 scd.start p.start < 20000
         then 1 else 0) ∧
    (update_direct e cd scd p).num_less_than_10us_from_end =
      e.num_less_than_10us_from_end + (if usub64 p.end_ scd.end_ < 10000 then 1 else 0) ∧
    (update_direct e cd scd p).num_less_than_20us_from_end =
      e.num_less_than_20us_from_end +
        (if 10000 ≤ usub64 p.end_ scd.end_ ∧ usub64 p.end_ scd.end_ < 20000
         then 1 else 0) ∧
    (update_direct e cd scd p).num_less_1us = e.num_less_1us ∧
    (update_direct e cd scd p).num_less_5us = e.num_less_5us ∧
    (update_direct e cd scd p).num_less_10us = e.num_less_10us ∧
    (update_direct e cd scd p).num_less_20us = e.num_less_20us := by
  unfold update_direct
  simp only []
  generalize usub64 scd.start p.start = gs
  generalize usub64 p.end_ scd.end_ = ge
  refine ⟨?_, ?_, ?_, ?_, ?_, ?_, ?_, ?_, ?_, ?_⟩ <;> split_ifs <;> first | rfl | omega

theorem update_indirect_spec (e : parent_call_data_t) (cd : call_ref)
    (scd c : single_call_data_t) :
    (update_indirect e cd scd c).count = e.count + 1 ∧
    (update_indirect e cd scd c).call_data = some cd ∧
    (update_indirect e cd scd c).num_less_1us =
      e.num_less_1us + (if usub64 scd.start c.end_ < 1000 then 1 else 0) ∧
    (update_indirect e cd scd c).num_less_5us =
      e.num_less_5us +
        (if 1000 ≤ usub64 scd.start c.end_ ∧ usub64 scd.start c.end_ < 5000 then 1 else 0) ∧
    (update_indirect e cd scd c).num_less_10us =
      e.num_less_10us +
        (if 5000 ≤ usub64 scd.start c.end_ ∧ usub64 scd.start c.end_ < 10000 then 1 else 0) ∧
    (update_indirect e cd scd c).num_less_20us =
      e.num_less_20us +
        (if 10000 ≤ usub64 scd.start c.end_ ∧ usub64 scd.start c.end_ < 20000
         then 1 else 0) ∧
    (update_indirect e cd scd c).num_less_than_10us_from_start =
      e.num_less_than_10us_from_start ∧
    (update_indirect e cd scd c).num_less_than_20us_from_start =
      e.num_less_than_20us_from_start ∧
    (update_indirect e cd scd c).num_less_than_10us_from_end =
      e.num_less_than_10us_from_end ∧
    (update_indirect e cd scd c).num_less_than_20us_from_end =
      e.num_less_than_20us_from_end := by
  unfold update_indirect
  simp only []
  generalize usub64 scd.start c.end_ = g
  refine ⟨?_, ?_, ?_, ?_, ?_, ?_, ?_, ?_, ?_, ?_⟩ <;> split_ifs <;> first | rfl | omega

theorem getElem?_set_self_of_some {α : Type} (l : List α) (k : Nat) (a b : α)
    (h : l[k]? = some a) : (l.set k b)[k]? = some b := by
  have hlen : k < l.length := by
    by_contra hcon
    rw [List.getElem?_eq_none (by omega)] at h
    cases h
  simp [List.getElem?_set, hlen]

/-- What a successful `site_step` leaves in the two relation tables of the call site. -/
theorem site_step_tables (eid : Nat) (kind other : call_type_t) (n_same n_other : Nat)
    (bump : Bool) (thiz : call_data_t) (t : thread_t) (r : call_row)
    (out : call_data_t × thread_t × observation)
    (h : site_step eid kind other n_same n_other bump thiz t r = .ok out) :
    (out.2.2.row = r) ∧
    (out.2.2.direct = none ∧
        out.1.direct_parents_data = thiz.direct_parents_data ∧
        out.1.num_ecall_called_from_ocalls = thiz.num_ecall_called_from_ocalls ∨
      ∃ p e, out.2.2.direct = some p ∧ thiz.direct_parents_data[p.call_id]? = some e ∧
        out.1.direct_parents_data = thiz.direct_parents_data.set p.call_id
          (update_direct e ⟨eid, other, p.call_id⟩ (scd_of_row kind r) p) ∧
        out.1.num_ecall_called_from_ocalls =
          if bump then thiz.num_ecall_called_from_ocalls + 1
          else thiz.num_ecall_called_from_ocalls) ∧
    (out.2.2.indirect = none ∧
        out.1.indirect_parents_data = thiz.indirect_parents_data ∨
      ∃ c e, out.2.2.indirect = some c ∧ thiz.indirect_parents_data[c.call_id]? = some e ∧
        out.1.indirect_parents_data = thiz.indirect_parents_data.set c.call_id
          (update_indirect e ⟨eid, kind, c.call_id⟩
            { scd_of_row kind r with parent := out.2.2.scd.parent } c)) := by
  obtain ⟨thiz', t', o⟩ := out
  obtain ⟨dp, ip, thiz1, thiz2, _, h2, _, h4, _, ha, _, hc⟩ :=
    site_step_ok eid kind other n_same n_other bump thiz thiz' t t' r o h
  subst ha
  subst hc
  have hd := direct_relation_ok _ _ _ _ _ _ _ _ _ h2
  have hi := indirect_relation_ok _ _ _ _ _ _ _ _ h4
  refine ⟨rfl, ?_, ?_⟩
  · rcases hd with ⟨hdp, h1⟩ | ⟨i, p, e, hdp, hp, he, _, h1⟩
    · left
      subst hdp
      subst h1
      rcases hi with ⟨_, h2'⟩ | ⟨_, _, _, _, _, _, _, h2'⟩ <;> subst h2' <;>
        exact ⟨rfl, rfl, rfl⟩
    · right
      subst hdp
      subst h1
      refine ⟨p, e, ?_, he, ?_⟩
      · simpa [slot_record] using hp
      · rcases hi with ⟨_, h2'⟩ | ⟨_, _, _, _, _, _, _, h2'⟩ <;> subst h2' <;>
          exact ⟨rfl, rfl⟩
  · rcases hi with ⟨hip, h2'⟩ | ⟨i, c, e, hip, hc, he, _, h2'⟩
    · left
      subst hip
      subst h2'
      refine ⟨rfl, ?_⟩
      rcases hd with ⟨_, h1⟩ | ⟨_, _, _, _, _, _, _, h1⟩ <;> subst h1 <;> rfl
    · right
      have hsame : thiz1.indirect_parents_data = thiz.indirect_parents_data := by
        rcases hd with ⟨_, h1⟩ | ⟨_, _, _, _, _, _, _, h1⟩ <;> subst h1 <;> rfl
      subst hip
      subst h2'
      refine ⟨c, e, ?_, ?_, ?_⟩
      · simpa [slot_record] using hc
      · rw [← hsame]
        exact he
      · show thiz1.indirect_parents_data.set c.call_id _ = _
        rw [hsame]

/-- Claim C3: when a row is processed, the direct relation entry keyed by the resolved
parent's call-site id and the indirect relation entry keyed by the matched record's
call-site id each gain exactly 1 in `count`; the gaps `child.start - parent.start` and
`parent.end - child.end` (unsigned 64-bit differences) are bucketed independently, each
into the <10us counter of its family when below 10000, into the <20us counter when in
[10000, 20000), otherwise into none; the gap `new.start - matched.end` goes into exactly
the first of the <1us, <5us, <10us, <20us counters it is strictly below, and into none from
20000 on. -/
theorem gap_bucketing (eid : Nat) (kind other : call_type_t) (n_same n_other : Nat)
    (bump : Bool) (thiz : call_data_t) (t : thread_t) (r : call_row)
    (out : call_data_t × thread_t × observation)
    (h : site_step eid kind other n_same n_other bump thiz t r = .ok out) :
    (∀ p, out.2.2.direct = some p →
      ∃ e e', thiz.direct_parents_data[p.call_id]? = some e ∧
        out.1.direct_parents_data[p.call_id]? = some e' ∧
        direct_bucketed e e' (usub64 r.starttime p.start) (usub64 p.end_ r.endtime)) ∧
    (∀ c, out.2.2.indirect = some c →
      ∃ e e', thiz.indirect_parents_data[c.call_id]? = some e ∧
        out.1.indirect_parents_data[c.call_id]? = some e' ∧
        indirect_bucketed e e' (usub64 r.starttime c.end_)) := by
  obtain ⟨_, hd, hi⟩ := site_step_tables eid kind other n_same n_other bump thiz t r out h
  refine ⟨?_, ?_⟩
  · intro p hp
    rcases hd with ⟨hnone, _⟩ | ⟨p', e, hp', he, htab, _⟩
    · rw [hnone] at hp
      cases hp
    · rw [hp'] at hp
      cases hp
      refine ⟨e, update_direct e ⟨eid, other, p.call_id⟩ (scd_of_row kind r) p, he, ?_, ?_⟩
      · rw [htab]
        exact getElem?_set_self_of_some _ _ _ _ he
      · obtain ⟨h1, _, h3, h4, h5, h6, h7, h8, h9, h10⟩ :=
          update_direct_spec e ⟨eid, other, p.call_id⟩ (scd_of_row kind r) p
        exact ⟨h1, h3, h4, h5, h6, h7, h8, h9, h10⟩
  · intro c hc
    rcases hi with ⟨hnone, _⟩ | ⟨c', e, hc', he, htab⟩
    · rw [hnone] at hc
      cases hc
    · rw [hc'] at hc
      cases hc
      refine ⟨e, update_indirect e ⟨eid, kind, c.call_id⟩
        { scd_of_row kind r with parent := out.2.2.scd.parent } c, he, ?_, ?_⟩
      · rw [htab]
        exact getElem?_set_self_of_some _ _ _ _ he
      · obtain ⟨h1, _, h3, h4, h5, h6, h7, h8, h9, h10⟩ :=
          update_indirect_spec e ⟨eid, kind, c.call_id⟩
            { scd_of_row kind r with parent := out.2.2.scd.parent } c
        exact ⟨h1, h3, h4, h5, h6, h7, h8, h9, h10⟩

theorem gap_bucketing_witness :
    (∀ p, bucket_out.2.2.direct = some p →
      ∃ e e', bucket_site.direct_parents_data[p.call_id]? = some e ∧
        bucket_out.1.direct_parents_data[p.call_id]? = some e' ∧
        direct_bucketed e e' (usub64 bucket_row.starttime p.start)
          (usub64 p.end_ bucket_row.endtime)) ∧
    (∀ c, bucket_out.2.2.indirect = some c →
      ∃ e e', bucket_site.indirect_parents_data[c.call_id]? = some e ∧
        bucket_out.1.indirect_parents_data[c.call_id]? = some e' ∧
        indirect_bucketed e e' (usub64 bucket_row.starttime c.end_)) :=
  gap_bucketing 0 .OCALL .ECALL 1 1 false bucket_site bucket_thread bucket_row bucket_out
    (by decide)

/-! ## The effect of a row on the globals -/

theorem site_step_frame (eid : Nat) (kind other : call_type_t) (n_same n_other : Nat)
    (bump : Bool) (thiz : call_data_t) (t : thread_t) (r : call_row)
    (out : call_data_t × thread_t × observation)
    (h : site_step eid kind other n_same n_other bump thiz t r = .ok out) :
    out.1.exectimes = thiz.exectimes ∧ out.1.all_stats = thiz.all_stats ∧
    out.1.stats_95th = thiz.stats_95th ∧
    out.1.single_calls = thiz.single_calls ++ [⟨r.tid, out.2.2.slot + 1⟩] ∧
    out.2.2.slot = t.next_call_index ∧
    out.2.1.calls = t.calls ++ [out.2.2.scd] ∧
    out.2.2.scd = { scd_of_row kind r with parent := out.2.2.scd.parent } ∧
    t.next_call_index < t.events := by
  obtain ⟨thiz', t', o⟩ := out
  obtain ⟨dp, ip, thiz1, thiz2, _, h2, _, h4, hcap, ha, hb, hc⟩ :=
    site_step_ok eid kind other n_same n_other bump thiz thiz' t t' r o h
  subst ha
  subst hb
  subst hc
  have hd := direct_relation_ok _ _ _ _ _ _ _ _ _ h2
  have hi := indirect_relation_ok _ _ _ _ _ _ _ _ h4
  rcases hd with ⟨_, h1⟩ | ⟨_, _, _, _, _, _, _, h1⟩ <;>
    rcases hi with ⟨_, h2'⟩ | ⟨_, _, _, _, _, _, _, h2'⟩ <;>
    subst h1 <;> subst h2' <;> exact ⟨rfl, rfl, rfl, rfl, rfl, rfl, rfl, hcap⟩

theorem row_ref_cases (r : call_row) :
    (r.type = 15 ∧ row_ref r = some ⟨r.eid, .ECALL, r.id⟩) ∨
    (r.type ≠ 15 ∧ r.type = 17 ∧ row_ref r = some ⟨r.eid, .OCALL, r.id⟩) ∨
    (r.type ≠ 15 ∧ r.type ≠ 17 ∧ row_ref r = none) := by
  unfold row_ref
  by_cases h15 : r.type = 15
  · left
    simp [h15]
  · by_cases h17 : r.type = 17
    · right; left
      simp [h17]
    · right; right
      simp [h15, h17]

theorem getElem?_set_of_some {α : Type} (l : List α) (k j : Nat) (a b : α)
    (h : l[k]? = some a) : (l.set k b)[j]? = if j = k then some b else l[j]? := by
  have hlen : k < l.length := by
    by_contra hcon
    rw [List.getElem?_eq_none (by omega)] at h
    cases h
  by_cases hj : j = k
  · subst hj
    simp [hlen]
  · have hj' : k ≠ j := fun hh => hj hh.symm
    simp [List.getElem?_set, hj, hj']

theorem ecall_branch_effect (s s1 : analyzer_state) (r : call_row) (o : observation)
    (h : ecall_branch s r = .ok (s1, o)) :
    ∃ thiz out, s.site ⟨r.eid, .ECALL, r.id⟩ = some thiz ∧
      site_step r.eid .ECALL .OCALL (s.encls r.eid).ecalls.length
        (s.encls r.eid).ocalls.length true (count_exectime (count_aex thiz r) r)
        (s.threads r.tid) r = .ok out ∧
      o = out.2.2 ∧
      (∀ ref, s1.site ref = if ref = ⟨r.eid, .ECALL, r.id⟩ then some out.1 else s.site ref) ∧
      s1.threads = map_set s.threads r.tid out.2.1 := by
  unfold ecall_branch at h
  simp only [] at h
  cases hth : (s.encls r.eid).ecalls[r.id]? with
  | none => rw [hth] at h; cases h
  | some thiz =>
    rw [hth] at h
    simp only [] at h
    cases hst : site_step r.eid .ECALL .OCALL (s.encls r.eid).ecalls.length
        (s.encls r.eid).ocalls.length true (count_exectime (count_aex thiz r) r)
        (s.threads r.tid) r with
    | error f => rw [hst] at h; cases h
    | ok out =>
      rw [hst] at h
      simp only [Except.ok.injEq, Prod.mk.injEq] at h
      obtain ⟨hs1, ho⟩ := h
      refine ⟨thiz, out, ?_, hst, ho.symm, ?_, ?_⟩
      · simp [analyzer_state.site, hth]
      · intro ref
        subst hs1
        obtain ⟨eid, ty, idx⟩ := ref
        cases ty with
        | UNDEF => simp [analyzer_state.site]
        | OCALL =>
          by_cases he : eid = r.eid
          · subst he
            simp [analyzer_state.site, map_set, ecall_window]
          · simp [analyzer_state.site, map_set, he]
        | ECALL =>
          by_cases he : eid = r.eid
          · subst he
            simp only [analyzer_state.site, map_set, ecall_window, if_true]
            rw [getElem?_set_of_some _ _ _ thiz _ hth]
            by_cases hi : idx = r.id
            · simp [hi]
            · simp [hi]
          · simp [analyzer_state.site, map_set, he]
      · rw [← hs1]

theorem ocall_branch_effect (s s1 : analyzer_state) (r : call_row) (o : observation)
    (h : ocall_branch s r = .ok (s1, o)) :
    ∃ thiz out, s.site ⟨r.eid, .OCALL, r.id⟩ = some thiz ∧
      site_step r.eid .OCALL .ECALL (s.encls r.eid).ocalls.length
        (s.encls r.eid).ecalls.length false (count_exectime thiz r)
        (s.threads r.tid) r = .ok out ∧
      o = out.2.2 ∧
      (∀ ref, s1.site ref = if ref = ⟨r.eid, .OCALL, r.id⟩ then some out.1 else s.site ref) ∧
      s1.threads = map_set s.threads r.tid out.2.1 := by
  unfold ocall_branch at h
  simp only [] at h
  cases hth : (s.encls r.eid).ocalls[r.id]? with
  | none => rw [hth] at h; cases h
  | some thiz =>
    rw [hth] at h
    simp only [] at h
    cases hst : site_step r.eid .OCALL .ECALL (s.encls r.eid).ocalls.length
        (s.encls r.eid).ecalls.length false (count_exectime thiz r)
        (s.threads r.tid) r with
    | error f => rw [hst] at h; cases h
    | ok out =>
      rw [hst] at h
      simp only [Except.ok.injEq, Prod.mk.injEq] at h
      obtain ⟨hs1, ho⟩ := h
      refine ⟨thiz, out, ?_, hst, ho.symm, ?_, ?_⟩
      · simp [analyzer_state.site, hth]
      · intro ref
        subst hs1
        obtain ⟨eid, ty, idx⟩ := ref
        cases ty with
        | UNDEF => simp [analyzer_state.site]
        | ECALL =>
          by_cases he : eid = r.eid
          · subst he
            simp [analyzer_state.site, map_set]
          · simp [analyzer_state.site, map_set, he]
        | OCALL =>
          by_cases he : eid = r.eid
          · subst he
            simp only [analyzer_state.site, map_set, if_true]
            rw [getElem?_set_of_some _ _ _ thiz _ hth]
            by_cases hi : idx = r.id
            · simp [hi]
            · simp [hi]
          · simp [analyzer_state.site, map_set, he]
      · rw [← hs1]

theorem count_aex_frame (thiz : call_data_t) (r : call_row) :
    (count_aex thiz r).exectimes = thiz.exectimes ∧
    (count_aex thiz r).all_stats.sum = thiz.all_stats.sum ∧
    (count_aex thiz r).stats_95th = thiz.stats_95th ∧
    (count_aex thiz r).single_calls = thiz.single_calls ∧
    (count_aex thiz r).num_ecall_called_from_ocalls = thiz.num_ecall_called_from_ocalls ∧
    (count_aex thiz r).direct_parents_data = thiz.direct_parents_data ∧
    (count_aex thiz r).indirect_parents_data = thiz.indirect_parents_data := by
  unfold count_aex
  cases r.aex_count <;> exact ⟨rfl, rfl, rfl, rfl, rfl, rfl, rfl⟩

theorem site_update_of_site_step (ref : call_ref) (n_same n_other : Nat) (bump : Bool)
    (c pre : call_data_t) (t : thread_t) (r : call_row)
    (out : call_data_t × thread_t × observation)
    (hb : bump = decide (ref.type = .ECALL))
    (h : site_step ref.eid ref.type (other_kind ref.type) n_same n_other bump pre t r = .ok out)
    (h1 : pre.exectimes = c.exectimes ++ [r.exectime])
    (h2 : pre.all_stats.sum = c.all_stats.sum + r.exectime)
    (h3 : pre.stats_95th = c.stats_95th)
    (h4 : pre.single_calls = c.single_calls)
    (h5 : pre.num_ecall_called_from_ocalls = c.num_ecall_called_from_ocalls)
    (h6 : pre.direct_parents_data = c.direct_parents_data)
    (h7 : pre.indirect_parents_data = c.indirect_parents_data) :
    site_update ref c out.1 out.2.2 := by
  obtain ⟨f1, f2, f3, f4, _, _, f7, _⟩ := site_step_frame _ _ _ _ _ _ _ _ _ _ h
  obtain ⟨hrow, hd, hi⟩ := site_step_tables _ _ _ _ _ _ _ _ _ _ h
  refine ⟨?_, ?_, ?_, ?_, ?_, ?_, ?_⟩
  · rw [f1, h1, hrow]
  · rw [f2, h2, hrow]
  · rw [f3, h3]
  · rw [f4, h4, hrow]
  · rcases hd with ⟨hnone, _, hnum⟩ | ⟨p, e, hp, _, _, hnum⟩
    · rw [hnum, h5, hnone]
      simp
    · rw [hnum, h5, hp, hb]
      by_cases hty : ref.type = .ECALL <;> simp [hty]
  · rcases hd with ⟨hnone, htab, _⟩ | ⟨p, e, hp, he, htab, _⟩
    · left
      exact ⟨hnone, by rw [htab, h6]⟩
    · right
      refine ⟨p, e, hp, by rw [← h6]; exact he, ?_⟩
      rw [htab, h6, hrow]
  · rcases hi with ⟨hnone, htab⟩ | ⟨p, e, hp, he, htab⟩
    · left
      exact ⟨hnone, by rw [htab, h7]⟩
    · right
      refine ⟨p, e, hp, by rw [← h7]; exact he, ?_⟩
      rw [htab, h7, ← f7]

theorem call_data_step_site (s s1 : analyzer_state) (r : call_row) (oo : Option observation)
    (h : call_data_step s r = .ok (s1, oo)) (ref : call_ref) (c : call_data_t)
    (hc : s.site ref = some c) :
    ∃ c1, s1.site ref = some c1 ∧
      ((c1 = c ∧ ∀ o, oo = some o → row_ref o.row ≠ some ref) ∨
       (∃ o, oo = some o ∧ row_ref o.row = some ref ∧ site_update ref c c1 o)) := by
  unfold call_data_step at h
  rcases row_ref_cases r with ⟨h15, href⟩ | ⟨h15, h17, href⟩ | ⟨h15, h17, href⟩
  · rw [if_pos h15] at h
    cases hb : ecall_branch s r with
    | error f => rw [hb] at h; cases h
    | ok res =>
      obtain ⟨s1', o⟩ := res
      rw [hb] at h
      simp only [Except.ok.injEq, Prod.mk.injEq] at h
      obtain ⟨hs, ho⟩ := h
      subst hs
      subst ho
      obtain ⟨thiz, out, hsite, hst, hout, hall, _⟩ := ecall_branch_effect s s1' r o hb
      have hrow : o.row = r := by
        rw [hout]
        exact (site_step_tables _ _ _ _ _ _ _ _ _ _ hst).1
      by_cases hr : ref = ⟨r.eid, .ECALL, r.id⟩
      · subst hr
        rw [hsite] at hc
        cases hc
        refine ⟨out.1, by rw [hall]; simp, Or.inr ⟨o, rfl, by rw [hrow]; exact href, ?_⟩⟩
        obtain ⟨a1, a2, a3, a4, a5, a6, a7⟩ := count_aex_frame c r
        rw [hout]
        exact site_update_of_site_step ⟨r.eid, .ECALL, r.id⟩ _ _ true c _ _ r out rfl hst
          (by simp [count_exectime, a1]) (by simp [count_exectime, a2])
          (by simp [count_exectime, a3]) (by simp [count_exectime, a4])
          (by simp [count_exectime, a5]) (by simp [count_exectime, a6])
          (by simp [count_exectime, a7])
      · refine ⟨c, by rw [hall, if_neg hr]; exact hc, Or.inl ⟨rfl, ?_⟩⟩
        intro o' ho'
        cases ho'
        rw [hrow, href]
        intro hh
        exact hr (Option.some.inj hh).symm
  · rw [if_neg h15, if_pos h17] at h
    cases hb : ocall_branch s r with
    | error f => rw [hb] at h; cases h
    | ok res =>
      obtain ⟨s1', o⟩ := res
      rw [hb] at h
      simp only [Except.ok.injEq, Prod.mk.injEq] at h
      obtain ⟨hs, ho⟩ := h
      subst hs
      subst ho
      obtain ⟨thiz, out, hsite, hst, hout, hall, _⟩ := ocall_branch_effect s s1' r o hb
      have hrow : o.row = r := by
        rw [hout]
        exact (site_step_tables _ _ _ _ _ _ _ _ _ _ hst).1
      by_cases hr : ref = ⟨r.eid, .OCALL, r.id⟩
      · subst hr
        rw [hsite] at hc
        cases hc
        refine ⟨out.1, by rw [hall]; simp, Or.inr ⟨o, rfl, by rw [hrow]; exact href, ?_⟩⟩
        rw [hout]
        exact site_update_of_site_step ⟨r.eid, .OCALL, r.id⟩ _ _ false c _ _ r out rfl hst
          (by simp [count_exectime]) (by simp [count_exectime])
          (by simp [count_exectime]) (by simp [count_exectime])
          (by simp [count_exectime]) (by simp [count_exectime])
          (by simp [count_exectime])
      · refine ⟨c, by rw [hall, if_neg hr]; exact hc, Or.inl ⟨rfl, ?_⟩⟩
        intro o' ho'
        cases ho'
        rw [hrow, href]
        intro hh
        exact hr (Option.some.inj hh).symm
  · rw [if_neg h15, if_neg h17] at h
    simp only [Except.ok.injEq, Prod.mk.injEq] at h
    obtain ⟨hs, ho⟩ := h
    subst hs
    subst ho
    exact ⟨c, hc, Or.inl ⟨rfl, fun o ho => by cases ho⟩⟩

/-- Induction over the rows for a property of one call site that composes along the list
of observations. -/
theorem process_rows_induct (ref : call_ref)
    (R : call_data_t → call_data_t → List observation → Prop)
    (hrefl : ∀ c, R c c [])
    (htrans : ∀ c c1 c2 os1 os2, R c c1 os1 → R c1 c2 os2 → R c c2 (os1 ++ os2))
    (hskip : ∀ c o, row_ref o.row ≠ some ref → R c c [o])
    (hstep : ∀ c c1 o, row_ref o.row = some ref → site_update ref c c1 o → R c c1 [o]) :
    ∀ (rows : List call_row) (s s' : analyzer_state) (os : List observation)
      (c : call_data_t), process_rows s rows = .ok (s', os) → s.site ref = some c →
      ∃ c', s'.site ref = some c' ∧ R c c' os := by
  intro rows
  induction rows with
  | nil =>
    intro s s' os c h hc
    simp only [process_rows, Except.ok.injEq, Prod.mk.injEq] at h
    obtain ⟨hs, ho⟩ := h
    subst hs
    subst ho
    exact ⟨c, hc, hrefl c⟩
  | cons r rs ih =>
    intro s s' os c h hc
    rw [process_rows] at h
    cases h1 : call_data_step s r with
    | error f => rw [h1] at h; cases h
    | ok res1 =>
      obtain ⟨s1, oo⟩ := res1
      rw [h1] at h
      simp only [] at h
      cases h2 : process_rows s1 rs with
      | error f => rw [h2] at h; cases h
      | ok res2 =>
        obtain ⟨s2, os2⟩ := res2
        rw [h2] at h
        simp only [Except.ok.injEq, Prod.mk.injEq] at h
        obtain ⟨hs, ho⟩ := h
        subst hs
        subst ho
        obtain ⟨c1, hc1, hcase⟩ := call_data_step_site s s1 r oo h1 ref c hc
        obtain ⟨c', hc', hR⟩ := ih s1 s2 os2 c1 h2 hc1
        refine ⟨c', hc', htrans c c1 c' _ _ ?_ hR⟩
        rcases hcase with ⟨heq, hno⟩ | ⟨o, ho, href, hup⟩
        · subst heq
          cases oo with
          | none => exact hrefl c1
          | some o => exact hskip c1 o (hno o rfl)
        · subst ho
          exact hstep c c1 o href hup

/-! ## Counters and relation entries after a sequence of rows -/

theorem of_site_eq_true (o : observation) (ref : call_ref) (h : row_ref o.row = some ref) :
    o.of_site ref = true := by
  simp [observation.of_site, h]

theorem of_site_eq_false (o : observation) (ref : call_ref) (h : row_ref o.row ≠ some ref) :
    o.of_site ref = false := by
  simp [observation.of_site, h]

theorem counter_after_rows (ref : call_ref) (rows : List call_row) (s s' : analyzer_state)
    (os : List observation) (c : call_data_t)
    (h : process_rows s rows = .ok (s', os)) (hc : s.site ref = some c) :
    ∃ c', s'.site ref = some c' ∧
      c'.num_ecall_called_from_ocalls = c.num_ecall_called_from_ocalls +
        (os.filter (fun o => o.of_site ref && decide (ref.type = .ECALL) && o.has_direct)).length := by
  refine process_rows_induct ref
    (fun c c1 os => c1.num_ecall_called_from_ocalls = c.num_ecall_called_from_ocalls +
      (os.filter (fun o => o.of_site ref && decide (ref.type = .ECALL) && o.has_direct)).length)
    ?_ ?_ ?_ ?_ rows s s' os c h hc
  · intro c
    simp
  · intro c c1 c2 os1 os2 h1 h2
    simp only [List.filter_append, List.length_append]
    omega
  · intro c o hne
    simp [of_site_eq_false o ref hne]
  · intro c c1 o href hup
    rw [hup.counter]
    by_cases hty : ref.type = .ECALL <;> cases hd : o.direct <;>
      simp [of_site_eq_true o ref href, observation.has_direct, hty, hd]

theorem entry_counted_refl (e : parent_call_data_t) (cd : call_ref) :
    entry_counted e e 0 cd :=
  ⟨rfl, fun h => absurd rfl h, fun _ => rfl⟩

theorem entry_counted_trans (e e1 e2 : parent_call_data_t) (n1 n2 : Nat) (cd : call_ref)
    (h1 : entry_counted e e1 n1 cd) (h2 : entry_counted e1 e2 n2 cd) :
    entry_counted e e2 (n1 + n2) cd := by
  obtain ⟨a1, b1, c1⟩ := h1
  obtain ⟨a2, b2, c2⟩ := h2
  refine ⟨by omega, ?_, ?_⟩
  · intro hne
    by_cases h20 : n2 = 0
    · rw [c2 h20]
      exact b1 (by omega)
    · exact b2 h20
  · intro h0
    rw [c2 (by omega), c1 (by omega)]

theorem table_counted_of_update (tab tab1 : List parent_call_data_t) (key : Option Nat)
    (cd : Nat → call_ref)
    (hcase : (key = none ∧ tab1 = tab) ∨
      ∃ k0 e0 e0', key = some k0 ∧ tab[k0]? = some e0 ∧ tab1 = tab.set k0 e0' ∧
        e0'.count = e0.count + 1 ∧ e0'.call_data = some (cd k0)) :
    table_counted tab tab1 (fun k => if key = some k then 1 else 0) cd := by
  intro k e he
  rcases hcase with ⟨hk, htab⟩ | ⟨k0, e0, e0', hk, he0, htab, hcount, hcd⟩
  · subst hk
    subst htab
    exact ⟨e, he, by simpa using entry_counted_refl e (cd k)⟩
  · subst hk
    subst htab
    rw [getElem?_set_of_some _ _ _ e0 _ he0]
    by_cases hkk : k = k0
    · subst hkk
      rw [he0] at he
      cases he
      refine ⟨e0', by simp, ?_⟩
      simp only [if_true]
      exact ⟨hcount, fun _ => hcd, fun h => absurd h (by decide)⟩
    · have hkk' : ¬ (some k0 = some k) := fun hh => hkk (Option.some.inj hh).symm
      refine ⟨e, by simp [hkk, he], ?_⟩
      simp only [if_neg hkk']
      exact entry_counted_refl e (cd k)

theorem tables_after_rows (ref : call_ref) (rows : List call_row) (s s' : analyzer_state)
    (os : List observation) (c : call_data_t)
    (h : process_rows s rows = .ok (s', os)) (hc : s.site ref = some c) :
    ∃ c', s'.site ref = some c' ∧
      table_counted c.direct_parents_data c'.direct_parents_data
        (fun k => (os.filter (fun o => o.of_site ref && o.direct_key k)).length)
        (fun k => ⟨ref.eid, other_kind ref.type, k⟩) ∧
      table_counted c.indirect_parents_data c'.indirect_parents_data
        (fun k => (os.filter (fun o => o.of_site ref && o.indirect_key k)).length)
        (fun k => ⟨ref.eid, ref.type, k⟩) := by
  refine process_rows_induct ref
    (fun c c1 os =>
      table_counted c.direct_parents_data c1.direct_parents_data
        (fun k => (os.filter (fun o => o.of_site ref && o.direct_key k)).length)
        (fun k => ⟨ref.eid, other_kind ref.type, k⟩) ∧
      table_counted c.indirect_parents_data c1.indirect_parents_data
        (fun k => (os.filter (fun o => o.of_site ref && o.indirect_key k)).length)
        (fun k => ⟨ref.eid, ref.type, k⟩))
    ?_ ?_ ?_ ?_ rows s s' os c h hc
  · intro c
    refine ⟨?_, ?_⟩ <;> intro k e he <;> exact ⟨e, he, entry_counted_refl e _⟩
  · intro c c1 c2 os1 os2 h1 h2
    refine ⟨?_, ?_⟩
    · intro k e he
      obtain ⟨e1, he1, hc1⟩ := h1.1 k e he
      obtain ⟨e2, he2, hc2⟩ := h2.1 k e1 he1
      refine ⟨e2, he2, ?_⟩
      simp only [List.filter_append, List.length_append]
      exact entry_counted_trans e e1 e2 _ _ _ hc1 hc2
    · intro k e he
      obtain ⟨e1, he1, hc1⟩ := h1.2 k e he
      obtain ⟨e2, he2, hc2⟩ := h2.2 k e1 he1
      refine ⟨e2, he2, ?_⟩
      simp only [List.filter_append, List.length_append]
      exact entry_counted_trans e e1 e2 _ _ _ hc1 hc2
  · intro c o hne
    refine ⟨?_, ?_⟩ <;> intro k e he <;>
      exact ⟨e, he, by simpa [of_site_eq_false o ref hne] using entry_counted_refl e _⟩
  · intro c c1 o href hup
    have hos := of_site_eq_true o ref href
    refine ⟨?_, ?_⟩
    · have hkey : ∀ k, ([o].filter (fun o => o.of_site ref && o.direct_key k)).length =
          if (o.direct.map (fun p => p.call_id)) = some k then 1 else 0 := by
        intro k
        cases hd : o.direct with
        | none => simp [hos, observation.direct_key, hd]
        | some p =>
          by_cases hk : p.call_id = k <;> simp [hos, observation.direct_key, hd, hk]
      have := table_counted_of_update c.direct_parents_data c1.direct_parents_data
        (o.direct.map (fun p => p.call_id)) (fun k => ⟨ref.eid, other_kind ref.type, k⟩) (by
          rcases hup.direct with ⟨hnone, htab⟩ | ⟨p, e, hp, he, htab⟩
          · left
            exact ⟨by rw [hnone]; rfl, htab⟩
          · right
            refine ⟨p.call_id, e, _, by rw [hp]; rfl, he, htab, ?_, ?_⟩
            · exact (update_direct_spec e _ _ p).1
            · exact (update_direct_spec e _ _ p).2.1)
      intro k e he
      obtain ⟨e', he', hcnt⟩ := this k e he
      refine ⟨e', he', ?_⟩
      simp only [] at hcnt ⊢
      rw [hkey k]
      exact hcnt
    · have hkey : ∀ k, ([o].filter (fun o => o.of_site ref && o.indirect_key k)).length =
          if (o.indirect.map (fun p => p.call_id)) = some k then 1 else 0 := by
        intro k
        cases hd : o.indirect with
        | none => simp [hos, observation.indirect_key, hd]
        | some p =>
          by_cases hk : p.call_id = k <;> simp [hos, observation.indirect_key, hd, hk]
      have := table_counted_of_update c.indirect_parents_data c1.indirect_parents_data
        (o.indirect.map (fun p => p.call_id)) (fun k => ⟨ref.eid, ref.type, k⟩) (by
          rcases hup.indirect with ⟨hnone, htab⟩ | ⟨p, e, hp, he, htab⟩
          · left
            exact ⟨by rw [hnone]; rfl, htab⟩
          · right
            refine ⟨p.call_id, e, _, by rw [hp]; rfl, he, htab, ?_, ?_⟩
            · exact (update_indirect_spec e _ _ p).1
            · exact (update_indirect_spec e _ _ p).2.1)
      intro k e he
      obtain ⟨e', he', hcnt⟩ := this k e he
      refine ⟨e', he', ?_⟩
      simp only [] at hcnt ⊢
      rw [hkey k]
      exact hcnt

theorem row_type_of_ecall_site (o : observation) (ref : call_ref)
    (h : row_ref o.row = some ref) (hty : ref.type = .ECALL) : o.row.type = 15 := by
  rcases row_ref_cases o.row with ⟨h15, _⟩ | ⟨_, _, href⟩ | ⟨_, _, href⟩
  · exact h15
  · rw [href] at h
    cases h
    cases hty
  · rw [href] at h
    cases h

/-- Claim C4 as stated fails: the into-boundary branch increments
`num_ecall_called_from_ocalls` for every resolved parent without looking at the parent's
kind.  Here the second into-boundary call names the first as its parent event: its site's
counter becomes 1 although none of its invocations has an out-of-boundary parent. -/
theorem counter_counts_ecall_parent :
    failure_of (process_rows scenarioA_state ecall_in_ecall_rows) = none ∧
    ((rows_out scenarioA_state ecall_in_ecall_rows).1.site ⟨0, .ECALL, 1⟩).map
      (fun c => c.num_ecall_called_from_ocalls) = some 1 ∧
    ((rows_out scenarioA_state ecall_in_ecall_rows).2.filter
      (fun o => o.of_site ⟨0, .ECALL, 1⟩ && o.direct_kind .OCALL)).length = 0 := by
  decide

/-- Claim C4, amended: after any sequence of rows that is processed without fault, the
counter `num_ecall_called_from_ocalls` of an into-boundary call site has grown by the number
of that site's processed invocations that have a resolved direct parent (of either kind);
the counter of every other call site is unchanged; and when every resolved parent of an
into-boundary invocation is an out-of-boundary record, the growth is the number of the
site's invocations whose resolved direct parent is an out-of-boundary invocation. -/
theorem called_from_ocalls_counts_resolved_parents (s s' : analyzer_state)
    (rows : List call_row) (os : List observation) (ref : call_ref) (c : call_data_t)
    (h : process_rows s rows = .ok (s', os)) (hc : s.site ref = some c) :
    ∃ c', s'.site ref = some c' ∧
      c'.num_ecall_called_from_ocalls = c.num_ecall_called_from_ocalls +
        (os.filter (fun o => o.of_site ref && decide (ref.type = .ECALL) &&
          o.has_direct)).length ∧
      (ref.type ≠ .ECALL →
        c'.num_ecall_called_from_ocalls = c.num_ecall_called_from_ocalls) ∧
      ((∀ o ∈ os, ∀ p, o.row.type = 15 → o.direct = some p → p.type = .OCALL) →
        c'.num_ecall_called_from_ocalls = c.num_ecall_called_from_ocalls +
          (os.filter (fun o => o.of_site ref && decide (ref.type = .ECALL) &&
            o.direct_kind .OCALL)).length) := by
  obtain ⟨c', hc', hnum⟩ := counter_after_rows ref rows s s' os c h hc
  refine ⟨c', hc', hnum, ?_, ?_⟩
  · intro hty
    rw [hnum]
    simp [hty]
  · intro hall
    rw [hnum]
    congr 2
    apply List.filter_congr
    intro o ho
    by_cases hs : row_ref o.row = some ref
    · by_cases hty : ref.type = .ECALL
      · have h15 := row_type_of_ecall_site o ref hs hty
        cases hd : o.direct with
        | none => simp [observation.has_direct, observation.direct_kind, hd]
        | some p =>
          have := hall o ho p h15 hd
          simp [observation.has_direct, observation.direct_kind, hd, this]
      · simp [hty]
    · simp [of_site_eq_false o ref hs]

theorem called_from_ocalls_counts_resolved_parents_witness :
    (((rows_out scenarioA_state scenarioA_rows).1.site ⟨0, .ECALL, 0⟩).map
        (fun c => c.num_ecall_called_from_ocalls) = some 0 ∧
      ((rows_out scenarioA_state scenarioA_rows).1.site ⟨0, .ECALL, 1⟩).map
        (fun c => c.num_ecall_called_from_ocalls) = some 1) ∧
    ∃ c', (rows_out scenarioA_state scenarioA_rows).1.site ⟨0, .ECALL, 1⟩ = some c' ∧
      c'.num_ecall_called_from_ocalls = scenarioA_site_C.num_ecall_called_from_ocalls +
        ((rows_out scenarioA_state scenarioA_rows).2.filter
          (fun o => o.of_site ⟨0, .ECALL, 1⟩ &&
            decide ((⟨0, .ECALL, 1⟩ : call_ref).type = .ECALL) && o.has_direct)).length ∧
      ((⟨0, .ECALL, 1⟩ : call_ref).type ≠ .ECALL →
        c'.num_ecall_called_from_ocalls = scenarioA_site_C.num_ecall_called_from_ocalls) ∧
      ((∀ o ∈ (rows_out scenarioA_state scenarioA_rows).2, ∀ p,
          o.row.type = 15 → o.direct = some p → p.type = .OCALL) →
        c'.num_ecall_called_from_ocalls = scenarioA_site_C.num_ecall_called_from_ocalls +
          ((rows_out scenarioA_state scenarioA_rows).2.filter
            (fun o => o.of_site ⟨0, .ECALL, 1⟩ &&
              decide ((⟨0, .ECALL, 1⟩ : call_ref).type = .ECALL) &&
              o.direct_kind .OCALL)).length) :=
  ⟨by decide,
   called_from_ocalls_counts_resolved_parents scenarioA_state
    (rows_out scenarioA_state scenarioA_rows).1 scenarioA_rows
    (rows_out scenarioA_state scenarioA_rows).2 ⟨0, .ECALL, 1⟩ scenarioA_site_C
    (by rfl) (by decide)⟩

/-- Claim C5 at its failing input: a record carries no enclave id, and the entry keyed by
the parent's call-site id is taken from the tables and the registry of the row's own
enclave, not of the enclave the parent was invoked in.  Here enclave 1 is entered from an out-of-boundary call of enclave 0: the entry keyed by 0
of enclave 1's into-boundary site gets count 1 and names the out-of-boundary site 0 of
enclave 1, of which no invocation was processed.  When enclave 1 has no out-of-boundary
site, the same rows end in the exception of `at`. -/
theorem relation_entry_names_unobserved_site :
    failure_of (process_rows two_enclaves_bare_state two_enclaves_rows) = some .out_of_range ∧
    failure_of (process_rows two_enclaves_state two_enclaves_rows) = none ∧
    (((rows_out two_enclaves_state two_enclaves_rows).1.site ⟨1, .ECALL, 0⟩).map
      (fun c => c.direct_parents_data.map (fun e => (e.count, e.call_data)))) =
        some [(1, some ⟨1, .OCALL, 0⟩)] ∧
    two_enclaves_rows.filter (fun r => decide (row_ref r = some ⟨1, .OCALL, 0⟩)) = [] ∧
    (((rows_out two_enclaves_state two_enclaves_rows).1.site ⟨1, .OCALL, 0⟩).map
      (fun c => c.exectimes)) = some [] := by
  decide

/-- What the relation tables hold: after any sequence of rows that is processed without
fault, for every call site of an enclave e and every id k, the direct (resp. indirect) relation entry
keyed by k has grown in `count` by the number of the site's processed invocations whose
resolved direct parent (resp. matched indirect parent) is a record carrying call-site id k,
whatever enclave that record's row belonged to; once written it names the call site at
position k of the other-kind (resp. same-kind) registry of the site's own enclave e; and an
entry with no such invocation is untouched. -/
theorem relation_entries_count_observed_ids (s s' : analyzer_state)
    (rows : List call_row) (os : List observation) (ref : call_ref) (c : call_data_t)
    (h : process_rows s rows = .ok (s', os)) (hc : s.site ref = some c) :
    ∃ c', s'.site ref = some c' ∧
      (∀ (k : Nat) (e : parent_call_data_t), c.direct_parents_data[k]? = some e →
        ∃ e', c'.direct_parents_data[k]? = some e' ∧
          entry_counted e e'
            (os.filter (fun o => o.of_site ref && o.direct_key k)).length
            ⟨ref.eid, other_kind ref.type, k⟩) ∧
      (∀ (k : Nat) (e : parent_call_data_t), c.indirect_parents_data[k]? = some e →
        ∃ e', c'.indirect_parents_data[k]? = some e' ∧
          entry_counted e e'
            (os.filter (fun o => o.of_site ref && o.indirect_key k)).length
            ⟨ref.eid, ref.type, k⟩) := by
  obtain ⟨c', hc', hd, hi⟩ := tables_after_rows ref rows s s' os c h hc
  exact ⟨c', hc', hd, hi⟩

theorem relation_entries_count_observed_ids_witness :
    ∃ c', (rows_out scenarioA_state scenarioA_rows).1.site ⟨0, .ECALL, 1⟩ = some c' ∧
      (∀ (k : Nat) (e : parent_call_data_t),
        scenarioA_site_C.direct_parents_data[k]? = some e →
        ∃ e', c'.direct_parents_data[k]? = some e' ∧
          entry_counted e e'
            ((rows_out scenarioA_state scenarioA_rows).2.filter
              (fun o => o.of_site ⟨0, .ECALL, 1⟩ && o.direct_key k)).length
            ⟨0, other_kind .ECALL, k⟩) ∧
      (∀ (k : Nat) (e : parent_call_data_t),
        scenarioA_site_C.indirect_parents_data[k]? = some e →
        ∃ e', c'.indirect_parents_data[k]? = some e' ∧
          entry_counted e e'
            ((rows_out scenarioA_state scenarioA_rows).2.filter
              (fun o => o.of_site ⟨0, .ECALL, 1⟩ && o.indirect_key k)).length
            ⟨0, .ECALL, k⟩) :=
  relation_entries_count_observed_ids scenarioA_state
    (rows_out scenarioA_state scenarioA_rows).1 scenarioA_rows
    (rows_out scenarioA_state scenarioA_rows).2 ⟨0, .ECALL, 1⟩ scenarioA_site_C
    (by rfl) (by decide)

/-- After any sequence of rows, the back-references registered for a call site are, in
order, the slots after the ones its invocations were written to. -/
theorem single_calls_after_rows (ref : call_ref) (rows : List call_row)
    (s s' : analyzer_state) (os : List observation) (c : call_data_t)
    (h : process_rows s rows = .ok (s', os)) (hc : s.site ref = some c) :
    ∃ c', s'.site ref = some c' ∧
      c'.single_calls = c.single_calls ++
        ((os.filter (fun o => o.of_site ref)).map (fun o => ⟨o.row.tid, o.slot + 1⟩)) := by
  refine process_rows_induct ref
    (fun c c1 os => c1.single_calls = c.single_calls ++
      ((os.filter (fun o => o.of_site ref)).map (fun o => ⟨o.row.tid, o.slot + 1⟩)))
    ?_ ?_ ?_ ?_ rows s s' os c h hc
  · intro c
    simp
  · intro c c1 c2 os1 os2 h1 h2
    simp only [List.filter_append, List.map_append]
    rw [h2, h1, List.append_assoc]
  · intro c o hne
    simp [of_site_eq_false o ref hne]
  · intro c c1 o href hup
    rw [hup.single_calls]
    simp [of_site_eq_true o ref href]

/-- Claim C6 at its failing input, the rows of Scenario A: the three records are written
to slots 0, 1, 2 of the thread, but the back-references registered are slot 1 for the site
of A (that slot holds the record of B, an out-of-boundary call of another site), slot 2 for
the site of B and slot 3 for the site of C, a slot that is never written and lies behind
the three-slot array. -/
theorem registered_back_reference_is_next_slot :
    failure_of (process_rows scenarioA_state scenarioA_rows) = none ∧
    (rows_out scenarioA_state scenarioA_rows).2.map (fun o => (o.scd.event_id, o.slot)) =
      [(1, 0), (2, 1), (3, 2)] ∧
    ((rows_out scenarioA_state scenarioA_rows).1.site ⟨0, .ECALL, 0⟩).map
      (fun c => c.single_calls) = some [⟨0, 1⟩] ∧
    ((rows_out scenarioA_state scenarioA_rows).1.site ⟨0, .OCALL, 0⟩).map
      (fun c => c.single_calls) = some [⟨0, 2⟩] ∧
    ((rows_out scenarioA_state scenarioA_rows).1.site ⟨0, .ECALL, 1⟩).map
      (fun c => c.single_calls) = some [⟨0, 3⟩] ∧
    (((rows_out scenarioA_state scenarioA_rows).1.threads 0).calls[1]?).map
      (fun c => (c.event_id, c.type, c.call_id)) = some (2, .OCALL, 0) ∧
    ((rows_out scenarioA_state scenarioA_rows).1.threads 0).calls[3]? = none ∧
    ((rows_out scenarioA_state scenarioA_rows).1.threads 0).events = 3 := by
  decide

/-! ## Rounding to double precision: bounds and monotonicity -/

theorem halvings_le (fuel n : Nat) (h : 1 ≤ n) : 2 ^ halvings fuel n ≤ n := by
  induction fuel generalizing n with
  | zero => simpa [halvings] using h
  | succ f ih =>
    unfold halvings
    split_ifs with h2
    · have := ih (n / 2) (by omega)
      rw [pow_succ]
      omega
    · simpa using h

theorem halvings_lt (fuel n : Nat) (h : n < 2 ^ (fuel + 1)) :
    n < 2 ^ (halvings fuel n + 1) := by
  induction fuel generalizing n with
  | zero => simpa [halvings] using h
  | succ f ih =>
    unfold halvings
    split_ifs with h2
    · have h3 : n / 2 < 2 ^ (f + 1) := by
        rw [pow_succ] at h
        omega
      have := ih (n / 2) h3
      rw [pow_succ]
      omega
    · simp
      omega

theorem halvings_self_lt (n : Nat) : n < 2 ^ (halvings n n + 1) := by
  apply halvings_lt
  calc n < 2 ^ n := Nat.lt_two_pow n
    _ ≤ 2 ^ (n + 1) := Nat.pow_le_pow_right (by norm_num) (by omega)

theorem binade_bounds (x : ℚ) (hx : 0 < x) :
    (2 : ℚ) ^ binade x ≤ x ∧ x < (2 : ℚ) ^ (binade x + 1) := by
  have hnum : 0 < x.num := Rat.num_pos.mpr hx
  have hden : 0 < x.den := x.den_pos
  have habs : |x| = x := abs_of_pos hx
  have hxeq0 : x = (x.num : ℚ) / (x.den : ℚ) := (Rat.num_div_den x).symm
  unfold binade
  simp only [habs]
  generalize hd : x.den = d at hden hxeq0 ⊢
  generalize ha : x.num.natAbs = a
  have ha0 : 0 < a := by rw [← ha]; omega
  have hxeq : x = (a : ℚ) / (d : ℚ) := by
    have h : (x.num : ℚ) = (a : ℚ) := by
      have : x.num = (a : ℤ) := by rw [← ha]; omega
      rw [this]
      norm_cast
    rw [← h]
    exact hxeq0
  have hdq : (0 : ℚ) < (d : ℚ) := by exact_mod_cast hden
  have h1 : ((2 : ℚ) ^ (halvings a a)) ≤ (a : ℚ) := by exact_mod_cast halvings_le a a ha0
  have h2 : (a : ℚ) < (2 : ℚ) ^ (halvings a a + 1) := by exact_mod_cast halvings_self_lt a
  have h3 : ((2 : ℚ) ^ (halvings d d)) ≤ (d : ℚ) := by
    exact_mod_cast halvings_le d d hden
  have h4 : (d : ℚ) < (2 : ℚ) ^ (halvings d d + 1) := by
    exact_mod_cast halvings_self_lt d
  have hup : x < (2 : ℚ) ^ (((halvings a a : ℕ) : ℤ) - ((halvings d d : ℕ) : ℤ) + 1) := by
    have e : (2 : ℚ) ^ (((halvings a a : ℕ) : ℤ) - ((halvings d d : ℕ) : ℤ) + 1) =
        (2 : ℚ) ^ (halvings a a + 1) / (2 : ℚ) ^ (halvings d d) := by
      rw [show ((halvings a a : ℕ) : ℤ) - ((halvings d d : ℕ) : ℤ) + 1 =
        ((halvings a a + 1 : ℕ) : ℤ) - ((halvings d d : ℕ) : ℤ) by push_cast; ring]
      rw [zpow_sub₀ (by norm_num : (2 : ℚ) ≠ 0), zpow_natCast, zpow_natCast]
    rw [e, hxeq, div_lt_div_iff₀ hdq (pow_pos (by norm_num) _)]
    calc (a : ℚ) * (2 : ℚ) ^ (halvings d d)
        < (2 : ℚ) ^ (halvings a a + 1) * (2 : ℚ) ^ (halvings d d) := by
          apply mul_lt_mul_of_pos_right h2 (pow_pos (by norm_num) _)
      _ ≤ (2 : ℚ) ^ (halvings a a + 1) * (d : ℚ) := by
          apply mul_le_mul_of_nonneg_left h3 (le_of_lt (pow_pos (by norm_num) _))
  have hlo : (2 : ℚ) ^ (((halvings a a : ℕ) : ℤ) - ((halvings d d : ℕ) : ℤ) - 1) ≤ x := by
    have e : (2 : ℚ) ^ (((halvings a a : ℕ) : ℤ) - ((halvings d d : ℕ) : ℤ) - 1) =
        (2 : ℚ) ^ (halvings a a) / (2 : ℚ) ^ (halvings d d + 1) := by
      rw [show ((halvings a a : ℕ) : ℤ) - ((halvings d d : ℕ) : ℤ) - 1 =
        ((halvings a a : ℕ) : ℤ) - ((halvings d d + 1 : ℕ) : ℤ) by push_cast; ring]
      rw [zpow_sub₀ (by norm_num : (2 : ℚ) ≠ 0), zpow_natCast, zpow_natCast]
    rw [e, hxeq, div_le_div_iff₀ (pow_pos (by norm_num) _) hdq]
    calc (2 : ℚ) ^ (halvings a a) * (d : ℚ)
        ≤ (a : ℚ) * (d : ℚ) := mul_le_mul_of_nonneg_right h1 (le_of_lt hdq)
      _ ≤ (a : ℚ) * (2 : ℚ) ^ (halvings d d + 1) := by
          apply mul_le_mul_of_nonneg_left (le_of_lt h4)
          exact_mod_cast ha0.le
  split_ifs with hb
  · exact ⟨hb, hup⟩
  · refine ⟨hlo, ?_⟩
    rw [sub_add_cancel]
    exact lt_of_not_le hb

theorem round_half_even_le (q : ℚ) : (round_half_even q : ℚ) ≤ q + 1 / 2 := by
  have h1 : ((⌊q⌋ : ℤ) : ℚ) ≤ q := Int.floor_le q
  unfold round_half_even
  simp only []
  split_ifs with a b c
  · linarith
  · push_cast; linarith [Int.lt_floor_add_one q]
  · linarith
  · push_cast
    have : q - (⌊q⌋ : ℚ) = 1 / 2 := le_antisymm (not_lt.mp b) (not_lt.mp a)
    linarith

theorem round_half_even_ge (q : ℚ) : q - 1 / 2 ≤ (round_half_even q : ℚ) := by
  have h1 : ((⌊q⌋ : ℤ) : ℚ) ≤ q := Int.floor_le q
  have h2 : q < (⌊q⌋ : ℚ) + 1 := Int.lt_floor_add_one q
  unfold round_half_even
  simp only []
  split_ifs with a b c
  · linarith
  · push_cast; linarith
  · have : q - (⌊q⌋ : ℚ) = 1 / 2 := le_antisymm (not_lt.mp b) (not_lt.mp a)
    linarith
  · push_cast; linarith

theorem round_half_even_int (z : ℤ) : round_half_even (z : ℚ) = z := by
  unfold round_half_even
  simp

theorem round_half_even_floor (q : ℚ) :
    ⌊q⌋ ≤ round_half_even q ∧ round_half_even q ≤ ⌊q⌋ + 1 := by
  unfold round_half_even
  simp only []
  split_ifs <;> omega

theorem round_half_even_mono (q r : ℚ) (h : q ≤ r) :
    round_half_even q ≤ round_half_even r := by
  have hf : ⌊q⌋ ≤ ⌊r⌋ := Int.floor_mono h
  rcases lt_or_eq_of_le hf with hlt | heq
  · have h1 := (round_half_even_floor q).2
    have h2 := (round_half_even_floor r).1
    omega
  · unfold round_half_even
    simp only []
    rw [heq]
    have hd : q - (⌊r⌋ : ℚ) ≤ r - (⌊r⌋ : ℚ) := by linarith
    split_ifs <;> first | omega | (exfalso; linarith)

theorem binary64_of_pos (x : ℚ) (hx : 0 < x) :
    binary64 x =
      (round_half_even (x / (2 : ℚ) ^ (binade x - 52)) : ℚ) * (2 : ℚ) ^ (binade x - 52) := by
  unfold binary64
  rw [if_neg hx.ne']

theorem scaled_bounds (x : ℚ) (hx : 0 < x) :
    (2 : ℚ) ^ (52 : ℕ) ≤ x / (2 : ℚ) ^ (binade x - 52) ∧
    x / (2 : ℚ) ^ (binade x - 52) < (2 : ℚ) ^ (53 : ℕ) := by
  obtain ⟨h1, h2⟩ := binade_bounds x hx
  have hu : (0 : ℚ) < (2 : ℚ) ^ (binade x - 52) := zpow_pos (by norm_num) _
  have e1 : (2 : ℚ) ^ (52 : ℕ) * (2 : ℚ) ^ (binade x - 52) = (2 : ℚ) ^ binade x := by
    rw [← zpow_natCast, ← zpow_add₀ (by norm_num : (2 : ℚ) ≠ 0)]
    congr 1
    push_cast
    ring
  have e2 : (2 : ℚ) ^ (53 : ℕ) * (2 : ℚ) ^ (binade x - 52) = (2 : ℚ) ^ (binade x + 1) := by
    rw [← zpow_natCast, ← zpow_add₀ (by norm_num : (2 : ℚ) ≠ 0)]
    congr 1
    push_cast
    ring
  constructor
  · rw [le_div_iff₀ hu, e1]
    exact h1
  · rw [div_lt_iff₀ hu, e2]
    exact h2

theorem rounded_bounds (x : ℚ) (hx : 0 < x) :
    (2 : ℤ) ^ (52 : ℕ) ≤ round_half_even (x / (2 : ℚ) ^ (binade x - 52)) ∧
    round_half_even (x / (2 : ℚ) ^ (binade x - 52)) ≤ (2 : ℤ) ^ (53 : ℕ) := by
  obtain ⟨h1, h2⟩ := scaled_bounds x hx
  constructor
  · have := round_half_even_mono (((2 : ℤ) ^ (52 : ℕ) : ℤ) : ℚ) _ (by push_cast; exact h1)
    rwa [round_half_even_int] at this
  · have := round_half_even_mono _ (((2 : ℤ) ^ (53 : ℕ) : ℤ) : ℚ) (by push_cast; exact h2.le)
    rwa [round_half_even_int] at this

theorem binary64_bounds (x : ℚ) (hx : 0 < x) :
    (2 : ℚ) ^ binade x ≤ binary64 x ∧ binary64 x ≤ (2 : ℚ) ^ (binade x + 1) := by
  obtain ⟨h1, h2⟩ := rounded_bounds x hx
  have hu : (0 : ℚ) < (2 : ℚ) ^ (binade x - 52) := zpow_pos (by norm_num) _
  have e1 : (2 : ℚ) ^ (52 : ℕ) * (2 : ℚ) ^ (binade x - 52) = (2 : ℚ) ^ binade x := by
    rw [← zpow_natCast, ← zpow_add₀ (by norm_num : (2 : ℚ) ≠ 0)]
    congr 1
    push_cast
    ring
  have e2 : (2 : ℚ) ^ (53 : ℕ) * (2 : ℚ) ^ (binade x - 52) = (2 : ℚ) ^ (binade x + 1) := by
    rw [← zpow_natCast, ← zpow_add₀ (by norm_num : (2 : ℚ) ≠ 0)]
    congr 1
    push_cast
    ring
  rw [binary64_of_pos x hx]
  constructor
  · rw [← e1]
    apply mul_le_mul_of_nonneg_right _ hu.le
    exact_mod_cast h1
  · rw [← e2]
    apply mul_le_mul_of_nonneg_right _ hu.le
    exact_mod_cast h2

theorem binary64_pos (x : ℚ) (hx : 0 < x) : 0 < binary64 x :=
  lt_of_lt_of_le (zpow_pos (by norm_num) _) (binary64_bounds x hx).1

theorem binary64_zero : binary64 0 = 0 := by
  unfold binary64
  rw [if_pos rfl]

theorem binary64_nonneg (x : ℚ) (hx : 0 ≤ x) : 0 ≤ binary64 x := by
  rcases eq_or_lt_of_le hx with h | h
  · rw [← h, binary64_zero]
  · exact (binary64_pos x h).le

theorem binade_mono (x y : ℚ) (hx : 0 < x) (hxy : x ≤ y) : binade x ≤ binade y := by
  obtain ⟨h1, _⟩ := binade_bounds x hx
  obtain ⟨_, h4⟩ := binade_bounds y (lt_of_lt_of_le hx hxy)
  by_contra hcon
  have h5 : binade y + 1 ≤ binade x := by omega
  have h6 : (2 : ℚ) ^ (binade y + 1) ≤ (2 : ℚ) ^ binade x :=
    zpow_le_zpow_right₀ (by norm_num) h5
  linarith

theorem binary64_mono (x y : ℚ) (hx : 0 ≤ x) (hxy : x ≤ y) : binary64 x ≤ binary64 y := by
  rcases eq_or_lt_of_le hx with h | h
  · rw [← h, binary64_zero]
    exact binary64_nonneg y (le_trans hx hxy)
  · have hy : 0 < y := lt_of_lt_of_le h hxy
    rcases lt_or_eq_of_le (binade_mono x y h hxy) with hlt | heq
    · have h1 := (binary64_bounds x h).2
      have h2 := (binary64_bounds y hy).1
      have h3 : (2 : ℚ) ^ (binade x + 1) ≤ (2 : ℚ) ^ binade y :=
        zpow_le_zpow_right₀ (by norm_num) (by omega)
      linarith
    · rw [binary64_of_pos x h, binary64_of_pos y hy, heq]
      have hu : (0 : ℚ) < (2 : ℚ) ^ (binade y - 52) := zpow_pos (by norm_num) _
      apply mul_le_mul_of_nonneg_right _ hu.le
      have := round_half_even_mono (x / (2 : ℚ) ^ (binade y - 52))
        (y / (2 : ℚ) ^ (binade y - 52)) (div_le_div_of_nonneg_right hxy hu.le)
      exact_mod_cast this

theorem binary64_of_scaled_int (x : ℚ) (hx : 0 < x) (z : ℤ)
    (hz : x / (2 : ℚ) ^ (binade x - 52) = (z : ℚ)) : binary64 x = x := by
  have hu : (0 : ℚ) < (2 : ℚ) ^ (binade x - 52) := zpow_pos (by norm_num) _
  rw [binary64_of_pos x hx, hz, round_half_even_int, ← hz]
  field_simp

theorem binary64_nat (k : Nat) (hk : k ≤ 2 ^ 53) : binary64 (k : ℚ) = (k : ℚ) := by
  rcases Nat.eq_zero_or_pos k with h0 | hpos
  · subst h0
    simpa using binary64_zero
  · have hx : (0 : ℚ) < (k : ℚ) := by exact_mod_cast hpos
    obtain ⟨h1, h2⟩ := binade_bounds (k : ℚ) hx
    have he53 : binade (k : ℚ) ≤ 53 := by
      by_contra hcon
      have h3 : (2 : ℚ) ^ (54 : ℤ) ≤ (2 : ℚ) ^ binade (k : ℚ) :=
        zpow_le_zpow_right₀ (by norm_num) (by omega)
      have h4 : (k : ℚ) ≤ 2 ^ 53 := by exact_mod_cast hk
      have h5 : ((2 : ℚ) ^ (54 : ℤ)) = 2 ^ 54 := by norm_num
      rw [h5] at h3
      have h6 : (2 : ℚ) ^ 53 < 2 ^ 54 := by norm_num
      linarith
    rcases lt_or_eq_of_le he53 with hlt | heq
    · have hm : 0 ≤ 52 - binade (k : ℚ) := by omega
      obtain ⟨m, hm'⟩ := Int.eq_ofNat_of_zero_le hm
      apply binary64_of_scaled_int (k : ℚ) hx ((k : ℤ) * 2 ^ m)
      have e : binade (k : ℚ) - 52 = -(m : ℤ) := by omega
      rw [e, zpow_neg, zpow_natCast]
      push_cast
      field_simp
    · have hk2 : (k : ℚ) = 2 ^ 53 := by
        rw [heq] at h1
        have h4 : (k : ℚ) ≤ 2 ^ 53 := by exact_mod_cast hk
        have h5 : ((2 : ℚ) ^ (53 : ℤ)) = 2 ^ 53 := by norm_num
        rw [h5] at h1
        exact le_antisymm h4 h1
      apply binary64_of_scaled_int (k : ℚ) hx (2 ^ 52)
      rw [heq, hk2]
      norm_num

theorem binary64_le_rel (x : ℚ) (hx : 0 < x) :
    binary64 x ≤ x * (1 + 1 / 2 ^ 53) := by
  obtain ⟨h1, _⟩ := binade_bounds x hx
  have hu : (0 : ℚ) < (2 : ℚ) ^ (binade x - 52) := zpow_pos (by norm_num) _
  have e : (2 : ℚ) ^ binade x = (2 : ℚ) ^ (52 : ℕ) * (2 : ℚ) ^ (binade x - 52) := by
    rw [← zpow_natCast, ← zpow_add₀ (by norm_num : (2 : ℚ) ≠ 0)]
    congr 1
    push_cast
    ring
  rw [binary64_of_pos x hx]
  have h2 := round_half_even_le (x / (2 : ℚ) ^ (binade x - 52))
  have h3 : (round_half_even (x / (2 : ℚ) ^ (binade x - 52)) : ℚ) * (2 : ℚ) ^ (binade x - 52)
      ≤ (x / (2 : ℚ) ^ (binade x - 52) + 1 / 2) * (2 : ℚ) ^ (binade x - 52) :=
    mul_le_mul_of_nonneg_right h2 hu.le
  have h4 : (x / (2 : ℚ) ^ (binade x - 52) + 1 / 2) * (2 : ℚ) ^ (binade x - 52) =
      x + (2 : ℚ) ^ (binade x - 52) / 2 := by
    field_simp
    ring
  rw [h4] at h3
  rw [e] at h1
  have h5 : (2 : ℚ) ^ (binade x - 52) ≤ x / 2 ^ 52 := by
    rw [le_div_iff₀ (by norm_num)]
    linarith
  have h6 : x * (1 + 1 / 2 ^ 53) = x + x / 2 ^ 52 / 2 := by ring
  rw [h6]
  linarith

theorem binary64_ge_rel (x : ℚ) (hx : 0 < x) :
    x * (1 - 1 / 2 ^ 53) ≤ binary64 x := by
  obtain ⟨h1, _⟩ := binade_bounds x hx
  have hu : (0 : ℚ) < (2 : ℚ) ^ (binade x - 52) := zpow_pos (by norm_num) _
  have e : (2 : ℚ) ^ binade x = (2 : ℚ) ^ (52 : ℕ) * (2 : ℚ) ^ (binade x - 52) := by
    rw [← zpow_natCast, ← zpow_add₀ (by norm_num : (2 : ℚ) ≠ 0)]
    congr 1
    push_cast
    ring
  rw [binary64_of_pos x hx]
  have h2 := round_half_even_ge (x / (2 : ℚ) ^ (binade x - 52))
  have h3 : (x / (2 : ℚ) ^ (binade x - 52) - 1 / 2) * (2 : ℚ) ^ (binade x - 52) ≤
      (round_half_even (x / (2 : ℚ) ^ (binade x - 52)) : ℚ) * (2 : ℚ) ^ (binade x - 52) :=
    mul_le_mul_of_nonneg_right h2 hu.le
  have h4 : (x / (2 : ℚ) ^ (binade x - 52) - 1 / 2) * (2 : ℚ) ^ (binade x - 52) =
      x - (2 : ℚ) ^ (binade x - 52) / 2 := by
    field_simp
    ring
  rw [h4] at h3
  rw [e] at h1
  have h5 : (2 : ℚ) ^ (binade x - 52) ≤ x / 2 ^ 52 := by
    rw [le_div_iff₀ (by norm_num)]
    linarith
  have h6 : x * (1 - 1 / 2 ^ 53) = x - x / 2 ^ 52 / 2 := by ring
  rw [h6]
  linarith

/-! ## Percentile index -/

theorem usub64_one_le (n : Nat) (hn : 1 ≤ n) : usub64 n 1 ≤ n - 1 := by
  unfold usub64
  norm_num
  omega

theorem floor_min_ceil (x : ℚ) (m : ℤ) :
    ⌊min ((⌈x⌉ : ℤ) : ℚ) (m : ℚ)⌋ = min ⌈x⌉ m := by
  rw [← Int.cast_min, Int.floor_intCast]

/-- For a vector of `1 <= n <= 2^53` elements both conversions of `percentile_idx` to
`double` are exact, and the result is the ceiling of the rounded product, clamped to
`n - 1`. -/
theorem percentile_idx_eq (p : ℚ) (n : Nat) (hn : 1 ≤ n) (h53 : n ≤ 2 ^ 53) :
    percentile_idx p n = (min ⌈binary64 (p * (n : ℚ))⌉ ((n : ℤ) - 1)).toNat := by
  have h64 : n ≤ 2 ^ 64 := le_trans h53 (by norm_num)
  have hlast : binary64 ((usub64 n 1 : Nat) : ℚ) = (((n : ℤ) - 1 : ℤ) : ℚ) := by
    rw [usub64_one n hn h64, binary64_nat (n - 1) (by omega)]
    have : ((n - 1 : Nat) : ℤ) = (n : ℤ) - 1 := by omega
    rw [← this]
    norm_cast
  unfold percentile_idx
  simp only []
  rw [binary64_nat n h53, hlast, floor_min_ceil]

theorem percentile_idx_le_pred (p : ℚ) (n : Nat) (hn : 1 ≤ n) (h53 : n ≤ 2 ^ 53) :
    percentile_idx p n ≤ n - 1 := by
  rw [percentile_idx_eq p n hn h53]
  have h2 : min ⌈binary64 (p * (n : ℚ))⌉ ((n : ℤ) - 1) ≤ (n : ℤ) - 1 := min_le_right _ _
  omega

theorem percentile_idx_le_ceil (p : ℚ) (n : Nat) :
    (percentile_idx p n : ℤ) ≤ max 0 ⌈binary64 (p * binary64 (n : ℚ))⌉ := by
  unfold percentile_idx
  simp only []
  have h1 : ⌊min ((⌈binary64 (p * binary64 (n : ℚ))⌉ : ℤ) : ℚ)
      (binary64 ((usub64 n 1 : Nat) : ℚ))⌋ ≤ ⌈binary64 (p * binary64 (n : ℚ))⌉ := by
    have := Int.floor_mono (min_le_left ((⌈binary64 (p * binary64 (n : ℚ))⌉ : ℤ) : ℚ)
      (binary64 ((usub64 n 1 : Nat) : ℚ)))
    rwa [Int.floor_intCast] at this
  rw [Int.toNat_eq_max]
  exact max_le (le_trans h1 (le_max_right _ _)) (le_max_left _ _)

theorem binary64_95 : binary64 (95 / 100) = 8556839292003942 / 2 ^ 53 := by decide!

/-- The trimming index never reaches the last element: for the fraction `95 / 100.0` the
result is at most `n - 1` for every length, also where the conversions round. -/
theorem percentile_idx_95_le_pred (n : Nat) (hn : 1 ≤ n) :
    percentile_idx (binary64 (95 / 100)) n ≤ n - 1 := by
  rcases Nat.le_total n (2 ^ 53) with h53 | h53
  · exact percentile_idx_le_pred _ n hn h53
  · have hnq : (2 : ℚ) ^ 53 ≤ (n : ℚ) := by exact_mod_cast h53
    have hn0 : (0 : ℚ) < (n : ℚ) := lt_of_lt_of_le (by norm_num) hnq
    have hN := binary64_le_rel (n : ℚ) hn0
    have hNpos := binary64_pos (n : ℚ) hn0
    have hp : (0 : ℚ) < binary64 (95 / 100) := by rw [binary64_95]; norm_num
    have hp95 : binary64 (95 / 100) ≤ 95 / 100 := by rw [binary64_95]; norm_num
    have hx : 0 < binary64 (95 / 100) * binary64 (n : ℚ) := mul_pos hp hNpos
    have hP := binary64_le_rel _ hx
    have h1 : binary64 (95 / 100) * binary64 (n : ℚ) ≤ 95 / 100 * ((n : ℚ) * (1 + 1 / 2 ^ 53)) :=
      mul_le_mul hp95 hN hNpos.le (by norm_num)
    have h2 : binary64 (binary64 (95 / 100) * binary64 (n : ℚ)) ≤
        95 / 100 * ((n : ℚ) * (1 + 1 / 2 ^ 53)) * (1 + 1 / 2 ^ 53) :=
      le_trans hP (mul_le_mul_of_nonneg_right h1 (by norm_num))
    have h3 : 95 / 100 * ((n : ℚ) * (1 + 1 / 2 ^ 53)) * (1 + 1 / 2 ^ 53) ≤ 96 / 100 * (n : ℚ) := by
      have : (95 / 100 : ℚ) * (1 + 1 / 2 ^ 53) * (1 + 1 / 2 ^ 53) ≤ 96 / 100 := by norm_num
      nlinarith
    have h4 := Int.ceil_lt_add_one (binary64 (binary64 (95 / 100) * binary64 (n : ℚ)))
    have h5 : ((⌈binary64 (binary64 (95 / 100) * binary64 (n : ℚ))⌉ : ℤ) : ℚ) <
        (((n : ℤ) - 1 : ℤ) : ℚ) := by
      push_cast
      have h6 : (100 : ℚ) ≤ (n : ℚ) := le_trans (by norm_num) hnq
      linarith
    have h7 : ⌈binary64 (binary64 (95 / 100) * binary64 (n : ℚ))⌉ < (n : ℤ) - 1 := by
      exact_mod_cast h5
    have h8 := percentile_idx_le_ceil (binary64 (95 / 100)) n
    have h9 : max 0 ⌈binary64 (binary64 (95 / 100) * binary64 (n : ℚ))⌉ ≤ (n : ℤ) - 1 :=
      max_le (by omega) h7.le
    omega

theorem percentile_idx_95_le (n : Nat) : percentile_idx (binary64 (95 / 100)) n ≤ n := by
  rcases Nat.eq_zero_or_pos n with h0 | hpos
  · subst h0
    decide!
  · have := percentile_idx_95_le_pred n hpos
    omega

/-- Claim C10: for a vector of `1 <= n <= 2^53` elements (a length that `double` holds
exactly) and a fraction `0 <= p <= 1`, `percentile_idx` returns the ceiling of the rounded
product `p * n`, a whole number between 0 and `n`, clamped to `n - 1`: the result is at
most `n - 1`, a valid index into the vector. -/
theorem percentile_idx_range (p : ℚ) (n : Nat) (hn : 1 ≤ n) (h53 : n ≤ 2 ^ 53)
    (h0 : 0 ≤ p) (h1 : p ≤ 1) :
    percentile_idx p n ≤ n - 1 ∧ percentile_idx p n < n ∧
    0 ≤ ⌈binary64 (p * (n : ℚ))⌉ ∧ ⌈binary64 (p * (n : ℚ))⌉ ≤ (n : ℤ) ∧
    (percentile_idx p n : ℤ) = min ⌈binary64 (p * (n : ℚ))⌉ ((n : ℤ) - 1) := by
  have hle := percentile_idx_le_pred p n hn h53
  have hpn : 0 ≤ p * (n : ℚ) := mul_nonneg h0 (Nat.cast_nonneg n)
  have hc0 : 0 ≤ ⌈binary64 (p * (n : ℚ))⌉ := Int.ceil_nonneg (binary64_nonneg _ hpn)
  have hc1 : ⌈binary64 (p * (n : ℚ))⌉ ≤ (n : ℤ) := by
    apply Int.ceil_le.mpr
    have h2 : p * (n : ℚ) ≤ (n : ℚ) := by
      have := mul_le_mul_of_nonneg_right h1 (Nat.cast_nonneg (α := ℚ) n)
      simpa using this
    have h3 := binary64_mono _ _ hpn h2
    rw [binary64_nat n h53] at h3
    exact_mod_cast h3
  refine ⟨hle, by omega, hc0, hc1, ?_⟩
  rw [percentile_idx_eq p n hn h53]
  exact Int.toNat_of_nonneg (le_min hc0 (by omega))

theorem percentile_idx_range_witness :
    percentile_idx (binary64 (95 / 100)) 10 = 9 ∧
    percentile_idx (binary64 (1 / 10)) 10 = 1 ∧
    (percentile_idx (binary64 (95 / 100)) 10 ≤ 10 - 1 ∧
      percentile_idx (binary64 (95 / 100)) 10 < 10 ∧
      0 ≤ ⌈binary64 (binary64 (95 / 100) * ((10 : Nat) : ℚ))⌉ ∧
      ⌈binary64 (binary64 (95 / 100) * ((10 : Nat) : ℚ))⌉ ≤ ((10 : Nat) : ℤ) ∧
      (percentile_idx (binary64 (95 / 100)) 10 : ℤ) =
        min ⌈binary64 (binary64 (95 / 100) * ((10 : Nat) : ℚ))⌉ (((10 : Nat) : ℤ) - 1)) :=
  ⟨by decide!, by decide!,
   percentile_idx_range (binary64 (95 / 100)) 10 (by decide) (by norm_num)
     (by rw [binary64_95]; norm_num) (by rw [binary64_95]; norm_num)⟩

/-- Claim C11: for every length `n` and fractions `0 <= p <= q`,
`percentile_idx(p, n) <= percentile_idx(q, n)`: the conversion of the length, the rounding
of the product, the ceiling, the minimum and the conversion to `uint64_t` are all
monotone. -/
theorem percentile_idx_monotone (p q : ℚ) (n : Nat) (h0 : 0 ≤ p) (hpq : p ≤ q) :
    percentile_idx p n ≤ percentile_idx q n := by
  have hN : 0 ≤ binary64 (n : ℚ) := binary64_nonneg _ (Nat.cast_nonneg n)
  have h1 : binary64 (p * binary64 (n : ℚ)) ≤ binary64 (q * binary64 (n : ℚ)) :=
    binary64_mono _ _ (mul_nonneg h0 hN) (mul_le_mul_of_nonneg_right hpq hN)
  have h2 : ((⌈binary64 (p * binary64 (n : ℚ))⌉ : ℤ) : ℚ) ≤
      ((⌈binary64 (q * binary64 (n : ℚ))⌉ : ℤ) : ℚ) := by
    exact_mod_cast Int.ceil_mono h1
  unfold percentile_idx
  simp only []
  apply Int.toNat_le_toNat
  apply Int.floor_mono
  exact min_le_min h2 le_rfl

theorem percentile_idx_monotone_witness :
    percentile_idx (1 / 2) 10 = 5 ∧ percentile_idx (binary64 (95 / 100)) 10 = 9 ∧
    percentile_idx (1 / 2) 10 ≤ percentile_idx (binary64 (95 / 100)) 10 :=
  ⟨by decide!, by decide!,
   percentile_idx_monotone (1 / 2) (binary64 (95 / 100)) 10 (by norm_num)
     (by rw [binary64_95]; norm_num)⟩

/-- Claim C12, counterexample: for `p = 1/2` and `n = 3` the product is `3/2`, a `double`,
and `percentile_idx` returns `2 = ceil(3/2)`, which exceeds `p * n`; the largest valid index
not exceeding `p * n` is `1`. -/
theorem percentile_idx_exceeds_product :
    percentile_idx (1 / 2) 3 = 2 ∧ ¬ ((percentile_idx (1 / 2) 3 : ℚ) ≤ (1 / 2 : ℚ) * ((3 : Nat) : ℚ)) ∧
    ((1 : Nat) : ℚ) ≤ (1 / 2 : ℚ) * ((3 : Nat) : ℚ) ∧ 1 ≤ 3 - 1 ∧
    binary64 (1 / 2) = 1 / 2 ∧ binary64 ((1 / 2 : ℚ) * ((3 : Nat) : ℚ)) = 3 / 2 := by
  have h : percentile_idx (1 / 2) 3 = 2 := by decide!
  refine ⟨h, ?_, by norm_num, by norm_num, by decide!, by decide!⟩
  rw [h]
  norm_num

/-- Claim C12, amended: for a length `1 <= n <= 2^53` and a fraction `p >= 0`,
`percentile_idx(p, n)` is the ceiling of the rounded product `fl(p * n)` clamped to `n - 1`:
it is the smallest valid index that is not below `fl(p * n)` when such an index exists, and
`n - 1` otherwise; it is less than `fl(p * n) + 1`.  The rounded product lies within
`p * n * (1 - 2^-53)` and `p * n * (1 + 2^-53)`; where the product is exact, the result is
`ceil(p * n)` clamped to `n - 1`. -/
theorem percentile_idx_clamped_ceiling (p : ℚ) (n : Nat) (hn : 1 ≤ n) (h53 : n ≤ 2 ^ 53)
    (h0 : 0 ≤ p) :
    (percentile_idx p n : ℤ) = min ⌈binary64 (p * (n : ℚ))⌉ ((n : ℤ) - 1) ∧
    (∀ i : Nat, i ≤ n - 1 → binary64 (p * (n : ℚ)) ≤ (i : ℚ) →
      binary64 (p * (n : ℚ)) ≤ (percentile_idx p n : ℚ) ∧ percentile_idx p n ≤ i) ∧
    ((∀ i : Nat, i ≤ n - 1 → (i : ℚ) < binary64 (p * (n : ℚ))) → percentile_idx p n = n - 1) ∧
    (percentile_idx p n : ℚ) < binary64 (p * (n : ℚ)) + 1 ∧
    p * (n : ℚ) * (1 - 1 / 2 ^ 53) ≤ binary64 (p * (n : ℚ)) ∧
    binary64 (p * (n : ℚ)) ≤ p * (n : ℚ) * (1 + 1 / 2 ^ 53) ∧
    (binary64 (p * (n : ℚ)) = p * (n : ℚ) →
      (percentile_idx p n : ℤ) = min ⌈p * (n : ℚ)⌉ ((n : ℤ) - 1)) := by
  have hpn : 0 ≤ p * (n : ℚ) := mul_nonneg h0 (Nat.cast_nonneg n)
  generalize hx : binary64 (p * (n : ℚ)) = x
  have hx0 : 0 ≤ x := by rw [← hx]; exact binary64_nonneg _ hpn
  have hc0 : 0 ≤ ⌈x⌉ := Int.ceil_nonneg hx0
  have hmin : (percentile_idx p n : ℤ) = min ⌈x⌉ ((n : ℤ) - 1) := by
    rw [percentile_idx_eq p n hn h53, hx]
    exact Int.toNat_of_nonneg (le_min hc0 (by omega))
  have hlt : (percentile_idx p n : ℚ) < x + 1 := by
    have h2 : (percentile_idx p n : ℤ) ≤ ⌈x⌉ := by rw [hmin]; exact min_le_left _ _
    have h3 : ((percentile_idx p n : ℤ) : ℚ) ≤ ((⌈x⌉ : ℤ) : ℚ) := by exact_mod_cast h2
    have h4 := Int.ceil_lt_add_one x
    have h5 : ((percentile_idx p n : ℤ) : ℚ) = (percentile_idx p n : ℚ) := by norm_cast
    linarith
  have hrel : p * (n : ℚ) * (1 - 1 / 2 ^ 53) ≤ x ∧ x ≤ p * (n : ℚ) * (1 + 1 / 2 ^ 53) := by
    rcases eq_or_lt_of_le hpn with hz | hpos
    · rw [← hx, ← hz, binary64_zero]
      norm_num
    · rw [← hx]
      exact ⟨binary64_ge_rel _ hpos, binary64_le_rel _ hpos⟩
  refine ⟨hmin, ?_, ?_, hlt, hrel.1, hrel.2, ?_⟩
  · intro i hi hpi
    have hci : ⌈x⌉ ≤ (i : ℤ) := Int.ceil_le.mpr (by exact_mod_cast hpi)
    have heq : (percentile_idx p n : ℤ) = ⌈x⌉ := by
      rw [hmin]; apply min_eq_left; omega
    constructor
    · have h4 := Int.le_ceil x
      have h5 : ((percentile_idx p n : ℤ) : ℚ) = ((⌈x⌉ : ℤ) : ℚ) := by rw [heq]
      have h6 : ((percentile_idx p n : ℤ) : ℚ) = (percentile_idx p n : ℚ) := by norm_cast
      linarith
    · omega
  · intro hall
    have hlast := hall (n - 1) le_rfl
    have hc : (n : ℤ) - 1 < ⌈x⌉ := by
      apply Int.lt_ceil.mpr
      have : (((n : ℤ) - 1 : ℤ) : ℚ) = ((n - 1 : Nat) : ℚ) := by
        have : ((n - 1 : Nat) : ℤ) = (n : ℤ) - 1 := by omega
        rw [← this]; norm_cast
      rw [this]; exact hlast
    have : (percentile_idx p n : ℤ) = (n : ℤ) - 1 := by
      rw [hmin]; apply min_eq_right; omega
    omega
  · intro hex
    rw [hmin, hex]

theorem percentile_idx_clamped_ceiling_witness :
    percentile_idx (1 / 2) 3 = 2 ∧
    percentile_idx (binary64 (1 / 10)) 10 = 1 ∧
    ⌈binary64 (1 / 10) * ((10 : Nat) : ℚ)⌉ = 2 ∧
    binary64 (binary64 (1 / 10) * ((10 : Nat) : ℚ)) = 1 ∧
    (percentile_idx (1 / 2) 3 : ℤ) =
      min ⌈binary64 ((1 / 2 : ℚ) * ((3 : Nat) : ℚ))⌉ (((3 : Nat) : ℤ) - 1) ∧
    (percentile_idx (1 / 2) 3 : ℚ) < binary64 ((1 / 2 : ℚ) * ((3 : Nat) : ℚ)) + 1 :=
  ⟨by decide!, by decide!, by decide!, by decide!,
   (percentile_idx_clamped_ceiling (1 / 2) 3 (by decide) (by norm_num) (by norm_num)).1,
   (percentile_idx_clamped_ceiling (1 / 2) 3 (by decide) (by norm_num)
     (by norm_num)).2.2.2.1⟩

/-! ## Statistics -/

theorem calc_stats_ok (fsqrt : Nat → Nat) (s : stats_t) (c : call_data_t)
    (h : s.calls ≤ c.exectimes.length) :
    ∃ st, calc_stats fsqrt s c = .ok st ∧ st.calls = s.calls ∧ st.sum = s.sum ∧
      (0 < s.calls →
        st.avg = s.sum / s.calls ∧
        st.sq_sum = to_uint64 (inner_product
          (diff_vector (c.exectimes.take s.calls) (s.sum / s.calls))
          (diff_vector (c.exectimes.take s.calls) (s.sum / s.calls)) 0) ∧
        st.num_less_1us = ((c.exectimes.take s.calls).filter (fun val => val < 1000)).length ∧
        st.num_less_5us = ((c.exectimes.take s.calls).filter (fun val => val < 5000)).length ∧
        st.num_less_10us =
          ((c.exectimes.take s.calls).filter (fun val => val < 10000)).length ∧
        st.std = fsqrt (st.sq_sum / s.calls)) ∧
      (s.calls = 0 → st = s) := by
  unfold calc_stats
  by_cases hpos : 0 < s.calls
  · rw [if_pos hpos, if_neg (by omega)]
    exact ⟨_, rfl, rfl, rfl, fun _ => ⟨rfl, rfl, rfl, rfl, rfl, rfl⟩, fun h0 => by omega⟩
  · rw [if_neg hpos]
    exact ⟨s, rfl, rfl, rfl, fun hp => absurd hp hpos, fun _ => rfl⟩

theorem calc_stats_congr (fsqrt : Nat → Nat) (s : stats_t) (c c2 : call_data_t)
    (h : c.exectimes = c2.exectimes) : calc_stats fsqrt s c = calc_stats fsqrt s c2 := by
  unfold calc_stats
  rw [h]

/-- The aggregation of a call site always returns: the durations are sorted, the full
statistics are `calc_stats` over the whole list with the count set to its length, and the
trimmed statistics are `calc_stats` over the prefix of length `percentile_idx(0.95, n)` with
`sum` set to the sum of that prefix. -/
theorem analyze_call_ok (fsqrt : Nat → Nat) (c : call_data_t) :
    ∃ c', analyze_call fsqrt c = .ok c' ∧
      c'.exectimes = c.exectimes.insertionSort (fun a b => a ≤ b) ∧
      calc_stats fsqrt { c.all_stats with calls := c.exectimes.length } c' = .ok c'.all_stats ∧
      calc_stats fsqrt
        { c.stats_95th with
          calls := percentile_idx (binary64 (95 / 100)) c.exectimes.length
          sum := ((c.exectimes.insertionSort (fun a b => a ≤ b)).take
            (percentile_idx (binary64 (95 / 100)) c.exectimes.length)).sum } c' = .ok c'.stats_95th ∧
      c'.num_ecall_called_from_ocalls = c.num_ecall_called_from_ocalls ∧
      c'.direct_parents_data = c.direct_parents_data ∧
      c'.indirect_parents_data = c.indirect_parents_data ∧
      c'.single_calls = c.single_calls := by
  have hlen : (c.exectimes.insertionSort (fun a b => a ≤ b)).length = c.exectimes.length :=
    List.length_insertionSort _ _
  unfold analyze_call
  simp only []
  split
  · rename_i f hf
    exfalso
    obtain ⟨st, hst, _⟩ := calc_stats_ok fsqrt
      { c.all_stats with calls := c.exectimes.length }
      { c with all_stats := { c.all_stats with calls := c.exectimes.length }
               exectimes := c.exectimes.insertionSort (fun a b => a ≤ b) }
      (by simp)
    rw [hst] at hf
    cases hf
  · rename_i st hst
    split
    · rename_i f hf
      exfalso
      rw [hlen] at hf
      obtain ⟨st95, hst95, _⟩ := calc_stats_ok fsqrt
        { c.stats_95th with
          calls := percentile_idx (binary64 (95 / 100)) c.exectimes.length
          sum := ((c.exectimes.insertionSort (fun a b => a ≤ b)).take
            (percentile_idx (binary64 (95 / 100)) c.exectimes.length)).sum }
        { c with all_stats := st
                 exectimes := c.exectimes.insertionSort (fun a b => a ≤ b)
                 stats_95th :=
                   { c.stats_95th with
                     calls := percentile_idx (binary64 (95 / 100)) c.exectimes.length
                     sum := ((c.exectimes.insertionSort (fun a b => a ≤ b)).take
                       (percentile_idx (binary64 (95 / 100)) c.exectimes.length)).sum } }
        (by simp only [hlen]; exact percentile_idx_95_le _)
      rw [hst95] at hf
      cases hf
    · rename_i st95 hst95
      rw [hlen] at hst95
      refine ⟨_, rfl, rfl, ?_, ?_, rfl, rfl, rfl, rfl⟩
      · rw [← hst]
        exact calc_stats_congr fsqrt _ _ _ rfl
      · rw [← hst95]
        exact calc_stats_congr fsqrt _ _ _ rfl

/-- After any sequence of rows, a call site holds the durations of its invocations in
arrival order, `all_stats.sum` has grown by their total, and `stats_95th` is untouched; in
particular `all_stats.sum` is the total of `exectimes` on every site loaded with no duration
and sum 0. -/
theorem durations_after_rows (ref : call_ref) (rows : List call_row)
    (s s' : analyzer_state) (os : List observation) (c : call_data_t)
    (h : process_rows s rows = .ok (s', os)) (hc : s.site ref = some c) :
    ∃ c', s'.site ref = some c' ∧
      c'.exectimes = c.exectimes ++
        ((os.filter (fun o => o.of_site ref)).map (fun o => o.row.exectime)) ∧
      c'.all_stats.sum = c.all_stats.sum +
        ((os.filter (fun o => o.of_site ref)).map (fun o => o.row.exectime)).sum ∧
      c'.stats_95th = c.stats_95th ∧
      (c.all_stats.sum = c.exectimes.sum → c'.all_stats.sum = c'.exectimes.sum) := by
  have key := process_rows_induct ref
    (fun c c1 os =>
      c1.exectimes = c.exectimes ++
        ((os.filter (fun o => o.of_site ref)).map (fun o => o.row.exectime)) ∧
      c1.all_stats.sum = c.all_stats.sum +
        ((os.filter (fun o => o.of_site ref)).map (fun o => o.row.exectime)).sum ∧
      c1.stats_95th = c.stats_95th)
    ?_ ?_ ?_ ?_ rows s s' os c h hc
  · obtain ⟨c', hc', h1, h2, h3⟩ := key
    refine ⟨c', hc', h1, h2, h3, ?_⟩
    intro hsum
    rw [h2, h1, hsum, List.sum_append]
  · intro c
    simp
  · intro c c1 c2 os1 os2 h1 h2
    obtain ⟨a1, b1, d1⟩ := h1
    obtain ⟨a2, b2, d2⟩ := h2
    simp only [List.filter_append, List.map_append, List.sum_append]
    refine ⟨by rw [a2, a1, List.append_assoc], by rw [b2, b1]; omega, by rw [d2, d1]⟩
  · intro c o hne
    simp [of_site_eq_false o ref hne]
  · intro c c1 o href hup
    refine ⟨?_, ?_, hup.stats_95th⟩
    · rw [hup.exectimes]
      simp [of_site_eq_true o ref href]
    · rw [hup.sum]
      simp [of_site_eq_true o ref href]

/-- Claim C7 as stated fails for a call site without invocations: `calc_stats` is skipped
(`s.calls > 0` is false), count, sum and average are all 0, and `sum < (average + 1) * count`
is `0 < 0`. -/
theorem average_bounds_fail_without_invocations :
    failure_of (analyze_call Nat.sqrt idle_site) = none ∧
    ¬ ((result_or (analyze_call Nat.sqrt idle_site) idle_site).all_stats.avg *
          (result_or (analyze_call Nat.sqrt idle_site) idle_site).all_stats.calls ≤
        (result_or (analyze_call Nat.sqrt idle_site) idle_site).all_stats.sum ∧
       (result_or (analyze_call Nat.sqrt idle_site) idle_site).all_stats.sum <
        ((result_or (analyze_call Nat.sqrt idle_site) idle_site).all_stats.avg + 1) *
          (result_or (analyze_call Nat.sqrt idle_site) idle_site).all_stats.calls) := by
  decide!

/-- Claim C7, amended: for every call site with at least one recorded duration whose
`all_stats.sum` is the total of its durations (as the row callback leaves it), aggregation
returns, sets the count to the number of durations, keeps the sum, and the average satisfies
`average * count <= sum < (average + 1) * count`. -/
theorem truncating_average (fsqrt : Nat → Nat) (c : call_data_t)
    (hn : 0 < c.exectimes.length) (hsum : c.all_stats.sum = c.exectimes.sum) :
    ∃ c', analyze_call fsqrt c = .ok c' ∧
      c'.all_stats.calls = c.exectimes.length ∧
      c'.all_stats.sum = c.exectimes.sum ∧
      c'.all_stats.avg = c'.all_stats.sum / c'.all_stats.calls ∧
      c'.all_stats.avg * c'.all_stats.calls ≤ c'.all_stats.sum ∧
      c'.all_stats.sum < (c'.all_stats.avg + 1) * c'.all_stats.calls := by
  obtain ⟨c', hc', hsorted, hall, _⟩ := analyze_call_ok fsqrt c
  have hlen : c'.exectimes.length = c.exectimes.length := by
    rw [hsorted]
    exact List.length_insertionSort _ _
  obtain ⟨st, hst, hcalls, hs, hpos, _⟩ := calc_stats_ok fsqrt
    { c.all_stats with calls := c.exectimes.length } c' (by simp [hlen])
  rw [hall] at hst
  cases hst
  simp only [] at hcalls hs hpos
  obtain ⟨havg, _⟩ := hpos hn
  refine ⟨c', hc', hcalls, by rw [hs, hsum], by rw [havg, hs, hcalls], ?_, ?_⟩
  · rw [havg, hcalls, hs]
    exact Nat.div_mul_le_self _ _
  · rw [havg, hcalls, hs]
    have := Nat.lt_mul_div_succ c.all_stats.sum hn
    rw [Nat.mul_comm] at this
    exact this

theorem truncating_average_witness :
    (result_or (analyze_call Nat.sqrt scenarioD_site) scenarioD_site).all_stats.avg = 14 ∧
    ∃ c', analyze_call Nat.sqrt scenarioD_site = .ok c' ∧
      c'.all_stats.calls = scenarioD_site.exectimes.length ∧
      c'.all_stats.sum = scenarioD_site.exectimes.sum ∧
      c'.all_stats.avg = c'.all_stats.sum / c'.all_stats.calls ∧
      c'.all_stats.avg * c'.all_stats.calls ≤ c'.all_stats.sum ∧
      c'.all_stats.sum < (c'.all_stats.avg + 1) * c'.all_stats.calls :=
  ⟨by decide!, truncating_average Nat.sqrt scenarioD_site (by decide) (by decide)⟩

/-- Claim C9: for every call site with `n >= 1` durations whose `stats_95th` is still
zero-initialised (the row callback never writes it), aggregation returns with
`stats_95th.calls = percentile_idx(0.95, n)`, a proper prefix length; `stats_95th.sum` is the
sum of the first `stats_95th.calls` durations of the ascending-sorted list;
`stats_95th.avg = sum div calls`; the trimmed threshold counts, squared-deviation sum and
standard deviation are those of the same `calc_stats`, run over exactly that prefix; and the
full statistics come from the same `calc_stats` run over the whole list. -/
theorem trimmed_statistics (fsqrt : Nat → Nat) (c : call_data_t)
    (hn : 0 < c.exectimes.length) (hfresh : c.stats_95th = {}) :
    ∃ c', analyze_call fsqrt c = .ok c' ∧
      c'.exectimes = c.exectimes.insertionSort (fun a b => a ≤ b) ∧
      c'.stats_95th.calls = percentile_idx (binary64 (95 / 100)) c.exectimes.length ∧
      c'.stats_95th.calls < c.exectimes.length ∧
      c'.stats_95th.sum = (c'.exectimes.take c'.stats_95th.calls).sum ∧
      c'.stats_95th.avg = c'.stats_95th.sum / c'.stats_95th.calls ∧
      c'.stats_95th.num_less_1us =
        ((c'.exectimes.take c'.stats_95th.calls).filter (fun val => val < 1000)).length ∧
      c'.stats_95th.num_less_5us =
        ((c'.exectimes.take c'.stats_95th.calls).filter (fun val => val < 5000)).length ∧
      c'.stats_95th.num_less_10us =
        ((c'.exectimes.take c'.stats_95th.calls).filter (fun val => val < 10000)).length ∧
      c'.stats_95th.sq_sum = to_uint64 (inner_product
        (diff_vector (c'.exectimes.take c'.stats_95th.calls) c'.stats_95th.avg)
        (diff_vector (c'.exectimes.take c'.stats_95th.calls) c'.stats_95th.avg) 0) ∧
      (0 < c'.stats_95th.calls →
        c'.stats_95th.std = fsqrt (c'.stats_95th.sq_sum / c'.stats_95th.calls)) ∧
      calc_stats fsqrt
        { calls := c'.stats_95th.calls, sum := (c'.exectimes.take c'.stats_95th.calls).sum }
        c' = .ok c'.stats_95th ∧
      calc_stats fsqrt { c.all_stats with calls := c.exectimes.length } c' =
        .ok c'.all_stats := by
  obtain ⟨c', hc', hsorted, hall, h95, _⟩ := analyze_call_ok fsqrt c
  have hlen : c'.exectimes.length = c.exectimes.length := by
    rw [hsorted]
    exact List.length_insertionSort _ _
  have hk := percentile_idx_95_le_pred c.exectimes.length hn
  rw [hfresh, ← hsorted] at h95
  obtain ⟨st, hst, hcalls, hs, hpos, hzero⟩ := calc_stats_ok fsqrt
    { ({} : stats_t) with
      calls := percentile_idx (binary64 (95 / 100)) c.exectimes.length
      sum := (c'.exectimes.take (percentile_idx (binary64 (95 / 100)) c.exectimes.length)).sum } c'
    (by simp only [hlen]; omega)
  rw [h95] at hst
  cases hst
  simp only [] at hcalls hs hpos hzero
  refine ⟨c', hc', hsorted, hcalls, by omega, by rw [hs, hcalls], ?_, ?_, ?_, ?_, ?_, ?_,
    by rw [hcalls]; exact h95, hall⟩
  all_goals
    rcases Nat.eq_zero_or_pos (percentile_idx (binary64 (95 / 100)) c.exectimes.length) with h0 | hp
    · have hz := hzero h0
      rw [hz]
      simp [h0, diff_vector, inner_product, to_uint64]
    · obtain ⟨a1, a2, a3, a4, a5, a6⟩ := hpos hp
      first
        | (intro _; rw [a6, hcalls])
        | simp only [hcalls, hs, a1, a2, a3, a4, a5]

theorem trimmed_statistics_witness :
    ((result_or (analyze_call Nat.sqrt scenarioD_site) scenarioD_site).stats_95th.calls = 9 ∧
      (result_or (analyze_call Nat.sqrt scenarioD_site) scenarioD_site).stats_95th.avg = 5) ∧
    ∃ c', analyze_call Nat.sqrt scenarioD_site = .ok c' ∧
      c'.exectimes = scenarioD_site.exectimes.insertionSort (fun a b => a ≤ b) ∧
      c'.stats_95th.calls = percentile_idx (binary64 (95 / 100)) scenarioD_site.exectimes.length ∧
      c'.stats_95th.calls < scenarioD_site.exectimes.length ∧
      c'.stats_95th.sum = (c'.exectimes.take c'.stats_95th.calls).sum ∧
      c'.stats_95th.avg = c'.stats_95th.sum / c'.stats_95th.calls ∧
      c'.stats_95th.num_less_1us =
        ((c'.exectimes.take c'.stats_95th.calls).filter (fun val => val < 1000)).length ∧
      c'.stats_95th.num_less_5us =
        ((c'.exectimes.take c'.stats_95th.calls).filter (fun val => val < 5000)).length ∧
      c'.stats_95th.num_less_10us =
        ((c'.exectimes.take c'.stats_95th.calls).filter (fun val => val < 10000)).length ∧
      c'.stats_95th.sq_sum = to_uint64 (inner_product
        (diff_vector (c'.exectimes.take c'.stats_95th.calls) c'.stats_95th.avg)
        (diff_vector (c'.exectimes.take c'.stats_95th.calls) c'.stats_95th.avg) 0) ∧
      (0 < c'.stats_95th.calls →
        c'.stats_95th.std = Nat.sqrt (c'.stats_95th.sq_sum / c'.stats_95th.calls)) ∧
      calc_stats Nat.sqrt
        { calls := c'.stats_95th.calls, sum := (c'.exectimes.take c'.stats_95th.calls).sum }
        c' = .ok c'.stats_95th ∧
      calc_stats Nat.sqrt
        { scenarioD_site.all_stats with calls := scenarioD_site.exectimes.length } c' =
        .ok c'.all_stats :=
  ⟨by decide!, trimmed_statistics Nat.sqrt scenarioD_site (by decide) (by decide)⟩

/-! ## The squared-deviation sum in 64-bit arithmetic -/

theorem to_int64_modEq (n : Nat) : to_int64 n ≡ (n : ℤ) [ZMOD 2 ^ 64] := by
  unfold to_int64 Int.ModEq
  norm_num
  split_ifs <;> omega

theorem to_uint64_cast (z : ℤ) : ((to_uint64 z : Nat) : ℤ) = z % 2 ^ 64 := by
  unfold to_uint64
  exact Int.toNat_of_nonneg (Int.emod_nonneg z (by norm_num))

theorem wrap_int64_modEq (z : ℤ) : wrap_int64 z ≡ z [ZMOD 2 ^ 64] := by
  unfold wrap_int64
  refine (to_int64_modEq _).trans ?_
  rw [to_uint64_cast]
  exact Int.mod_modEq z _

theorem usub64_modEq (a b : Nat) : ((usub64 a b : Nat) : ℤ) ≡ (a : ℤ) - b [ZMOD 2 ^ 64] := by
  unfold usub64 Int.ModEq
  norm_num
  omega

theorem inner_product_modEq (xs ys : List ℤ) :
    ∀ acc : ℤ, inner_product xs ys acc ≡
      acc + ((xs.zip ys).map (fun p => p.1 * p.2)).sum [ZMOD 2 ^ 64] := by
  induction xs generalizing ys with
  | nil =>
    intro acc
    simp [inner_product, Int.ModEq]
  | cons x xs ih =>
    intro acc
    cases ys with
    | nil => simp [inner_product, Int.ModEq]
    | cons y ys =>
      rw [inner_product]
      refine (ih ys _).trans ?_
      simp only [List.zip_cons_cons, List.map_cons, List.sum_cons]
      have h1 : wrap_int64 (acc + wrap_int64 (x * y)) ≡ acc + x * y [ZMOD 2 ^ 64] :=
        (wrap_int64_modEq _).trans (Int.ModEq.add (Int.ModEq.refl acc) (wrap_int64_modEq _))
      have h2 := Int.ModEq.add h1
        (Int.ModEq.refl ((xs.zip ys).map (fun p => p.1 * p.2)).sum)
      rw [add_assoc] at h2
      exact h2

theorem diff_squares_modEq (xs : List Nat) (avg : Nat) :
    (((diff_vector xs avg).zip (diff_vector xs avg)).map (fun p => p.1 * p.2)).sum ≡
      (xs.map (fun (x : Nat) => ((x : ℤ) - (avg : ℤ)) ^ 2)).sum [ZMOD 2 ^ 64] := by
  induction xs with
  | nil => simp [diff_vector, Int.ModEq]
  | cons x xs ih =>
    have hd : to_int64 (usub64 x avg) ≡ (x : ℤ) - avg [ZMOD 2 ^ 64] :=
      (to_int64_modEq _).trans (usub64_modEq x avg)
    have hsq := Int.ModEq.mul hd hd
    unfold diff_vector at ih ⊢
    simp only [List.map_cons, List.zip_cons_cons, List.sum_cons]
    rw [sq]
    exact Int.ModEq.add hsq ih

/-- The squared-deviation sum that `calc_stats` stores is the exact sum of the squared
deviations reduced modulo `2^64`; it is the exact sum whenever that is below `2^64`. -/
theorem sq_sum_modulo (xs : List Nat) (avg : Nat) :
    ((to_uint64 (inner_product (diff_vector xs avg) (diff_vector xs avg) 0) : Nat) : ℤ) =
      (xs.map (fun (x : Nat) => ((x : ℤ) - (avg : ℤ)) ^ 2)).sum % 2 ^ 64 ∧
    ((xs.map (fun (x : Nat) => ((x : ℤ) - (avg : ℤ)) ^ 2)).sum < 2 ^ 64 →
      ((to_uint64 (inner_product (diff_vector xs avg) (diff_vector xs avg) 0) : Nat) : ℤ) =
        (xs.map (fun (x : Nat) => ((x : ℤ) - (avg : ℤ)) ^ 2)).sum) := by
  have h1 := inner_product_modEq (diff_vector xs avg) (diff_vector xs avg) 0
  rw [zero_add] at h1
  have h2 := h1.trans (diff_squares_modEq xs avg)
  have h3 : ((to_uint64 (inner_product (diff_vector xs avg) (diff_vector xs avg) 0) : Nat) : ℤ)
      = (xs.map (fun (x : Nat) => ((x : ℤ) - (avg : ℤ)) ^ 2)).sum % 2 ^ 64 := by
    rw [to_uint64_cast]
    exact h2
  refine ⟨h3, ?_⟩
  intro hlt
  rw [h3]
  apply Int.emod_eq_of_lt _ hlt
  apply List.sum_nonneg
  intro z hz
  obtain ⟨x, _, hx⟩ := List.mem_map.mp hz
  rw [← hx]
  positivity

/-- The integer square root of the integer quotient `x div n` is the largest `s` with
`s * s * n <= x`. -/
theorem sqrt_div_largest (x n : Nat) (hn : 0 < n) :
    Nat.sqrt (x / n) * Nat.sqrt (x / n) * n ≤ x ∧
    ∀ s, s * s * n ≤ x → s ≤ Nat.sqrt (x / n) := by
  refine ⟨?_, ?_⟩
  · exact (Nat.le_div_iff_mul_le hn).mp (Nat.sqrt_le (x / n))
  · intro s hs
    exact Nat.le_sqrt.mpr ((Nat.le_div_iff_mul_le hn).mpr hs)

/-- Claim C8 at its failing input, a call site with the two durations 0 ns and 2^33 ns:
the average is 2^32, each squared deviation is 2^64, and the 64-bit products and their sum
wrap to `sq_sum = 0`, so `std` is the square root of 0, whereas the sum of the squared
deviations is 2^65 and the floor of the square root of 2^65 / 2 is 2^32. -/
theorem variance_wraps_for_long_calls (fsqrt : Nat → Nat) :
    ∃ c', analyze_call fsqrt long_call_site = .ok c' ∧
      c'.exectimes = [0, 2 ^ 33] ∧
      c'.all_stats.calls = 2 ∧
      c'.all_stats.avg = 2 ^ 32 ∧
      c'.all_stats.sq_sum = 0 ∧
      c'.all_stats.std = fsqrt 0 ∧
      (c'.exectimes.map (fun (d : Nat) => ((d : ℤ) - (c'.all_stats.avg : ℤ)) ^ 2)).sum = 2 ^ 65 ∧
      Nat.sqrt (2 ^ 65 / 2) = 2 ^ 32 := by
  obtain ⟨c', hc', hsorted, hall, _⟩ := analyze_call_ok fsqrt long_call_site
  have hex : c'.exectimes = [0, 2 ^ 33] := by
    rw [hsorted]
    decide
  obtain ⟨st, hst, hcalls, _, hpos, _⟩ := calc_stats_ok fsqrt
    { long_call_site.all_stats with calls := long_call_site.exectimes.length } c'
    (by rw [hex]; decide)
  rw [hall] at hst
  cases hst
  obtain ⟨havg, hsq, _, _, _, hstd⟩ := hpos (by decide)
  rw [hex] at hsq
  have havg' : c'.all_stats.avg = 2 ^ 32 := by
    rw [havg]
    decide
  have hsq' : c'.all_stats.sq_sum = 0 := by
    rw [hsq]
    decide!
  refine ⟨c', hc', hex, hcalls, havg', hsq', ?_, ?_, ?_⟩
  · rw [hstd, hsq']
    rfl
  · rw [hex, havg']
    norm_num
  · have : (2 : Nat) ^ 65 / 2 = 2 ^ 32 * 2 ^ 32 := by norm_num
    rw [this]
    exact Nat.sqrt_eq _

/-! ## Call-site filter and ranking -/

/-- Claim C20: `skip_call(cd, set)` is true exactly when `cd` is null, or the set is empty
and `cd` has zero full invocations, or the set is not empty and the call id of `cd` is not
a member; with an empty set only zero-invocation sites are skipped, and with a non-empty
set two sites with the same id get the same answer whatever their counts. -/
theorem skip_call_spec (cd : Option call_data_t) (set : List Nat) :
    (skip_call cd set = true ↔
      cd = none ∨
      (set = [] ∧ ∃ c, cd = some c ∧ c.all_stats.calls = 0) ∨
      (set ≠ [] ∧ ∃ c, cd = some c ∧ c.call_id ∉ set)) ∧
    (∀ c : call_data_t, skip_call (some c) [] = true ↔ c.all_stats.calls = 0) ∧
    (∀ c d : call_data_t, set ≠ [] → c.call_id = d.call_id →
      skip_call (some c) set = skip_call (some d) set) ∧
    (∀ c : call_data_t, set ≠ [] → (skip_call (some c) set = true ↔ c.call_id ∉ set)) := by
  have hfind : ∀ c : call_data_t,
      set.find? (fun i => i == c.call_id) = none ↔ c.call_id ∉ set := by
    intro c
    rw [List.find?_eq_none]
    constructor
    · intro h hmem
      exact h _ hmem (by simp)
    · intro h x hx hxe
      have : x = c.call_id := by simpa using hxe
      exact h (this ▸ hx)
  have hne : ∀ c : call_data_t, set ≠ [] →
      (skip_call (some c) set = true ↔ c.call_id ∉ set) := by
    intro c hs
    have he : set.isEmpty = false := by
      cases set with
      | nil => exact absurd rfl hs
      | cons a l => rfl
    simp only [skip_call, he, Bool.false_eq_true, if_false]
    rw [← hfind c]
    split_ifs with h <;> simp [h]
  have hemp : ∀ c : call_data_t, skip_call (some c) [] = true ↔ c.all_stats.calls = 0 := by
    intro c
    simp only [skip_call, List.isEmpty_nil, if_true]
    split_ifs with h <;> simp [h]
  refine ⟨?_, hemp, ?_, hne⟩
  · cases cd with
    | none => simp [skip_call]
    | some c =>
      by_cases hs : set = []
      · subst hs
        rw [hemp c]
        simp
      · rw [hne c hs]
        simp [hs]
  · intro c d hs hid
    have h1 := hne c hs
    have h2 := hne d hs
    rw [hid] at h1
    cases hc : skip_call (some c) set <;> cases hd : skip_call (some d) set <;>
      simp_all

theorem sort_sites_perm (sites : List call_data_t) :
    List.Perm (sort_sites sites) (List.range sites.length) :=
  List.perm_insertionSort _ _

theorem pointed_sites_append (sites rest : List call_data_t) :
    (List.range sites.length).filterMap (fun i => (sites ++ rest)[i]?) = sites := by
  induction sites using List.reverseRecOn generalizing rest with
  | nil => simp
  | append_singleton l a ih =>
    rw [List.length_append, List.length_singleton, List.range_succ, List.filterMap_append,
      List.append_assoc, ih]
    simp [List.getElem_append_right]

theorem pointed_sites_range (sites : List call_data_t) :
    pointed_sites sites (List.range sites.length) = sites := by
  have h := pointed_sites_append sites []
  rw [List.append_nil] at h
  exact h

theorem pointed_sites_perm (sites : List call_data_t) (ptrs : List Nat)
    (h : List.Perm ptrs (List.range sites.length)) :
    List.Perm (pointed_sites sites ptrs) sites := by
  have h1 : List.Perm (pointed_sites sites ptrs) (pointed_sites sites (List.range sites.length)) :=
    List.Perm.filterMap _ h
  rw [pointed_sites_range] at h1
  exact h1

theorem pointed_sites_sorted (sites : List call_data_t) :
    List.Pairwise (fun a b => b.all_stats.calls ≤ a.all_stats.calls)
      (pointed_sites sites (sort_sites sites)) := by
  have h : List.Pairwise (calls_ge sites) (sort_sites sites) :=
    List.sorted_insertionSort (calls_ge sites) (List.range sites.length)
  unfold pointed_sites
  refine List.Pairwise.filterMap _ ?_ h
  intro a a' haa b hb b' hb'
  have h1 : sites[a]? = some b := hb
  have h2 : sites[a']? = some b' := hb'
  unfold calls_ge calls_at at haa
  rw [h1, h2] at haa
  exact haa

/-- Claim C19: after the sorting step of an enclave, `ecalls_sorted` (and `ocalls_sorted`)
points to every site of `ecalls` (of `ocalls`) exactly once, so the pointed sites are a
permutation of the registry, and the full invocation counts are non-increasing from front
to back; the registries themselves are unchanged, so a site at position `i` with call id
`i` still stands there. -/
theorem sorted_registries_ranked (e : enclave_data_t) :
    List.Perm (sort_enclave e).ecalls_sorted (List.range e.ecalls.length) ∧
    List.Perm (pointed_sites e.ecalls (sort_enclave e).ecalls_sorted) e.ecalls ∧
    List.Pairwise (fun a b => b.all_stats.calls ≤ a.all_stats.calls)
      (pointed_sites e.ecalls (sort_enclave e).ecalls_sorted) ∧
    List.Perm (sort_enclave e).ocalls_sorted (List.range e.ocalls.length) ∧
    List.Perm (pointed_sites e.ocalls (sort_enclave e).ocalls_sorted) e.ocalls ∧
    List.Pairwise (fun a b => b.all_stats.calls ≤ a.all_stats.calls)
      (pointed_sites e.ocalls (sort_enclave e).ocalls_sorted) ∧
    (sort_enclave e).ecalls = e.ecalls ∧ (sort_enclave e).ocalls = e.ocalls ∧
    (∀ (i : Nat) (c : call_data_t), e.ecalls[i]? = some c → c.call_id = i →
      ∃ d : call_data_t, (sort_enclave e).ecalls[i]? = some d ∧ d.call_id = i) ∧
    (∀ (i : Nat) (c : call_data_t), e.ocalls[i]? = some c → c.call_id = i →
      ∃ d : call_data_t, (sort_enclave e).ocalls[i]? = some d ∧ d.call_id = i) := by
  refine ⟨sort_sites_perm e.ecalls, pointed_sites_perm e.ecalls _ (sort_sites_perm e.ecalls),
    pointed_sites_sorted e.ecalls, sort_sites_perm e.ocalls,
    pointed_sites_perm e.ocalls _ (sort_sites_perm e.ocalls),
    pointed_sites_sorted e.ocalls, rfl, rfl, ?_, ?_⟩
  · intro i c h hid
    exact ⟨c, h, hid⟩
  · intro i c h hid
    exact ⟨c, h, hid⟩

theorem sorted_registries_ranked_witness :
    (sort_enclave ranking_enclave).ecalls_sorted = [1, 2, 0] ∧
    (pointed_sites ranking_enclave.ecalls (sort_enclave ranking_enclave).ecalls_sorted).map
      (fun c => c.all_stats.calls) = [3, 2, 1] ∧
    List.Perm (sort_enclave ranking_enclave).ecalls_sorted
      (List.range ranking_enclave.ecalls.length) :=
  ⟨by decide, by decide, (sorted_registries_ranked ranking_enclave).1⟩

theorem skip_call_spec_witness :
    skip_call (some idle_site) [] = true ∧ skip_call (some scenarioD_site) [] = true ∧
    skip_call (some idle_site) [0] = false ∧ skip_call (some idle_site) [3] = true ∧
    (∀ c : call_data_t, skip_call (some c) [] = true ↔ c.all_stats.calls = 0) :=
  ⟨by decide, by decide, by decide, by decide, (skip_call_spec none []).2.1⟩

/-! ## Classifiers in double precision -/

theorem binade_le (n : Nat) (h : 0 < n) : (2 : ℚ) ^ binade (n : ℚ) ≤ (n : ℚ) := by
  have h0 : halvings 1 1 = 0 := by decide
  have hpow : (2 : ℚ) ^ ((halvings n n : ℤ) - (halvings 1 1 : ℤ)) ≤ (n : ℚ) := by
    rw [h0]
    simp only [Nat.cast_zero, sub_zero, zpow_natCast]
    exact_mod_cast halvings_le n n h
  unfold binade
  simp only [Rat.num_natCast, Rat.den_natCast, Int.natAbs_ofNat]
  split_ifs with hb
  · exact hpow
  · refine le_trans ?_ hpow
    exact zpow_le_zpow_right₀ (by norm_num) (by omega)

theorem round_half_even_pos (q : ℚ) (h : 1 ≤ q) : 1 ≤ round_half_even q := by
  have h1 : 1 ≤ ⌊q⌋ := Int.le_floor.mpr (by exact_mod_cast h)
  unfold round_half_even
  simp only []
  split_ifs <;> omega

theorem binary64_count_pos (n : Nat) (h : 0 < n) : 0 < binary64 (n : ℚ) := by
  have hn : (n : ℚ) ≠ 0 := by exact_mod_cast h.ne'
  have hu : (0 : ℚ) < (2 : ℚ) ^ (binade (n : ℚ) - 52) := zpow_pos (by norm_num) _
  unfold binary64
  rw [if_neg hn]
  simp only []
  apply mul_pos _ hu
  have h1 : (1 : ℚ) ≤ (n : ℚ) / (2 : ℚ) ^ (binade (n : ℚ) - 52) := by
    rw [le_div_iff₀ hu, one_mul]
    refine le_trans ?_ (binade_le n h)
    exact zpow_le_zpow_right₀ (by norm_num) (by omega)
  have h2 := round_half_even_pos _ h1
  have h3 : (0 : ℤ) < round_half_even ((n : ℚ) / (2 : ℚ) ^ (binade (n : ℚ) - 52)) := by omega
  exact_mod_cast h3

theorem binary64_examples :
    binary64 (1 / 10) = 3602879701896397 / 2 ^ 55 ∧
    binary64 (35 / 100) = 3152519739159347 / 2 ^ 53 ∧
    binary64 (95 / 100) = 8556839292003942 / 2 ^ 53 ∧
    binary64 (2 ^ 53 + 1) = 2 ^ 53 ∧ binary64 (2 ^ 53 + 3) = 2 ^ 53 + 4 ∧
    binary64 (-1 / 3) = -6004799503160661 / 2 ^ 54 ∧ binary64 (3 / 4) = 3 / 4 := by
  refine ⟨by decide!, by decide!, by decide!, by decide!, by decide!, by decide!, by decide!⟩

theorem binary64_count_ne_zero (n : Nat) (h : 0 < n) : binary64 (n : ℚ) ≠ 0 :=
  (binary64_count_pos n h).ne'


theorem fdiv_fin (rnd : ℚ → ℚ) (a b : Nat) (h : rnd (b : ℚ) ≠ 0) :
    fdiv rnd a b = .fin (fl_quot rnd a b) := by
  simp [fdiv, fl_quot, h]

theorem reorder_sum_exact (rnd : ℚ → ℚ) (w : weights_t) (a b c : Nat)
    (h : exact_on rnd (reorder_values w a b c)) :
    reorder_sum rnd w a b c = (a : ℚ) / c * w.alpha + (b : ℚ) / c * w.beta := by
  have h1 : rnd (c : ℚ) = c := h _ (by simp [reorder_values])
  have h2 : rnd (a : ℚ) = a := h _ (by simp [reorder_values])
  have h3 : rnd (b : ℚ) = b := h _ (by simp [reorder_values])
  have h4 : rnd ((a : ℚ) / c) = (a : ℚ) / c := h _ (by simp [reorder_values])
  have h5 : rnd ((a : ℚ) / c * w.alpha) = (a : ℚ) / c * w.alpha := h _ (by simp [reorder_values])
  have h6 : rnd ((b : ℚ) / c) = (b : ℚ) / c := h _ (by simp [reorder_values])
  have h7 : rnd ((b : ℚ) / c * w.beta) = (b : ℚ) / c * w.beta := h _ (by simp [reorder_values])
  have h8 : rnd ((a : ℚ) / c * w.alpha + (b : ℚ) / c * w.beta) =
      (a : ℚ) / c * w.alpha + (b : ℚ) / c * w.beta := h _ (by simp [reorder_values])
  unfold reorder_sum fl_quot
  rw [h1, h2, h3, h4, h5, h6, h7, zero_add, h5, h8]

theorem reorder_start_eq (rnd : ℚ → ℚ) (cfg : config_t) (pcd : parent_call_data_t)
    (h : rnd (pcd.count : ℚ) ≠ 0) :
    reorder_start_opportunity rnd cfg pcd =
      decide (cfg.reordering_weights.gamma <
        reorder_sum rnd cfg.reordering_weights pcd.num_less_than_10us_from_start
          pcd.num_less_than_20us_from_start pcd.count) := by
  simp only [reorder_start_opportunity, fdiv_fin rnd _ _ h, fmul, fadd, fgt, reorder_sum]

theorem reorder_end_eq (rnd : ℚ → ℚ) (cfg : config_t) (pcd : parent_call_data_t)
    (h : rnd (pcd.count : ℚ) ≠ 0) :
    reorder_end_opportunity rnd cfg pcd =
      decide (cfg.reordering_weights.gamma <
        reorder_sum rnd cfg.reordering_weights pcd.num_less_than_10us_from_end
          pcd.num_less_than_20us_from_end pcd.count) := by
  simp only [reorder_end_opportunity, fdiv_fin rnd _ _ h, fmul, fadd, fgt, reorder_sum]

theorem weighted_sum_div (a b c : Nat) (α β : ℚ) (hc : 0 < c) :
    (a : ℚ) / c * α + (b : ℚ) / c * β = ((a : ℚ) * α + (b : ℚ) * β) / c := by
  have : (c : ℚ) ≠ 0 := by exact_mod_cast hc.ne'
  field_simp

theorem default_reordering_weights :
    default_config.reordering_weights.alpha = 1 ∧
    default_config.reordering_weights.beta = 3 / 4 ∧
    default_config.reordering_weights.gamma = 1 / 2 := by decide!

theorem default_criterion (a b c : Nat) (hc : 0 < c) :
    (1 / 2 : ℚ) < ((a : ℚ) * 1 + (b : ℚ) * (3 / 4)) / c ↔ 2 * c < 4 * a + 3 * b := by
  have hc' : (0 : ℚ) < c := by exact_mod_cast hc
  rw [lt_div_iff₀ hc']
  have h : (2 * c < 4 * a + 3 * b) ↔ ((2 : ℚ) * c < 4 * a + 3 * b) := by
    constructor
    · intro h; exact_mod_cast h
    · intro h; exact_mod_cast h
  rw [h]
  constructor <;> intro h1 <;> linarith

/-- Claim C14, counterexample: with the default weights (1.00, 0.75, 0.5) and an entry of
count 56 with 1 gap below 10 µs and 36 below 20 µs, the score `(1*1 + 36*0.75) / 56` is
exactly `0.5` and `4*1 + 3*36 = 2*56`, so the stated criterion does not hold; the code adds
the rounded terms `1/56` and `(36/56)*0.75`, gets `0.5 + 2^-53`, and sets the flag. -/
theorem reorder_flag_set_on_tie :
    reorder_start_opportunity binary64 default_config tie_entry = true ∧
    reorder_end_opportunity binary64 default_config tie_entry = true ∧
    reorder_sum binary64 default_config.reordering_weights 1 36 56 = 1 / 2 + 1 / 2 ^ 53 ∧
    ¬ (default_config.reordering_weights.gamma <
        ((tie_entry.num_less_than_10us_from_start : ℚ) * default_config.reordering_weights.alpha +
         (tie_entry.num_less_than_20us_from_start : ℚ) * default_config.reordering_weights.beta) /
          (tie_entry.count : ℚ)) ∧
    ¬ (2 * tie_entry.count <
        4 * tie_entry.num_less_than_10us_from_start +
        3 * tie_entry.num_less_than_20us_from_start) ∧
    0 < tie_entry.count := by
  refine ⟨by decide!, by decide!, by decide!, by decide!, by decide, by decide⟩

/-- Claim C14, amended: for a direct relation entry with `count > 0` (which converts to a
non-zero `double`), `reorder_start_opportunity` is true iff the sum accumulated in double
precision, `fl(fl(0 + fl(fl(lt10/count)*alpha)) + fl(fl(lt20/count)*beta))` over the
from-start counters, exceeds `gamma`, and `reorder_end_opportunity` likewise over the
from-end counters; each flag depends only on `count` and its own pair of counters.  When
none of these operations rounds, the start flag holds iff
`(lt10*alpha + lt20*beta) / count > gamma`, and with the default weights iff
`4*lt10 + 3*lt20 > 2*count`. -/
theorem reorder_classifier (rnd : ℚ → ℚ) (cfg : config_t) (pcd : parent_call_data_t)
    (hc : 0 < pcd.count) (hrnd : ∀ n : Nat, 0 < n → rnd (n : ℚ) ≠ 0) :
    (reorder_start_opportunity rnd cfg pcd = true ↔
      cfg.reordering_weights.gamma <
        reorder_sum rnd cfg.reordering_weights pcd.num_less_than_10us_from_start
          pcd.num_less_than_20us_from_start pcd.count) ∧
    (reorder_end_opportunity rnd cfg pcd = true ↔
      cfg.reordering_weights.gamma <
        reorder_sum rnd cfg.reordering_weights pcd.num_less_than_10us_from_end
          pcd.num_less_than_20us_from_end pcd.count) ∧
    (exact_on rnd (reorder_values cfg.reordering_weights pcd.num_less_than_10us_from_start
        pcd.num_less_than_20us_from_start pcd.count) →
      (reorder_start_opportunity rnd cfg pcd = true ↔
        cfg.reordering_weights.gamma <
          ((pcd.num_less_than_10us_from_start : ℚ) * cfg.reordering_weights.alpha +
           (pcd.num_less_than_20us_from_start : ℚ) * cfg.reordering_weights.beta) /
            (pcd.count : ℚ)) ∧
      (cfg.reordering_weights = default_config.reordering_weights →
        (reorder_start_opportunity rnd cfg pcd = true ↔
          2 * pcd.count <
            4 * pcd.num_less_than_10us_from_start + 3 * pcd.num_less_than_20us_from_start))) ∧
    (exact_on rnd (reorder_values cfg.reordering_weights pcd.num_less_than_10us_from_end
        pcd.num_less_than_20us_from_end pcd.count) →
      (reorder_end_opportunity rnd cfg pcd = true ↔
        cfg.reordering_weights.gamma <
          ((pcd.num_less_than_10us_from_end : ℚ) * cfg.reordering_weights.alpha +
           (pcd.num_less_than_20us_from_end : ℚ) * cfg.reordering_weights.beta) /
            (pcd.count : ℚ))) ∧
    (∀ other : parent_call_data_t, other.count = pcd.count →
      other.num_less_than_10us_from_start = pcd.num_less_than_10us_from_start →
      other.num_less_than_20us_from_start = pcd.num_less_than_20us_from_start →
      reorder_start_opportunity rnd cfg other = reorder_start_opportunity rnd cfg pcd) ∧
    (∀ other : parent_call_data_t, other.count = pcd.count →
      other.num_less_than_10us_from_end = pcd.num_less_than_10us_from_end →
      other.num_less_than_20us_from_end = pcd.num_less_than_20us_from_end →
      reorder_end_opportunity rnd cfg other = reorder_end_opportunity rnd cfg pcd) := by
  have hs := reorder_start_eq rnd cfg pcd (hrnd _ hc)
  have he := reorder_end_eq rnd cfg pcd (hrnd _ hc)
  have hstart : ∀ h : exact_on rnd (reorder_values cfg.reordering_weights
      pcd.num_less_than_10us_from_start pcd.num_less_than_20us_from_start pcd.count),
      (reorder_start_opportunity rnd cfg pcd = true ↔
        cfg.reordering_weights.gamma <
          ((pcd.num_less_than_10us_from_start : ℚ) * cfg.reordering_weights.alpha +
           (pcd.num_less_than_20us_from_start : ℚ) * cfg.reordering_weights.beta) /
            (pcd.count : ℚ)) := by
    intro h
    rw [hs, decide_eq_true_iff, reorder_sum_exact rnd _ _ _ _ h, weighted_sum_div _ _ _ _ _ hc]
  refine ⟨by rw [hs, decide_eq_true_iff], by rw [he, decide_eq_true_iff], ?_, ?_, ?_, ?_⟩
  · intro h
    refine ⟨hstart h, ?_⟩
    intro hw
    rw [hstart h, hw]
    obtain ⟨ha, hb, hg⟩ := default_reordering_weights
    rw [ha, hb, hg]
    exact default_criterion _ _ _ hc
  · intro h
    rw [he, decide_eq_true_iff, reorder_sum_exact rnd _ _ _ _ h, weighted_sum_div _ _ _ _ _ hc]
  · intro other h1 h2 h3
    simp only [reorder_start_opportunity, h1, h2, h3]
  · intro other h1 h2 h3
    simp only [reorder_end_opportunity, h1, h2, h3]

theorem reorder_classifier_witness :
    reorder_start_opportunity binary64 default_config exact_entry = true ∧
    reorder_end_opportunity binary64 default_config exact_entry = false ∧
    exact_on binary64 (reorder_values default_config.reordering_weights 2 2 2) ∧
    (reorder_start_opportunity binary64 default_config exact_entry = true ↔
      default_config.reordering_weights.gamma <
        reorder_sum binary64 default_config.reordering_weights
          exact_entry.num_less_than_10us_from_start
          exact_entry.num_less_than_20us_from_start exact_entry.count) :=
  ⟨by decide!, by decide!, by decide!,
   (reorder_classifier binary64 default_config exact_entry (by decide)
     binary64_count_ne_zero).1⟩

theorem bucket_score_fin (rnd : ℚ → ℚ) (w : weights_t) (pcd : parent_call_data_t)
    (h : rnd (pcd.count : ℚ) ≠ 0) :
    bucket_score rnd w pcd = .fin (bucket_sum rnd w pcd) := by
  simp only [bucket_score, fdiv_fin rnd _ _ h, fmul, fadd, bucket_sum]

theorem bucket_sum_exact (rnd : ℚ → ℚ) (w : weights_t) (pcd : parent_call_data_t)
    (calls : Nat) (hc : 0 < pcd.count) (h : exact_on rnd (bucket_values w pcd calls)) :
    bucket_sum rnd w pcd = exact_score w pcd ∧
    fl_quot rnd pcd.count calls = (pcd.count : ℚ) / (calls : ℚ) := by
  have hm : ∀ x, x ∈ bucket_values w pcd calls → rnd x = x := h
  simp only [bucket_values, List.mem_cons, List.mem_singleton, forall_eq_or_imp, forall_eq,
    List.not_mem_nil, false_imp_iff, implies_true, and_true] at hm
  obtain ⟨h1, h2, h3, h4, h5, h6, h7, h8, h9, h10, h11, h12, h13, h14, h15, h16, h17, h18⟩ := hm
  have hne : (pcd.count : ℚ) ≠ 0 := by exact_mod_cast hc.ne'
  constructor
  · unfold bucket_sum fl_quot exact_score
    simp only []
    rw [h1, h4, h5, h6, zero_add, h6, h7, h8, h9, h10, h11, h12, h13, h14, h15, h16, h17, h18]
    field_simp
  · unfold fl_quot
    rw [h1, h2, h3]

theorem batch_opportunity_eq (rnd : ℚ → ℚ) (cfg : config_t) (pcd : parent_call_data_t)
    (c : call_data_t) (hr : rnd (pcd.count : ℚ) ≠ 0) (hn : rnd (c.all_stats.calls : ℚ) ≠ 0) :
    (batch_opportunity rnd cfg pcd c = true ↔
      cfg.batching_weights.lambda < fl_quot rnd pcd.count c.all_stats.calls ∧
      cfg.batching_weights.epsilon < bucket_sum rnd cfg.batching_weights pcd) := by
  simp only [batch_opportunity, fdiv_fin rnd _ _ hn, bucket_score_fin rnd _ _ hr, fle, fgt]
  by_cases h : fl_quot rnd pcd.count c.all_stats.calls ≤ cfg.batching_weights.lambda
  · simp [h, not_lt.mpr h]
  · simp [h, not_le.mp h]

theorem merge_opportunity_eq (rnd : ℚ → ℚ) (cfg : config_t) (pcd : parent_call_data_t)
    (c : call_data_t) (hr : rnd (pcd.count : ℚ) ≠ 0) (hn : rnd (c.all_stats.calls : ℚ) ≠ 0) :
    (merge_opportunity rnd cfg pcd c = true ↔
      cfg.merging_weights.lambda < fl_quot rnd pcd.count c.all_stats.calls ∧
      cfg.merging_weights.epsilon < bucket_sum rnd cfg.merging_weights pcd) := by
  simp only [merge_opportunity, fdiv_fin rnd _ _ hn, bucket_score_fin rnd _ _ hr, fle, fgt]
  by_cases h : fl_quot rnd pcd.count c.all_stats.calls ≤ cfg.merging_weights.lambda
  · simp [h, not_lt.mpr h]
  · simp [h, not_le.mp h]

/-- Claim C13, counterexample: two indirect entries of count 5 held by a site with six
invocations have the same ratio `5/6 > lambda` and, with the default weights, the same
exact score `(1*1 + 1*0.75)/5 = (2*0.5 + 3*0.25)/5 = 7/20`, so the stated criterion gives
both the same answer; the code, which rounds each quotient, product and sum, returns true
for the first (sum `0.35000000000000003`) and false for the second (sum equal to the
stored `epsilon`), for batching and for merging. -/
theorem batching_differs_on_equal_scores :
    batch_opportunity binary64 default_config near_entry six_call_site = true ∧
    batch_opportunity binary64 default_config far_entry six_call_site = false ∧
    merge_opportunity binary64 default_config near_entry six_call_site = true ∧
    merge_opportunity binary64 default_config far_entry six_call_site = false ∧
    exact_score default_config.batching_weights near_entry = 7 / 20 ∧
    exact_score default_config.batching_weights far_entry = 7 / 20 ∧
    exact_score default_config.merging_weights near_entry = 7 / 20 ∧
    exact_score default_config.merging_weights far_entry = 7 / 20 ∧
    near_entry.count = far_entry.count ∧
    default_config.batching_weights.lambda <
      (far_entry.count : ℚ) / (six_call_site.all_stats.calls : ℚ) ∧
    default_config.batching_weights.epsilon < exact_score default_config.batching_weights far_entry ∧
    bucket_sum binary64 default_config.batching_weights far_entry =
      default_config.batching_weights.epsilon := by
  refine ⟨by decide!, by decide!, by decide!, by decide!, by decide!, by decide!, by decide!,
    by decide!, by decide, by decide!, by decide!, by decide!⟩

/-- Claim C13, amended: for an indirect relation entry with `count > 0` held by a site with
full count `> 0` (both converting to non-zero `double`s), `batch_opportunity` (batching
weights) and `merge_opportunity` (merging weights) return true iff the rounded ratio
`fl(count / calls)` exceeds `lambda` and the sum accumulated in double precision,
`w = 0; w += fl(fl(n1/count)*alpha); ...; w += fl(fl(n20/count)*delta)` with every sum
rounded, exceeds `epsilon`; when the rounded ratio is at most `lambda` the result is false
whatever the buckets.  When none of these operations rounds, the criterion is
`count / calls > lambda` and `(n1*alpha + n5*beta + n10*gamma + n20*delta) / count > epsilon`. -/
theorem batch_merge_classifier (rnd : ℚ → ℚ) (cfg : config_t) (pcd : parent_call_data_t)
    (c : call_data_t) (hc : 0 < pcd.count) (hcalls : 0 < c.all_stats.calls)
    (hrnd : ∀ n : Nat, 0 < n → rnd (n : ℚ) ≠ 0) :
    (batch_opportunity rnd cfg pcd c = true ↔
      cfg.batching_weights.lambda < fl_quot rnd pcd.count c.all_stats.calls ∧
      cfg.batching_weights.epsilon < bucket_sum rnd cfg.batching_weights pcd) ∧
    (merge_opportunity rnd cfg pcd c = true ↔
      cfg.merging_weights.lambda < fl_quot rnd pcd.count c.all_stats.calls ∧
      cfg.merging_weights.epsilon < bucket_sum rnd cfg.merging_weights pcd) ∧
    (exact_on rnd (bucket_values cfg.batching_weights pcd c.all_stats.calls) →
      (batch_opportunity rnd cfg pcd c = true ↔
        cfg.batching_weights.lambda < (pcd.count : ℚ) / (c.all_stats.calls : ℚ) ∧
        cfg.batching_weights.epsilon < exact_score cfg.batching_weights pcd)) ∧
    (exact_on rnd (bucket_values cfg.merging_weights pcd c.all_stats.calls) →
      (merge_opportunity rnd cfg pcd c = true ↔
        cfg.merging_weights.lambda < (pcd.count : ℚ) / (c.all_stats.calls : ℚ) ∧
        cfg.merging_weights.epsilon < exact_score cfg.merging_weights pcd)) ∧
    (∀ other : parent_call_data_t, other.count = pcd.count →
      fl_quot rnd pcd.count c.all_stats.calls ≤ cfg.batching_weights.lambda →
      batch_opportunity rnd cfg other c = false) ∧
    (∀ other : parent_call_data_t, other.count = pcd.count →
      fl_quot rnd pcd.count c.all_stats.calls ≤ cfg.merging_weights.lambda →
      merge_opportunity rnd cfg other c = false) := by
  have hr := hrnd _ hc
  have hn := hrnd _ hcalls
  have hb := batch_opportunity_eq rnd cfg pcd c hr hn
  have hm := merge_opportunity_eq rnd cfg pcd c hr hn
  refine ⟨hb, hm, ?_, ?_, ?_, ?_⟩
  · intro h
    obtain ⟨h1, h2⟩ := bucket_sum_exact rnd _ pcd _ hc h
    rw [hb, h1, h2]
  · intro h
    obtain ⟨h1, h2⟩ := bucket_sum_exact rnd _ pcd _ hc h
    rw [hm, h1, h2]
  · intro other ho hle
    have := batch_opportunity_eq rnd cfg other c (by rw [ho]; exact hr) hn
    rw [ho] at this
    cases hx : batch_opportunity rnd cfg other c
    · rfl
    · exact absurd (this.mp hx).1 (not_lt.mpr hle)
  · intro other ho hle
    have := merge_opportunity_eq rnd cfg other c (by rw [ho]; exact hr) hn
    rw [ho] at this
    cases hx : merge_opportunity rnd cfg other c
    · rfl
    · exact absurd (this.mp hx).1 (not_lt.mpr hle)

theorem batch_merge_classifier_witness :
    batch_opportunity binary64 default_config scenarioB_entry scenarioB_owner = true ∧
    exact_on binary64
      (bucket_values default_config.batching_weights scenarioB_entry
        scenarioB_owner.all_stats.calls) ∧
    exact_score default_config.batching_weights scenarioB_entry = 1 ∧
    (batch_opportunity binary64 default_config scenarioB_entry scenarioB_owner = true ↔
      default_config.batching_weights.lambda <
        fl_quot binary64 scenarioB_entry.count scenarioB_owner.all_stats.calls ∧
      default_config.batching_weights.epsilon <
        bucket_sum binary64 default_config.batching_weights scenarioB_entry) :=
  ⟨by decide!, by decide!, by decide!,
   (batch_merge_classifier binary64 default_config scenarioB_entry scenarioB_owner
     (by decide) (by decide) binary64_count_ne_zero).1⟩

/-! ## Call kind, id and name through the rows and the aggregation -/

theorem site_step_kind (eid : Nat) (kind other : call_type_t) (n_same n_other : Nat)
    (bump : Bool) (thiz : call_data_t) (t : thread_t) (r : call_row)
    (out : call_data_t × thread_t × observation)
    (h : site_step eid kind other n_same n_other bump thiz t r = .ok out) :
    out.1.type = thiz.type ∧ out.1.call_id = thiz.call_id ∧ out.1.name = thiz.name := by
  obtain ⟨thiz', t', o⟩ := out
  obtain ⟨dp, ip, thiz1, thiz2, _, h2, _, h4, hcap, ha, hb, hc⟩ :=
    site_step_ok eid kind other n_same n_other bump thiz thiz' t t' r o h
  subst ha
  subst hb
  subst hc
  have hd := direct_relation_ok _ _ _ _ _ _ _ _ _ h2
  have hi := indirect_relation_ok _ _ _ _ _ _ _ _ h4
  rcases hd with ⟨_, h1⟩ | ⟨_, _, _, _, _, _, _, h1⟩ <;>
    rcases hi with ⟨_, h2'⟩ | ⟨_, _, _, _, _, _, _, h2'⟩ <;>
    subst h1 <;> subst h2' <;> exact ⟨rfl, rfl, rfl⟩

theorem count_kind (thiz : call_data_t) (r : call_row) :
    (count_exectime (count_aex thiz r) r).type = thiz.type ∧
    (count_exectime (count_aex thiz r) r).call_id = thiz.call_id ∧
    (count_exectime (count_aex thiz r) r).name = thiz.name ∧
    (count_exectime thiz r).type = thiz.type ∧
    (count_exectime thiz r).call_id = thiz.call_id ∧
    (count_exectime thiz r).name = thiz.name := by
  unfold count_exectime count_aex
  cases r.aex_count <;> exact ⟨rfl, rfl, rfl, rfl, rfl, rfl⟩

theorem call_data_step_kind (s s1 : analyzer_state) (r : call_row) (oo : Option observation)
    (h : call_data_step s r = .ok (s1, oo)) (ref : call_ref) (c : call_data_t)
    (hc : s.site ref = some c) :
    ∃ c1, s1.site ref = some c1 ∧ c1.type = c.type ∧ c1.call_id = c.call_id ∧
      c1.name = c.name := by
  unfold call_data_step at h
  rcases row_ref_cases r with ⟨h15, href⟩ | ⟨h15, h17, href⟩ | ⟨h15, h17, href⟩
  · rw [if_pos h15] at h
    cases hb : ecall_branch s r with
    | error f => rw [hb] at h; cases h
    | ok res =>
      obtain ⟨s1', o⟩ := res
      rw [hb] at h
      simp only [Except.ok.injEq, Prod.mk.injEq] at h
      obtain ⟨hs, ho⟩ := h
      subst hs
      subst ho
      obtain ⟨thiz, out, hsite, hst, hout, hall, _⟩ := ecall_branch_effect s s1' r o hb
      by_cases hr : ref = ⟨r.eid, .ECALL, r.id⟩
      · subst hr
        rw [hsite] at hc
        cases hc
        obtain ⟨k1, k2, k3⟩ := site_step_kind _ _ _ _ _ _ _ _ _ _ hst
        obtain ⟨a1, a2, a3, _, _, _⟩ := count_kind c r
        exact ⟨out.1, by rw [hall]; simp, by rw [k1, a1], by rw [k2, a2], by rw [k3, a3]⟩
      · exact ⟨c, by rw [hall, if_neg hr]; exact hc, rfl, rfl, rfl⟩
  · rw [if_neg h15, if_pos h17] at h
    cases hb : ocall_branch s r with
    | error f => rw [hb] at h; cases h
    | ok res =>
      obtain ⟨s1', o⟩ := res
      rw [hb] at h
      simp only [Except.ok.injEq, Prod.mk.injEq] at h
      obtain ⟨hs, ho⟩ := h
      subst hs
      subst ho
      obtain ⟨thiz, out, hsite, hst, hout, hall, _⟩ := ocall_branch_effect s s1' r o hb
      by_cases hr : ref = ⟨r.eid, .OCALL, r.id⟩
      · subst hr
        rw [hsite] at hc
        cases hc
        obtain ⟨k1, k2, k3⟩ := site_step_kind _ _ _ _ _ _ _ _ _ _ hst
        obtain ⟨_, _, _, a1, a2, a3⟩ := count_kind c r
        exact ⟨out.1, by rw [hall]; simp, by rw [k1, a1], by rw [k2, a2], by rw [k3, a3]⟩
      · exact ⟨c, by rw [hall, if_neg hr]; exact hc, rfl, rfl, rfl⟩
  · rw [if_neg h15, if_neg h17] at h
    simp only [Except.ok.injEq, Prod.mk.injEq] at h
    obtain ⟨hs, ho⟩ := h
    subst hs
    exact ⟨c, hc, rfl, rfl, rfl⟩

theorem process_rows_kind (ref : call_ref) :
    ∀ (rows : List call_row) (s s' : analyzer_state) (os : List observation)
      (c : call_data_t), process_rows s rows = .ok (s', os) → s.site ref = some c →
      ∃ c', s'.site ref = some c' ∧ c'.type = c.type ∧ c'.call_id = c.call_id ∧
        c'.name = c.name := by
  intro rows
  induction rows with
  | nil =>
    intro s s' os c h hc
    simp only [process_rows, Except.ok.injEq, Prod.mk.injEq] at h
    obtain ⟨hs, ho⟩ := h
    subst hs
    exact ⟨c, hc, rfl, rfl, rfl⟩
  | cons r rs ih =>
    intro s s' os c h hc
    rw [process_rows] at h
    cases h1 : call_data_step s r with
    | error f => rw [h1] at h; cases h
    | ok res1 =>
      obtain ⟨s1, oo⟩ := res1
      rw [h1] at h
      simp only [] at h
      cases h2 : process_rows s1 rs with
      | error f => rw [h2] at h; cases h
      | ok res2 =>
        obtain ⟨s2, os2⟩ := res2
        rw [h2] at h
        simp only [Except.ok.injEq, Prod.mk.injEq] at h
        obtain ⟨hs, ho⟩ := h
        subst hs
        obtain ⟨c1, hc1, k1, k2, k3⟩ := call_data_step_kind s s1 r oo h1 ref c hc
        obtain ⟨c', hc', j1, j2, j3⟩ := ih s1 s2 os2 c1 h2 hc1
        exact ⟨c', hc', by rw [j1, k1], by rw [j2, k2], by rw [j3, k3]⟩

theorem analyze_call_kind (fsqrt : Nat → Nat) (c c' : call_data_t)
    (h : analyze_call fsqrt c = .ok c') :
    c'.type = c.type ∧ c'.call_id = c.call_id ∧ c'.name = c.name ∧
    c'.all_stats.calls = c.exectimes.length ∧ c'.exectimes.length = c.exectimes.length ∧
    c'.stats_95th.calls = percentile_idx (binary64 (95 / 100)) c.exectimes.length ∧
    c'.num_ecall_called_from_ocalls = c.num_ecall_called_from_ocalls := by
  have hlen : (c.exectimes.insertionSort (fun a b => a ≤ b)).length = c.exectimes.length :=
    List.length_insertionSort _ _
  obtain ⟨c2, h2, hex, hall, h95, hcnt, _, _, _⟩ := analyze_call_ok fsqrt c
  rw [h] at h2
  cases h2
  have hl : c'.exectimes.length = c.exectimes.length := by rw [hex, hlen]
  obtain ⟨st, hst, hcalls, _⟩ := calc_stats_ok fsqrt
    { c.all_stats with calls := c.exectimes.length } c' (by simp [hl])
  rw [hall] at hst
  cases hst
  obtain ⟨st5, hst5, hcalls5, _⟩ := calc_stats_ok fsqrt
    { c.stats_95th with
      calls := percentile_idx (binary64 (95 / 100)) c.exectimes.length
      sum := ((c.exectimes.insertionSort (fun a b => a ≤ b)).take
        (percentile_idx (binary64 (95 / 100)) c.exectimes.length)).sum } c'
    (by rw [hl]; exact percentile_idx_95_le _)
  rw [h95] at hst5
  cases hst5
  refine ⟨?_, ?_, ?_, hcalls, hl, hcalls5, hcnt⟩
  all_goals
    unfold analyze_call at h
    simp only [] at h
    split at h
    · cases h
    · split at h
      · cases h
      · cases h
        rfl

/-! ## The report of a call site -/

theorem analyze_sites_ok (fsqrt : Nat → Nat) (l : List call_data_t) :
    ∃ l', analyze_sites fsqrt l = .ok l' := by
  induction l with
  | nil => exact ⟨[], rfl⟩
  | cons c cs ih =>
    obtain ⟨c1, h1, _⟩ := analyze_call_ok fsqrt c
    obtain ⟨cs1, h2⟩ := ih
    exact ⟨c1 :: cs1, by simp only [analyze_sites, h1, h2]⟩

theorem analyze_sites_getElem (fsqrt : Nat → Nat) (l l' : List call_data_t)
    (h : analyze_sites fsqrt l = .ok l') (i : Nat) (c : call_data_t) (hc : l[i]? = some c) :
    ∃ c', l'[i]? = some c' ∧ analyze_call fsqrt c = .ok c' := by
  induction l generalizing l' i with
  | nil => simp at hc
  | cons d ds ih =>
    unfold analyze_sites at h
    cases h1 : analyze_call fsqrt d with
    | error f => rw [h1] at h; cases h
    | ok d1 =>
      rw [h1] at h
      simp only [] at h
      cases h2 : analyze_sites fsqrt ds with
      | error f => rw [h2] at h; cases h
      | ok ds1 =>
        rw [h2] at h
        simp only [Except.ok.injEq] at h
        subst h
        cases i with
        | zero =>
          simp only [List.getElem?_cons_zero, Option.some.injEq] at hc
          subst hc
          exact ⟨d1, by simp, h1⟩
        | succ j =>
          simp only [List.getElem?_cons_succ] at hc
          obtain ⟨c', hc', ha⟩ := ih ds1 h2 j hc
          exact ⟨c', by simpa using hc', ha⟩

theorem aggregate_ok (fsqrt : Nat → Nat) (s : analyzer_state) (eid : Nat) :
    ∃ s2, aggregate fsqrt s eid = .ok s2 := by
  obtain ⟨l1, h1⟩ := analyze_sites_ok fsqrt (s.encls eid).ecalls
  obtain ⟨l2, h2⟩ := analyze_sites_ok fsqrt (s.encls eid).ocalls
  simp only [aggregate, analyze_enclave, h1, h2]
  exact ⟨_, rfl⟩

theorem aggregate_site (fsqrt : Nat → Nat) (s s2 : analyzer_state) (ref : call_ref)
    (c : call_data_t) (h : aggregate fsqrt s ref.eid = .ok s2) (hc : s.site ref = some c) :
    ∃ c', s2.site ref = some c' ∧ analyze_call fsqrt c = .ok c' := by
  unfold aggregate analyze_enclave at h
  cases h1 : analyze_sites fsqrt (s.encls ref.eid).ecalls with
  | error f => rw [h1] at h; cases h
  | ok l1 =>
    rw [h1] at h
    simp only [] at h
    cases h2 : analyze_sites fsqrt (s.encls ref.eid).ocalls with
    | error f => rw [h2] at h; cases h
    | ok l2 =>
      rw [h2] at h
      simp only [Except.ok.injEq] at h
      subst h
      obtain ⟨eid, ty, idx⟩ := ref
      cases ty with
      | UNDEF => simp [analyzer_state.site] at hc
      | ECALL =>
        simp only [analyzer_state.site] at hc
        obtain ⟨c', hc', ha⟩ := analyze_sites_getElem fsqrt _ _ h1 idx c hc
        exact ⟨c', by simpa [analyzer_state.site, map_set, sort_enclave] using hc', ha⟩
      | OCALL =>
        simp only [analyzer_state.site] at hc
        obtain ⟨c', hc', ha⟩ := analyze_sites_getElem fsqrt _ _ h2 idx c hc
        exact ⟨c', by simpa [analyzer_state.site, map_set, sort_enclave] using hc', ha⟩

theorem mem_andThen (a b : report) (x : report_line) :
    x ∈ (a.andThen b).1 ↔ x ∈ a.1 ∨ (a.2 = none ∧ x ∈ b.1) := by
  obtain ⟨la, fa⟩ := a
  cases fa with
  | none => simp [report.andThen]
  | some f => simp [report.andThen]

theorem emit_at_fst (mk : Nat → report_line) (v : List Nat) (i : Nat) (x : report_line) :
    x ∈ (emit_at mk v i).1 ↔ ∃ y, v[i]? = some y ∧ x = mk y := by
  unfold emit_at
  cases v[i]? with
  | none => simp
  | some y => simp

theorem emit_at_snd (mk : Nat → report_line) (v : List Nat) (i : Nat) :
    (emit_at mk v i).2 = none ↔ i < v.length := by
  unfold emit_at
  cases h : v[i]? with
  | none =>
    simp only [reduceCtorEq, false_iff, not_lt]
    exact List.getElem?_eq_none_iff.mp h
  | some y =>
    simp only [true_iff]
    by_contra hlt
    rw [List.getElem?_eq_none_iff.mpr (not_lt.mp hlt)] at h
    cases h

theorem private_not_in_entries (body : parent_call_data_t → report)
    (h : ∀ pc, report_line.can_be_made_private ∉ (body pc).1) (l : List parent_call_data_t) :
    report_line.can_be_made_private ∉ (print_entries body l).1 := by
  induction l with
  | nil => simp [print_entries, emit]
  | cons pc rest ih =>
    rw [print_entries, mem_andThen]
    rintro (h1 | ⟨_, h2⟩)
    · exact h pc h1
    · exact ih h2

theorem private_not_in_direct (rnd : ℚ → ℚ) (cfg : config_t) (s : analyzer_state)
    (c : call_data_t) (pc : parent_call_data_t) :
    report_line.can_be_made_private ∉ (print_direct_entry rnd cfg s c pc).1 := by
  unfold print_direct_entry
  split
  · simp [emit]
  · split
    · simp
    · simp only [emit]
      split_ifs <;> simp

theorem private_not_in_indirect (rnd : ℚ → ℚ) (cfg : config_t) (s : analyzer_state)
    (cref : call_ref) (c : call_data_t) (pc : parent_call_data_t) :
    report_line.can_be_made_private ∉ (print_indirect_entry rnd cfg s cref c pc).1 := by
  unfold print_indirect_entry
  split
  · simp [emit]
  · split
    · simp
    · simp only [emit]
      split_ifs <;> simp

theorem not_mem_andThen (a b : report) (x : report_line) (ha : x ∉ a.1) (hb : x ∉ b.1) :
    x ∉ (a.andThen b).1 := by
  rw [mem_andThen]
  rintro (h | ⟨_, h⟩)
  · exact ha h
  · exact hb h

theorem not_mem_emit_at (mk : Nat → report_line) (v : List Nat) (i : Nat) (x : report_line)
    (h : ∀ y, x ≠ mk y) : x ∉ (emit_at mk v i).1 := by
  rw [emit_at_fst]
  rintro ⟨y, _, hy⟩
  exact h y hy

theorem private_in_statistics (rnd : ℚ → ℚ) (cfg : config_t) (s : analyzer_state)
    (cref : call_ref) (c : call_data_t) (hn : 0 < c.exectimes.length) :
    report_line.can_be_made_private ∈ (print_statistics rnd cfg s cref c).1 ↔
      c.type = .ECALL ∧ c.num_ecall_called_from_ocalls = c.all_stats.calls := by
  have hlast : usub64 c.exectimes.length 1 < c.exectimes.length := by
    have := usub64_one_le c.exectimes.length hn
    omega
  have hd := private_not_in_entries _ (private_not_in_direct rnd cfg s c) c.direct_parents_data
  have hi := private_not_in_entries _ (private_not_in_indirect rnd cfg s cref c)
    c.indirect_parents_data
  unfold print_statistics
  simp only []
  rw [mem_andThen, mem_andThen, mem_andThen]
  constructor
  · rintro (h | ⟨_, h | ⟨_, h | ⟨_, h⟩⟩⟩)
    · simp [emit] at h
    · exact absurd h (not_mem_emit_at _ _ _ _ (by intro y; simp))
    · simp only [emit] at h
      split_ifs at h with h1 h2
      · exact ⟨h1, h2⟩
      · simp at h
      · simp at h
    · exfalso
      revert h
      show report_line.can_be_made_private ∉ _
      refine not_mem_andThen _ _ _ ?_ (not_mem_andThen _ _ _ ?_ (not_mem_andThen _ _ _ ?_
        (not_mem_andThen _ _ _ ?_ (not_mem_andThen _ _ _ ?_ (not_mem_andThen _ _ _ ?_
        (not_mem_andThen _ _ _ ?_ ?_))))))
      · simp only [emit]
        split_ifs <;> simp
      · exact not_mem_emit_at _ _ _ _ (by intro y; simp)
      · exact not_mem_emit_at _ _ _ _ (by intro y; simp)
      · exact not_mem_emit_at _ _ _ _ (by intro y; simp)
      · simp only [emit]
        split_ifs <;> simp
      · split_ifs
        · exact not_mem_andThen _ _ _ (by simp [emit]) hd
        · simp [emit]
      · simp only [emit]
        split_ifs <;> simp
      · split_ifs
        · exact not_mem_andThen _ _ _ (by simp [emit]) hi
        · simp [emit]
  · rintro ⟨h1, h2⟩
    right
    refine ⟨rfl, Or.inr ⟨(emit_at_snd _ _ _).mpr hlast, Or.inl ?_⟩⟩
    simp [emit, h1, h2]

theorem private_in_report (rnd : ℚ → ℚ) (cfg : config_t) (s : analyzer_state)
    (e : enclave_data_t) (cref : call_ref) (print_min : Nat) (c : call_data_t)
    (hc : s.site cref = some c) (hlen : c.exectimes.length = c.all_stats.calls) :
    report_line.can_be_made_private ∈ (print_call_data rnd cfg s e cref print_min).1 ↔
      c.type = .ECALL ∧ print_min ≤ c.all_stats.calls ∧ 0 < c.all_stats.calls ∧
      c.num_ecall_called_from_ocalls = c.all_stats.calls := by
  unfold print_call_data
  rw [hc]
  simp only []
  by_cases hmin : c.all_stats.calls < print_min
  · rw [if_pos hmin]
    simp only [emit, List.not_mem_nil, false_iff]
    rintro ⟨_, h, _⟩
    omega
  · rw [if_neg hmin, mem_andThen, mem_andThen]
    by_cases hpos : 0 < c.all_stats.calls
    · rw [if_pos hpos, private_in_statistics rnd cfg s cref c (by rw [hlen]; exact hpos)]
      constructor
      · rintro (h | ⟨_, h | ⟨_, h⟩⟩)
        · simp only [emit] at h
          split_ifs at h <;> simp at h
        · exact ⟨h.1, by omega, hpos, h.2⟩
        · simp [emit] at h
      · rintro ⟨h1, _, _, h2⟩
        exact Or.inr ⟨rfl, Or.inl ⟨h1, h2⟩⟩
    · rw [if_neg hpos]
      constructor
      · rintro (h | ⟨_, h | ⟨_, h⟩⟩)
        · simp only [emit] at h
          split_ifs at h <;> simp at h
        · simp [emit] at h
        · simp [emit] at h
      · rintro ⟨_, _, h, _⟩
        exact absurd h hpos

theorem duplication_eq (rnd : ℚ → ℚ) (cfg : config_t) (c : call_data_t)
    (hr : rnd (c.stats_95th.calls : ℚ) ≠ 0) :
    (duplication_or_move_opportunity rnd cfg c = true ↔
      cfg.duplication_weights.alpha < fl_quot rnd c.stats_95th.num_less_1us c.stats_95th.calls ∨
      cfg.duplication_weights.beta < fl_quot rnd c.stats_95th.num_less_5us c.stats_95th.calls ∨
      cfg.duplication_weights.gamma < fl_quot rnd c.stats_95th.num_less_10us c.stats_95th.calls) := by
  simp only [duplication_or_move_opportunity, fdiv_fin rnd _ _ hr, fgt, Bool.or_eq_true,
    decide_eq_true_iff, or_assoc]

/-- Claim C15: for a call site whose trimmed count is `> 0` (and converts to a non-zero
`double`), `duplication_or_move_opportunity` is true iff one of the three quotients
`stats_95th.num_less_1us / calls`, `num_less_5us / calls`, `num_less_10us / calls`, each
computed as the program computes it (one `double` division), exceeds its threshold `alpha`,
`beta`, `gamma`; when the quotients are not rounded these are the exact ratios; the result
depends on the trimmed statistics only. -/
theorem duplication_classifier (rnd : ℚ → ℚ) (cfg : config_t) (c : call_data_t)
    (hc : 0 < c.stats_95th.calls) (hrnd : ∀ n : Nat, 0 < n → rnd (n : ℚ) ≠ 0) :
    (duplication_or_move_opportunity rnd cfg c = true ↔
      cfg.duplication_weights.alpha < fl_quot rnd c.stats_95th.num_less_1us c.stats_95th.calls ∨
      cfg.duplication_weights.beta < fl_quot rnd c.stats_95th.num_less_5us c.stats_95th.calls ∨
      cfg.duplication_weights.gamma < fl_quot rnd c.stats_95th.num_less_10us c.stats_95th.calls) ∧
    (exact_on rnd (duplication_values c.stats_95th) →
      (duplication_or_move_opportunity rnd cfg c = true ↔
        cfg.duplication_weights.alpha <
          (c.stats_95th.num_less_1us : ℚ) / (c.stats_95th.calls : ℚ) ∨
        cfg.duplication_weights.beta <
          (c.stats_95th.num_less_5us : ℚ) / (c.stats_95th.calls : ℚ) ∨
        cfg.duplication_weights.gamma <
          (c.stats_95th.num_less_10us : ℚ) / (c.stats_95th.calls : ℚ))) ∧
    (∀ d : call_data_t, d.stats_95th = c.stats_95th →
      duplication_or_move_opportunity rnd cfg d = duplication_or_move_opportunity rnd cfg c) := by
  have hr := hrnd _ hc
  refine ⟨duplication_eq rnd cfg c hr, ?_, ?_⟩
  · intro h
    have hm : ∀ x, x ∈ duplication_values c.stats_95th → rnd x = x := h
    simp only [duplication_values, List.mem_cons, List.mem_singleton, forall_eq_or_imp,
      forall_eq, List.not_mem_nil, false_imp_iff, implies_true, and_true] at hm
    obtain ⟨h1, h2, h3, h4, h5, h6, h7⟩ := hm
    rw [duplication_eq rnd cfg c hr]
    unfold fl_quot
    rw [h1, h2, h3, h4, h5, h6, h7]
  · intro d hd
    simp only [duplication_or_move_opportunity, hd]

theorem duplication_classifier_witness :
    scenarioD_analyzed.stats_95th.calls = 9 ∧
    scenarioD_analyzed.stats_95th.num_less_1us = 9 ∧
    duplication_or_move_opportunity binary64 default_config scenarioD_analyzed = true ∧
    exact_on binary64 (duplication_values scenarioD_analyzed.stats_95th) ∧
    (duplication_or_move_opportunity binary64 default_config scenarioD_analyzed = true ↔
      default_config.duplication_weights.alpha <
        fl_quot binary64 scenarioD_analyzed.stats_95th.num_less_1us
          scenarioD_analyzed.stats_95th.calls ∨
      default_config.duplication_weights.beta <
        fl_quot binary64 scenarioD_analyzed.stats_95th.num_less_5us
          scenarioD_analyzed.stats_95th.calls ∨
      default_config.duplication_weights.gamma <
        fl_quot binary64 scenarioD_analyzed.stats_95th.num_less_10us
          scenarioD_analyzed.stats_95th.calls) :=
  ⟨by decide!, by decide!, by decide!, by decide!,
   (duplication_classifier binary64 default_config scenarioD_analyzed (by decide!)
     binary64_count_ne_zero).1⟩

/-- Claim C17: the claim fails on the code for an out-of-boundary site with exactly one
invocation (site `ocall_B` of Scenario A, 80 ns).  The guard of `print_call_data` tests the
full count (1), the report reaches the lines below the guard, and
`duplication_or_move_opportunity` divides by the trimmed count
`percentile_idx(0.95, 1) = 0`: the quotient `0 / 0` is not a number, every comparison with
it is false, and the site is not flagged although its one invocation took less than 1 µs. -/
theorem duplication_divides_by_zero_trimmed_count :
    (scenarioA_report_state.site ⟨0, .OCALL, 0⟩).map
      (fun c => (c.type, c.all_stats.calls, c.all_stats.num_less_1us, c.stats_95th.calls,
        c.stats_95th.num_less_1us)) = some (.OCALL, 1, 1, 0, 0) ∧
    percentile_idx (binary64 (95 / 100)) 1 = 0 ∧
    (scenarioA_report_state.site ⟨0, .OCALL, 0⟩).map
      (fun c => fdiv binary64 c.stats_95th.num_less_1us c.stats_95th.calls) =
        some double.nan ∧
    (scenarioA_report_state.site ⟨0, .OCALL, 0⟩).map
      (fun c => duplication_or_move_opportunity binary64 default_config c) = some false ∧
    report_line.less_10us 1 1 ∈
      (print_call_data binary64 default_config scenarioA_report_state
        (scenarioA_report_state.encls 0) ⟨0, .OCALL, 0⟩ default_config.ocall_call_minimum).1 ∧
    report_line.duplicate_or_move ∉
      (print_call_data binary64 default_config scenarioA_report_state
        (scenarioA_report_state.encls 0) ⟨0, .OCALL, 0⟩ default_config.ocall_call_minimum).1 := by
  refine ⟨by decide!, by decide!, by decide!, by decide!, by decide!, by decide!⟩

/-- Claim C18, counterexample: with the default threshold 0, the out-of-boundary site of
Scenario C (no invocation) gets its header, its `Calls:` line and the footer. -/
theorem idle_site_printed_at_default_threshold :
    (idle_report_state.site ⟨0, .OCALL, 0⟩).map (fun c => c.all_stats.calls) = some 0 ∧
    default_config.ocall_call_minimum = 0 ∧
    print_call_data binary64 default_config idle_report_state (idle_report_state.encls 0)
      ⟨0, .OCALL, 0⟩ default_config.ocall_call_minimum =
      ([.header 0 "ocall_B", .calls 0 0, .footer, .footer_end], none) := by
  refine ⟨by decide!, by decide!, by decide!⟩

/-- Claim C18, amended: for a call site with zero recorded invocations, `print_call_data`
emits no output iff the minimum-count threshold is at least 1; with the threshold 0 (the
default) it emits the header, the `Calls:` line and the two footer lines, and none of the
statistics lines. -/
theorem zero_invocation_report (rnd : ℚ → ℚ) (cfg : config_t) (s : analyzer_state)
    (e : enclave_data_t) (cref : call_ref) (print_min : Nat) (c : call_data_t)
    (hc : s.site cref = some c) (h0 : c.all_stats.calls = 0) :
    (1 ≤ print_min → print_call_data rnd cfg s e cref print_min = ([], none)) ∧
    (print_min = 0 →
      print_call_data rnd cfg s e cref print_min =
        ([ .header c.call_id c.name ] ++
          (if c.type = .ECALL then [.calls 0 e.ecall_count] else []) ++
          (if c.type = .OCALL then [.calls 0 e.ocall_count] else []) ++
          [ .footer, .footer_end ], none)) ∧
    ((print_call_data rnd cfg s e cref print_min).1 = [] ↔ 1 ≤ print_min) := by
  have h1 : 1 ≤ print_min → print_call_data rnd cfg s e cref print_min = ([], none) := by
    intro hp
    unfold print_call_data
    rw [hc]
    simp only []
    rw [if_pos (show c.all_stats.calls < print_min by omega)]
    rfl
  have h2 : print_min = 0 →
      print_call_data rnd cfg s e cref print_min =
        ([ .header c.call_id c.name ] ++
          (if c.type = .ECALL then [.calls 0 e.ecall_count] else []) ++
          (if c.type = .OCALL then [.calls 0 e.ocall_count] else []) ++
          [ .footer, .footer_end ], none) := by
    intro hp
    unfold print_call_data
    rw [hc]
    simp only []
    rw [if_neg (show ¬ c.all_stats.calls < print_min by omega),
      if_neg (show ¬ 0 < c.all_stats.calls by omega), h0]
    simp [report.andThen, emit]
  refine ⟨h1, h2, ?_⟩
  constructor
  · intro hnil
    by_contra hp
    have hp0 : print_min = 0 := by omega
    rw [h2 hp0] at hnil
    simp at hnil
  · intro hp
    rw [h1 hp]

theorem zero_invocation_report_witness :
    print_call_data binary64 default_config idle_report_state (idle_report_state.encls 0)
      ⟨0, .ECALL, 1⟩ 1 = ([], none) ∧
    ((print_call_data binary64 default_config idle_report_state (idle_report_state.encls 0)
      ⟨0, .ECALL, 1⟩ 1).1 = [] ↔ 1 ≤ 1) :=
  ⟨by decide!,
   (zero_invocation_report binary64 default_config idle_report_state
     (idle_report_state.encls 0) ⟨0, .ECALL, 1⟩ 1
     { new_call_data .ECALL 1 "ecall_C" with
       direct_parents_data := [{}], indirect_parents_data := [{}, {}] }
     (by decide!) (by decide)).2.2⟩

theorem filter_and_length_eq {α : Type} (p q : α → Bool) (l : List α) :
    (l.filter (fun x => p x && q x)).length = (l.filter p).length ↔
      ∀ x ∈ l, p x = true → q x = true := by
  induction l with
  | nil => simp
  | cons a l ih =>
    have hle : (l.filter (fun x => p x && q x)).length ≤ (l.filter p).length := by
      have h1 : l.filter (fun x => p x && q x) = (l.filter p).filter q := by
        rw [List.filter_filter]
        congr 1
        funext x
        exact Bool.and_comm _ _
      rw [h1]
      exact List.length_filter_le _ _
    cases hp : p a <;> cases hq : q a <;>
      simp only [List.filter_cons, hp, hq, Bool.and_self, Bool.and_false, Bool.and_true,
        Bool.false_eq_true, if_false, if_true, List.length_cons, List.mem_cons,
        forall_eq_or_imp, false_imp_iff, true_and, imp_self, true_imp_iff, false_and,
        Nat.add_right_cancel_iff, ih]
    constructor
    · intro h
      omega
    · intro h
      exact absurd h (by simp)

/-- Claim C16, counterexample: in Scenario A the into-boundary site `ecall_C` has one
invocation, and its counter equals its invocation count; it is flagged with the minimum
count 0 and gets no output at all, so no flag, with the minimum count 2. -/
theorem private_flag_dropped_below_minimum :
    (scenarioA_report_state.site ⟨0, .ECALL, 1⟩).map
      (fun c => (c.type, c.all_stats.calls, c.num_ecall_called_from_ocalls)) =
      some (.ECALL, 1, 1) ∧
    report_line.can_be_made_private ∈
      (print_call_data binary64 default_config scenarioA_report_state
        (scenarioA_report_state.encls 0) ⟨0, .ECALL, 1⟩ 0).1 ∧
    print_call_data binary64 default_config scenarioA_report_state
      (scenarioA_report_state.encls 0) ⟨0, .ECALL, 1⟩ 2 = ([], none) := by
  refine ⟨by decide!, by decide!, by decide!⟩

/-- Claim C16, amended: take a call site with no recorded duration and a zero counter,
process any rows without fault, and aggregate.  With `n` the number of the site's processed
invocations, the report of the site with minimum count `print_min` contains the line
"Call can be made private" iff the site is an into-boundary one, `print_min <= n`, `n > 0`
and its invoked-from-other-kind counter equals its invocation count `n`; for an
into-boundary site the last condition holds iff every one of its invocations has a
resolved direct parent; an out-of-boundary site is never flagged. -/
theorem privatization_signal (fsqrt : Nat → Nat) (rnd : ℚ → ℚ) (cfg : config_t)
    (s s1 : analyzer_state) (rows : List call_row) (os : List observation) (cref : call_ref)
    (c : call_data_t) (h : process_rows s rows = .ok (s1, os)) (hc : s.site cref = some c)
    (hnew : c.exectimes = []) (hzero : c.num_ecall_called_from_ocalls = 0) :
    ∃ s2 c2, aggregate fsqrt s1 cref.eid = .ok s2 ∧ s2.site cref = some c2 ∧
      c2.type = c.type ∧
      c2.all_stats.calls = (os.filter (fun o => o.of_site cref)).length ∧
      (cref.type = .ECALL →
        (c2.num_ecall_called_from_ocalls = c2.all_stats.calls ↔
          ∀ o ∈ os, o.of_site cref = true → o.has_direct = true)) ∧
      (∀ (e : enclave_data_t) (print_min : Nat),
        (report_line.can_be_made_private ∈ (print_call_data rnd cfg s2 e cref print_min).1 ↔
          c.type = .ECALL ∧ print_min ≤ (os.filter (fun o => o.of_site cref)).length ∧
          0 < (os.filter (fun o => o.of_site cref)).length ∧
          c2.num_ecall_called_from_ocalls = c2.all_stats.calls) ∧
        (c.type = .OCALL →
          report_line.can_be_made_private ∉ (print_call_data rnd cfg s2 e cref print_min).1)) := by
  obtain ⟨c1, hc1, hcnt⟩ := counter_after_rows cref rows s s1 os c h hc
  obtain ⟨c1', hc1', hex, _, _, _⟩ := durations_after_rows cref rows s s1 os c h hc
  rw [hc1] at hc1'
  cases hc1'
  obtain ⟨c1', hc1', hk, _, _⟩ := process_rows_kind cref rows s s1 os c h hc
  rw [hc1] at hc1'
  cases hc1'
  obtain ⟨s2, hs2⟩ := aggregate_ok fsqrt s1 cref.eid
  obtain ⟨c2, hc2, ha⟩ := aggregate_site fsqrt s1 s2 cref c1 hs2 hc1
  obtain ⟨k1, _, _, k4, k5, _, k7⟩ := analyze_call_kind fsqrt c1 c2 ha
  have hlen : c1.exectimes.length = (os.filter (fun o => o.of_site cref)).length := by
    rw [hex, hnew]
    simp
  have hcalls : c2.all_stats.calls = (os.filter (fun o => o.of_site cref)).length := by
    rw [k4, hlen]
  have hflag := fun (e : enclave_data_t) (print_min : Nat) =>
    private_in_report rnd cfg s2 e cref print_min c2 hc2 (by rw [k5, k4])
  refine ⟨s2, c2, hs2, hc2, by rw [k1, hk], hcalls, ?_, ?_⟩
  · intro hty
    rw [hcalls, k7, hcnt, hzero, Nat.zero_add]
    have hf : (fun o : observation => o.of_site cref && decide (cref.type = .ECALL) && o.has_direct)
        = (fun o : observation => o.of_site cref && o.has_direct) := by
      funext o
      simp [hty]
    rw [hf]
    exact filter_and_length_eq (fun o => o.of_site cref) (fun o => o.has_direct) os
  · intro e print_min
    have hf := hflag e print_min
    rw [hcalls, k1, hk] at hf
    rw [hcalls]
    refine ⟨hf, ?_⟩
    intro hty
    rw [hf, hty]
    simp

theorem privatization_signal_witness :
    ∃ s2 c2, aggregate Nat.sqrt (rows_out scenarioA_state scenarioA_rows).1
        (⟨0, .ECALL, 1⟩ : call_ref).eid = .ok s2 ∧
      s2.site ⟨0, .ECALL, 1⟩ = some c2 ∧
      c2.type = scenarioA_site_C.type ∧
      c2.all_stats.calls = ((rows_out scenarioA_state scenarioA_rows).2.filter
        (fun o => o.of_site ⟨0, .ECALL, 1⟩)).length ∧
      ((⟨0, .ECALL, 1⟩ : call_ref).type = .ECALL →
        (c2.num_ecall_called_from_ocalls = c2.all_stats.calls ↔
          ∀ o ∈ (rows_out scenarioA_state scenarioA_rows).2,
            o.of_site ⟨0, .ECALL, 1⟩ = true → o.has_direct = true)) ∧
      (∀ (e : enclave_data_t) (print_min : Nat),
        (report_line.can_be_made_private ∈
            (print_call_data binary64 default_config s2 e ⟨0, .ECALL, 1⟩ print_min).1 ↔
          scenarioA_site_C.type = .ECALL ∧
          print_min ≤ ((rows_out scenarioA_state scenarioA_rows).2.filter
            (fun o => o.of_site ⟨0, .ECALL, 1⟩)).length ∧
          0 < ((rows_out scenarioA_state scenarioA_rows).2.filter
            (fun o => o.of_site ⟨0, .ECALL, 1⟩)).length ∧
          c2.num_ecall_called_from_ocalls = c2.all_stats.calls) ∧
        (scenarioA_site_C.type = .OCALL →
          report_line.can_be_made_private ∉
            (print_call_data binary64 default_config s2 e ⟨0, .ECALL, 1⟩ print_min).1)) :=
  privatization_signal Nat.sqrt binary64 default_config scenarioA_state
    (rows_out scenarioA_state scenarioA_rows).1 scenarioA_rows
    (rows_out scenarioA_state scenarioA_rows).2 ⟨0, .ECALL, 1⟩ scenarioA_site_C
    (by rfl) (by decide) (by decide) (by decide)

/-! ## Bucket counters along the rows -/

theorem none_down_refl (l : List Nat) : none_down l l := by
  unfold none_down
  induction l with
  | nil => rfl
  | cons a l ih => simp [List.zip_cons_cons, List.all_cons, ih]

theorem entry_le_refl (e : parent_call_data_t) : entry_le e e :=
  ⟨le_refl _, none_down_refl _⟩

theorem entry_le_iff (e e' : parent_call_data_t) :
    entry_le e e' ↔
      e.count ≤ e'.count ∧
      e.num_less_than_10us_from_start ≤ e'.num_less_than_10us_from_start ∧
      e.num_less_than_20us_from_start ≤ e'.num_less_than_20us_from_start ∧
      e.num_less_than_10us_from_end ≤ e'.num_less_than_10us_from_end ∧
      e.num_less_than_20us_from_end ≤ e'.num_less_than_20us_from_end ∧
      e.num_less_1us ≤ e'.num_less_1us ∧ e.num_less_5us ≤ e'.num_less_5us ∧
      e.num_less_10us ≤ e'.num_less_10us ∧ e.num_less_20us ≤ e'.num_less_20us := by
  simp [entry_le, none_down, all_buckets, start_buckets, end_buckets, gap_buckets, and_assoc]

theorem entry_le_trans (e e1 e2 : parent_call_data_t) (h1 : entry_le e e1)
    (h2 : entry_le e1 e2) : entry_le e e2 := by
  rw [entry_le_iff] at h1 h2 ⊢
  omega

theorem update_direct_grows (e : parent_call_data_t) (cd : call_ref)
    (scd p : single_call_data_t) :
    entry_le e (update_direct e cd scd p) ∧
    (direct_bounded e → direct_bounded (update_direct e cd scd p)) ∧
    (indirect_bounded e → indirect_bounded (update_direct e cd scd p)) ∧
    at_most_one_up (start_buckets e) (start_buckets (update_direct e cd scd p)) ∧
    at_most_one_up (end_buckets e) (end_buckets (update_direct e cd scd p)) ∧
    gap_buckets (update_direct e cd scd p) = gap_buckets e := by
  obtain ⟨h1, _, h3, h4, h5, h6, h7, h8, h9, h10⟩ := update_direct_spec e cd scd p
  rw [entry_le_iff]
  simp only [direct_bounded, indirect_bounded, at_most_one_up, none_down, start_buckets,
    end_buckets, gap_buckets, h1, h3, h4, h5, h6, h7, h8, h9, h10]
  refine ⟨?_, ?_, ?_, ?_, ?_, ?_⟩
  · refine ⟨?_, ?_, ?_, ?_, ?_, ?_, ?_, ?_, ?_⟩ <;> omega
  · intro h; constructor <;> split_ifs <;> omega
  · intro h; omega
  · constructor
    · simp
    · simp only [List.sum_cons, List.sum_nil]; split_ifs <;> omega
  · constructor
    · simp
    · simp only [List.sum_cons, List.sum_nil]; split_ifs <;> omega
  · trivial

theorem update_indirect_grows (e : parent_call_data_t) (cd : call_ref)
    (scd c : single_call_data_t) :
    entry_le e (update_indirect e cd scd c) ∧
    (indirect_bounded e → indirect_bounded (update_indirect e cd scd c)) ∧
    (direct_bounded e → direct_bounded (update_indirect e cd scd c)) ∧
    at_most_one_up (gap_buckets e) (gap_buckets (update_indirect e cd scd c)) ∧
    start_buckets (update_indirect e cd scd c) = start_buckets e ∧
    end_buckets (update_indirect e cd scd c) = end_buckets e := by
  obtain ⟨h1, _, h3, h4, h5, h6, h7, h8, h9, h10⟩ := update_indirect_spec e cd scd c
  rw [entry_le_iff]
  simp only [direct_bounded, indirect_bounded, at_most_one_up, none_down, start_buckets,
    end_buckets, gap_buckets, h1, h3, h4, h5, h6, h7, h8, h9, h10]
  refine ⟨?_, ?_, ?_, ?_, ?_, ?_⟩
  · refine ⟨?_, ?_, ?_, ?_, ?_, ?_, ?_, ?_, ?_⟩ <;> omega
  · intro h; split_ifs <;> omega
  · intro h; omega
  · constructor
    · simp
    · simp only [List.sum_cons, List.sum_nil]; split_ifs <;> omega
  · trivial
  · trivial

theorem table_grown_refl (B : parent_call_data_t → Prop) (tab : List parent_call_data_t) :
    table_grown B tab tab :=
  ⟨rfl, fun _ e he => ⟨e, he, entry_le_refl e, id⟩⟩

theorem table_grown_trans (B : parent_call_data_t → Prop)
    (tab tab1 tab2 : List parent_call_data_t) (h1 : table_grown B tab tab1)
    (h2 : table_grown B tab1 tab2) : table_grown B tab tab2 := by
  refine ⟨h2.1.trans h1.1, ?_⟩
  intro k e he
  obtain ⟨e1, he1, hle1, hb1⟩ := h1.2 k e he
  obtain ⟨e2, he2, hle2, hb2⟩ := h2.2 k e1 he1
  exact ⟨e2, he2, entry_le_trans e e1 e2 hle1 hle2, fun hb => hb2 (hb1 hb)⟩

theorem table_grown_set (B : parent_call_data_t → Prop) (tab : List parent_call_data_t)
    (k0 : Nat) (e0 e0' : parent_call_data_t) (he0 : tab[k0]? = some e0)
    (hle : entry_le e0 e0') (hb : B e0 → B e0') : table_grown B tab (tab.set k0 e0') := by
  refine ⟨List.length_set _ _ _, ?_⟩
  intro k e he
  rw [getElem?_set_of_some tab k0 k e0 e0' he0]
  by_cases hk : k = k0
  · subst hk
    rw [he0] at he
    cases he
    exact ⟨e0', by simp, hle, hb⟩
  · exact ⟨e, by simp [hk, he], entry_le_refl e, id⟩

theorem table_grown_all (B : parent_call_data_t → Prop) (tab tab1 : List parent_call_data_t)
    (h : table_grown B tab tab1) (hall : ∀ e ∈ tab, B e) : ∀ e1 ∈ tab1, B e1 := by
  intro e1 he1
  obtain ⟨k, hk⟩ := List.mem_iff_getElem?.mp he1
  have hlt : k < tab.length := by
    rw [← h.1]
    by_contra hcon
    rw [List.getElem?_eq_none (by omega)] at hk
    cases hk
  obtain ⟨e, he⟩ : ∃ e, tab[k]? = some e := ⟨tab[k], List.getElem?_eq_getElem hlt⟩
  obtain ⟨e1', he1', _, hb⟩ := h.2 k e he
  rw [hk] at he1'
  cases he1'
  exact hb (hall e (List.getElem?_mem he))

theorem tables_grow_after_rows (ref : call_ref) (rows : List call_row)
    (s s' : analyzer_state) (os : List observation) (c : call_data_t)
    (h : process_rows s rows = .ok (s', os)) (hc : s.site ref = some c) :
    ∃ c', s'.site ref = some c' ∧
      table_grown direct_bounded c.direct_parents_data c'.direct_parents_data ∧
      table_grown indirect_bounded c.indirect_parents_data c'.indirect_parents_data ∧
      c.num_ecall_called_from_ocalls ≤ c'.num_ecall_called_from_ocalls := by
  refine process_rows_induct ref
    (fun c c1 _ =>
      table_grown direct_bounded c.direct_parents_data c1.direct_parents_data ∧
      table_grown indirect_bounded c.indirect_parents_data c1.indirect_parents_data ∧
      c.num_ecall_called_from_ocalls ≤ c1.num_ecall_called_from_ocalls)
    ?_ ?_ ?_ ?_ rows s s' os c h hc
  · intro c
    exact ⟨table_grown_refl _ _, table_grown_refl _ _, le_refl _⟩
  · intro c c1 c2 os1 os2 h1 h2
    exact ⟨table_grown_trans _ _ _ _ h1.1 h2.1, table_grown_trans _ _ _ _ h1.2.1 h2.2.1,
      le_trans h1.2.2 h2.2.2⟩
  · intro c o _
    exact ⟨table_grown_refl _ _, table_grown_refl _ _, le_refl _⟩
  · intro c c1 o _ hup
    refine ⟨?_, ?_, ?_⟩
    · rcases hup.direct with ⟨_, htab⟩ | ⟨p, e, _, he, htab⟩
      · rw [htab]
        exact table_grown_refl _ _
      · rw [htab]
        obtain ⟨g1, g2, _⟩ := update_direct_grows e ⟨ref.eid, other_kind ref.type, p.call_id⟩
          (scd_of_row ref.type o.row) p
        exact table_grown_set _ _ _ e _ he g1 g2
    · rcases hup.indirect with ⟨_, htab⟩ | ⟨p, e, _, he, htab⟩
      · rw [htab]
        exact table_grown_refl _ _
      · rw [htab]
        obtain ⟨g1, g2, _⟩ := update_indirect_grows e ⟨ref.eid, ref.type, p.call_id⟩ o.scd p
        exact table_grown_set _ _ _ e _ he g1 g2
    · rw [hup.counter]
      omega

/-- Claim C23: take a call site whose direct relation entries satisfy
`num_less_than_10us_from_start + num_less_than_20us_from_start <= count` and
`num_less_than_10us_from_end + num_less_than_20us_from_end <= count` and whose indirect
relation entries satisfy `num_less_1us + num_less_5us + num_less_10us + num_less_20us <=
count` (as the zero entries of a loaded site do).  After any sequence of rows processed
without fault every entry of the site still satisfies its bound, the tables keep their
lengths, and no counter of any entry, nor the site's counter
`num_ecall_called_from_ocalls`, has gone down. -/
theorem bucket_sums_bounded (s s' : analyzer_state) (rows : List call_row)
    (os : List observation) (ref : call_ref) (c : call_data_t)
    (h : process_rows s rows = .ok (s', os)) (hc : s.site ref = some c)
    (hd : ∀ e ∈ c.direct_parents_data, direct_bounded e)
    (hi : ∀ e ∈ c.indirect_parents_data, indirect_bounded e) :
    ∃ c', s'.site ref = some c' ∧
      (∀ e ∈ c'.direct_parents_data, direct_bounded e) ∧
      (∀ e ∈ c'.indirect_parents_data, indirect_bounded e) ∧
      c'.direct_parents_data.length = c.direct_parents_data.length ∧
      c'.indirect_parents_data.length = c.indirect_parents_data.length ∧
      (∀ (k : Nat) (e e1 : parent_call_data_t), c.direct_parents_data[k]? = some e →
        c'.direct_parents_data[k]? = some e1 → entry_le e e1) ∧
      (∀ (k : Nat) (e e1 : parent_call_data_t), c.indirect_parents_data[k]? = some e →
        c'.indirect_parents_data[k]? = some e1 → entry_le e e1) ∧
      c.num_ecall_called_from_ocalls ≤ c'.num_ecall_called_from_ocalls := by
  obtain ⟨c', hc', gd, gi, hcnt⟩ := tables_grow_after_rows ref rows s s' os c h hc
  refine ⟨c', hc', table_grown_all _ _ _ gd hd, table_grown_all _ _ _ gi hi, gd.1, gi.1,
    ?_, ?_, hcnt⟩
  · intro k e e1 he he1
    obtain ⟨e1', he1', hle, _⟩ := gd.2 k e he
    rw [he1] at he1'
    cases he1'
    exact hle
  · intro k e e1 he he1
    obtain ⟨e1', he1', hle, _⟩ := gi.2 k e he
    rw [he1] at he1'
    cases he1'
    exact hle

theorem bucket_sums_bounded_witness :
    ∃ c', (rows_out scenarioA_state scenarioA_rows).1.site ⟨0, .ECALL, 1⟩ = some c' ∧
      (∀ e ∈ c'.direct_parents_data, direct_bounded e) ∧
      (∀ e ∈ c'.indirect_parents_data, indirect_bounded e) ∧
      c'.direct_parents_data.length = scenarioA_site_C.direct_parents_data.length :=
  (bucket_sums_bounded scenarioA_state (rows_out scenarioA_state scenarioA_rows).1
    scenarioA_rows (rows_out scenarioA_state scenarioA_rows).2 ⟨0, .ECALL, 1⟩ scenarioA_site_C
    (by rfl) (by decide) (by simp [scenarioA_site_C, direct_bounded])
    (by simp [scenarioA_site_C, indirect_bounded])).imp
    (fun _ hx => ⟨hx.1, hx.2.1, hx.2.2.1, hx.2.2.2.1⟩)

/-- Claim C24, counterexample: the second row of Scenario A (out-of-boundary call B, 10..90,
made from A, 0..100) is one observation for the direct relation entry of B keyed by A; it
starts 10 ns after A starts and ends 10 ns before A ends, and the row increments two
bucket counters of that entry: `num_less_than_10us_from_start` and
`num_less_than_10us_from_end`. -/
theorem row_increments_two_buckets :
    (scenarioA_after_A.site ⟨0, .OCALL, 0⟩).map
      (fun c => c.direct_parents_data.map all_buckets) =
      some [[0, 0, 0, 0, 0, 0, 0, 0], [0, 0, 0, 0, 0, 0, 0, 0]] ∧
    (scenarioA_after_B.site ⟨0, .OCALL, 0⟩).map
      (fun c => c.direct_parents_data.map all_buckets) =
      some [[1, 0, 1, 0, 0, 0, 0, 0], [0, 0, 0, 0, 0, 0, 0, 0]] ∧
    ((scenarioA_rows.drop 1).take 1).length = 1 ∧
    ¬ at_most_one_up [0, 0, 0, 0, 0, 0, 0, 0] [1, 0, 1, 0, 0, 0, 0, 0] := by
  refine ⟨by decide, by decide, by decide, ?_⟩
  simp [at_most_one_up]

theorem process_single_row (s s1 : analyzer_state) (rows : List call_row)
    (os : List observation) (hlen : rows.length = 1)
    (h : process_rows s rows = .ok (s1, os)) :
    ∃ r oo, rows = [r] ∧ call_data_step s r = .ok (s1, oo) ∧ os = oo.toList := by
  match rows, hlen with
  | [r], _ =>
    rw [process_rows] at h
    cases h1 : call_data_step s r with
    | error f => rw [h1] at h; cases h
    | ok res1 =>
      obtain ⟨s2, oo⟩ := res1
      rw [h1] at h
      simp only [process_rows, Except.ok.injEq, Prod.mk.injEq] at h
      exact ⟨r, oo, rfl, by rw [← h.1]; exact h1, by rw [← h.2]; simp⟩

/-- Claim C24, amended: when a single row is processed, every direct relation entry of
every call site has at most one of its two from-start bucket counters and at most one of
its two to-end bucket counters incremented (so up to two bucket counters of one direct
entry can change), and its gap buckets stay; every indirect relation entry has at most one
of its four gap bucket counters incremented, and its from-start and to-end buckets stay. -/
theorem one_bucket_per_gap (s s1 : analyzer_state) (rows : List call_row)
    (os : List observation) (hlen : rows.length = 1)
    (h : process_rows s rows = .ok (s1, os))
    (ref : call_ref) (c : call_data_t) (hc : s.site ref = some c) :
    ∃ c1, s1.site ref = some c1 ∧
    (∀ (k : Nat) (e : parent_call_data_t), c.direct_parents_data[k]? = some e →
      ∃ e', c1.direct_parents_data[k]? = some e' ∧
        at_most_one_up (start_buckets e) (start_buckets e') ∧
        at_most_one_up (end_buckets e) (end_buckets e') ∧
        gap_buckets e' = gap_buckets e) ∧
    (∀ (k : Nat) (e : parent_call_data_t), c.indirect_parents_data[k]? = some e →
      ∃ e', c1.indirect_parents_data[k]? = some e' ∧
        at_most_one_up (gap_buckets e) (gap_buckets e') ∧
        start_buckets e' = start_buckets e ∧ end_buckets e' = end_buckets e) := by
  have hsame : ∀ l : List Nat, at_most_one_up l l :=
    fun l => ⟨none_down_refl l, Nat.le_succ _⟩
  obtain ⟨r, oo, _, hstep, _⟩ := process_single_row s s1 rows os hlen h
  obtain ⟨c1, hc1, hcase⟩ := call_data_step_site s s1 r oo hstep ref c hc
  refine ⟨c1, hc1, ?_⟩
  rcases hcase with ⟨heq, _⟩ | ⟨o, _, _, hup⟩
  · rw [heq]
    exact ⟨fun k e he => ⟨e, he, hsame _, hsame _, rfl⟩,
      fun k e he => ⟨e, he, hsame _, rfl, rfl⟩⟩
  · refine ⟨?_, ?_⟩
    · intro k e he
      rcases hup.direct with ⟨_, htab⟩ | ⟨p, e0, _, he0, htab⟩
      · rw [htab]
        exact ⟨e, he, hsame _, hsame _, rfl⟩
      · rw [htab, getElem?_set_of_some _ _ k e0 _ he0]
        by_cases hk : k = p.call_id
        · subst hk
          rw [he0] at he
          cases he
          obtain ⟨_, _, _, g4, g5, g6⟩ :=
            update_direct_grows e ⟨ref.eid, other_kind ref.type, p.call_id⟩
              (scd_of_row ref.type o.row) p
          exact ⟨_, by simp, g4, g5, g6⟩
        · exact ⟨e, by simp [hk, he], hsame _, hsame _, rfl⟩
    · intro k e he
      rcases hup.indirect with ⟨_, htab⟩ | ⟨p, e0, _, he0, htab⟩
      · rw [htab]
        exact ⟨e, he, hsame _, rfl, rfl⟩
      · rw [htab, getElem?_set_of_some _ _ k e0 _ he0]
        by_cases hk : k = p.call_id
        · subst hk
          rw [he0] at he
          cases he
          obtain ⟨_, _, _, g4, g5, g6⟩ :=
            update_indirect_grows e ⟨ref.eid, ref.type, p.call_id⟩ o.scd p
          exact ⟨_, by simp, g4, g5, g6⟩
        · exact ⟨e, by simp [hk, he], hsame _, rfl, rfl⟩

theorem one_bucket_per_gap_witness :
    (scenarioA_after_B.site ⟨0, .OCALL, 0⟩).map
      (fun c => c.direct_parents_data.map all_buckets) =
      some [[1, 0, 1, 0, 0, 0, 0, 0], [0, 0, 0, 0, 0, 0, 0, 0]] ∧
    ∃ c1, scenarioA_after_B.site ⟨0, .OCALL, 0⟩ = some c1 ∧
      (∀ (k : Nat) (e : parent_call_data_t),
        ([{}, {}] : List parent_call_data_t)[k]? = some e →
        ∃ e', c1.direct_parents_data[k]? = some e' ∧
          at_most_one_up (start_buckets e) (start_buckets e') ∧
          at_most_one_up (end_buckets e) (end_buckets e') ∧
          gap_buckets e' = gap_buckets e) :=
  ⟨by decide,
   (one_bucket_per_gap scenarioA_after_A scenarioA_after_B
     ((scenarioA_rows.drop 1).take 1)
     (rows_out scenarioA_after_A ((scenarioA_rows.drop 1).take 1)).2 (by decide) (by rfl)
     ⟨0, .OCALL, 0⟩
     { new_call_data .OCALL 0 "ocall_B" with
       direct_parents_data := [{}, {}], indirect_parents_data := [{}] }
     (by decide)).imp (fun _ hx => ⟨hx.1, hx.2.1⟩)⟩

theorem usub64_negative (a b : Nat) (hab : a < b)
    (hm : b - a ≤ 2 ^ 64 - 20000) : 20000 ≤ usub64 a b := by
  unfold usub64
  norm_num at hm ⊢
  omega

/-- One `site_step`, the update of the row's call site, counts an observation with a
negative gap in the relation entry and leaves the buckets of that gap as they are. -/
theorem negative_gap_site_step (eid : Nat) (kind other : call_type_t)
    (n_same n_other : Nat) (bump : Bool) (thiz : call_data_t) (t : thread_t) (r : call_row)
    (out : call_data_t × thread_t × observation)
    (h : site_step eid kind other n_same n_other bump thiz t r = .ok out) :
    (∀ p, out.2.2.direct = some p →
      ∃ e e', thiz.direct_parents_data[p.call_id]? = some e ∧
        out.1.direct_parents_data[p.call_id]? = some e' ∧
        e'.count = e.count + 1 ∧
        (r.starttime < p.start → p.start < 2 ^ 64 →
          p.start - r.starttime ≤ 2 ^ 64 - 20000 →
          usub64 r.starttime p.start = 2 ^ 64 - (p.start - r.starttime) ∧
          start_buckets e' = start_buckets e) ∧
        (p.end_ < r.endtime → r.endtime < 2 ^ 64 →
          r.endtime - p.end_ ≤ 2 ^ 64 - 20000 →
          usub64 p.end_ r.endtime = 2 ^ 64 - (r.endtime - p.end_) ∧
          end_buckets e' = end_buckets e) ∧
        gap_buckets e' = gap_buckets e) ∧
    (∀ c, out.2.2.indirect = some c →
      ∃ e e', thiz.indirect_parents_data[c.call_id]? = some e ∧
        out.1.indirect_parents_data[c.call_id]? = some e' ∧
        e'.count = e.count + 1 ∧
        (r.starttime < c.end_ → c.end_ < 2 ^ 64 →
          c.end_ - r.starttime ≤ 2 ^ 64 - 20000 →
          usub64 r.starttime c.end_ = 2 ^ 64 - (c.end_ - r.starttime) ∧
          gap_buckets e' = gap_buckets e) ∧
        start_buckets e' = start_buckets e ∧ end_buckets e' = end_buckets e) := by
  have hval : ∀ a b : Nat, a < b → b < 2 ^ 64 → usub64 a b = 2 ^ 64 - (b - a) := by
    intro a b hab hb
    unfold usub64
    norm_num at hb ⊢
    omega
  obtain ⟨_, hd, hi⟩ := site_step_tables eid kind other n_same n_other bump thiz t r out h
  refine ⟨?_, ?_⟩
  · intro p hp
    rcases hd with ⟨hnone, _⟩ | ⟨p', e, hp', he, htab, _⟩
    · rw [hnone] at hp
      cases hp
    · rw [hp'] at hp
      cases hp
      refine ⟨e, update_direct e ⟨eid, other, p.call_id⟩ (scd_of_row kind r) p, he, ?_, ?_⟩
      · rw [htab]
        exact getElem?_set_self_of_some _ _ _ _ he
      · obtain ⟨h1, _, h3, h4, h5, h6, h7, h8, h9, h10⟩ :=
          update_direct_spec e ⟨eid, other, p.call_id⟩ (scd_of_row kind r) p
        refine ⟨h1, ?_, ?_, ?_⟩
        · intro hlt hb hm
          have hg := usub64_negative r.starttime p.start hlt hm
          refine ⟨hval _ _ hlt hb, ?_⟩
          have hg' : 20000 ≤ usub64 (scd_of_row kind r).start p.start := hg
          simp only [start_buckets, h3, h4]
          rw [if_neg (by omega), if_neg (by omega)]
          rfl
        · intro hlt hb hm
          have hg := usub64_negative p.end_ r.endtime hlt hm
          refine ⟨hval _ _ hlt hb, ?_⟩
          have hg' : 20000 ≤ usub64 p.end_ (scd_of_row kind r).end_ := hg
          simp only [end_buckets, h5, h6]
          rw [if_neg (by omega), if_neg (by omega)]
          rfl
        · simp only [gap_buckets, h7, h8, h9, h10]
  · intro c hc
    rcases hi with ⟨hnone, _⟩ | ⟨c', e, hc', he, htab⟩
    · rw [hnone] at hc
      cases hc
    · rw [hc'] at hc
      cases hc
      refine ⟨e, update_indirect e ⟨eid, kind, c.call_id⟩
        { scd_of_row kind r with parent := out.2.2.scd.parent } c, he, ?_, ?_⟩
      · rw [htab]
        exact getElem?_set_self_of_some _ _ _ _ he
      · obtain ⟨h1, _, h3, h4, h5, h6, h7, h8, h9, h10⟩ :=
          update_indirect_spec e ⟨eid, kind, c.call_id⟩
            { scd_of_row kind r with parent := out.2.2.scd.parent } c
        refine ⟨h1, ?_, ?_, ?_⟩
        · intro hlt hb hm
          have hg := usub64_negative r.starttime c.end_ hlt hm
          refine ⟨hval _ _ hlt hb, ?_⟩
          have key : usub64
            ({ scd_of_row kind r with parent := out.2.2.scd.parent } :
              single_call_data_t).start c.end_ = usub64 r.starttime c.end_ := rfl
          rw [key] at h3 h4 h5 h6
          simp only [gap_buckets, h3, h4, h5, h6]
          rw [if_neg (by omega), if_neg (by omega), if_neg (by omega), if_neg (by omega)]
          rfl
        · simp only [start_buckets, h7, h8]
        · simp only [end_buckets, h9, h10]

/-- Claim C28: gaps are unsigned 64-bit differences.  When a single row is processed, its
observation `o` belongs to a call site `ref`.  If a direct parent `p` is resolved, the
count of the site's direct relation entry keyed by the parent grows by 1; if the row starts
before `p` starts, by at most `2^64 - 20000`, the two from-start buckets stay, and if `p`
ends before the row ends, by at most `2^64 - 20000`, the two to-end buckets stay.  If an
indirect parent `q` is matched, the count of the indirect relation entry keyed by it grows
by 1, and if the row starts before `q` ends, by at most `2^64 - 20000`, the four gap
buckets stay.  (Times are `uint64_t` values.) -/
theorem negative_gap_in_no_bucket (s s1 : analyzer_state) (rows : List call_row)
    (os : List observation) (hlen : rows.length = 1)
    (h : process_rows s rows = .ok (s1, os)) (o : observation) (ho : o ∈ os) :
    ∃ ref c c1, row_ref o.row = some ref ∧ rows = [o.row] ∧
      s.site ref = some c ∧ s1.site ref = some c1 ∧
      (∀ p, o.direct = some p →
        ∃ e e', c.direct_parents_data[p.call_id]? = some e ∧
          c1.direct_parents_data[p.call_id]? = some e' ∧
          e'.count = e.count + 1 ∧
          (o.row.starttime < p.start → p.start < 2 ^ 64 →
            p.start - o.row.starttime ≤ 2 ^ 64 - 20000 →
            usub64 o.row.starttime p.start = 2 ^ 64 - (p.start - o.row.starttime) ∧
            start_buckets e' = start_buckets e) ∧
          (p.end_ < o.row.endtime → o.row.endtime < 2 ^ 64 →
            o.row.endtime - p.end_ ≤ 2 ^ 64 - 20000 →
            usub64 p.end_ o.row.endtime = 2 ^ 64 - (o.row.endtime - p.end_) ∧
            end_buckets e' = end_buckets e) ∧
          gap_buckets e' = gap_buckets e) ∧
      (∀ q, o.indirect = some q →
        ∃ e e', c.indirect_parents_data[q.call_id]? = some e ∧
          c1.indirect_parents_data[q.call_id]? = some e' ∧
          e'.count = e.count + 1 ∧
          (o.row.starttime < q.end_ → q.end_ < 2 ^ 64 →
            q.end_ - o.row.starttime ≤ 2 ^ 64 - 20000 →
            usub64 o.row.starttime q.end_ = 2 ^ 64 - (q.end_ - o.row.starttime) ∧
            gap_buckets e' = gap_buckets e) ∧
          start_buckets e' = start_buckets e ∧ end_buckets e' = end_buckets e) := by
  obtain ⟨r, oo, hrows, hstep, hos⟩ := process_single_row s s1 rows os hlen h
  have hoo : oo = some o := by
    rw [hos] at ho
    cases oo with
    | none => simp at ho
    | some o1 =>
      simp only [Option.toList, List.mem_singleton] at ho
      rw [ho]
  subst hoo
  unfold call_data_step at hstep
  by_cases h15 : r.type = 15
  · rw [if_pos h15] at hstep
    cases hb : ecall_branch s r with
    | error f => rw [hb] at hstep; cases hstep
    | ok res =>
      obtain ⟨s1a, o1⟩ := res
      rw [hb] at hstep
      simp only [Except.ok.injEq, Prod.mk.injEq, Option.some.injEq] at hstep
      obtain ⟨hs, ho1⟩ := hstep
      subst hs
      subst ho1
      obtain ⟨thiz, out, hsite, hst, hout, hall, _⟩ := ecall_branch_effect s s1a r o1 hb
      have hrow : o1.row = r := by
        rw [hout]
        exact (site_step_tables _ _ _ _ _ _ _ _ _ _ hst).1
      obtain ⟨_, _, _, _, _, a6, a7⟩ := count_aex_frame thiz r
      have hd : (count_exectime (count_aex thiz r) r).direct_parents_data =
          thiz.direct_parents_data := by simp [count_exectime, a6]
      have hi : (count_exectime (count_aex thiz r) r).indirect_parents_data =
          thiz.indirect_parents_data := by simp [count_exectime, a7]
      have key := negative_gap_site_step _ _ _ _ _ _ _ _ _ _ hst
      rw [hd, hi, ← hout, ← hrow] at key
      refine ⟨⟨r.eid, .ECALL, r.id⟩, thiz, out.1, ?_, by rw [hrows, hrow], hsite,
        by rw [hall]; simp, key⟩
      rw [hrow]
      simp [row_ref, h15]
  · rw [if_neg h15] at hstep
    by_cases h17 : r.type = 17
    · rw [if_pos h17] at hstep
      cases hb : ocall_branch s r with
      | error f => rw [hb] at hstep; cases hstep
      | ok res =>
        obtain ⟨s1a, o1⟩ := res
        rw [hb] at hstep
        simp only [Except.ok.injEq, Prod.mk.injEq, Option.some.injEq] at hstep
        obtain ⟨hs, ho1⟩ := hstep
        subst hs
        subst ho1
        obtain ⟨thiz, out, hsite, hst, hout, hall, _⟩ := ocall_branch_effect s s1a r o1 hb
        have hrow : o1.row = r := by
          rw [hout]
          exact (site_step_tables _ _ _ _ _ _ _ _ _ _ hst).1
        have hd : (count_exectime thiz r).direct_parents_data =
            thiz.direct_parents_data := by simp [count_exectime]
        have hi : (count_exectime thiz r).indirect_parents_data =
            thiz.indirect_parents_data := by simp [count_exectime]
        have key := negative_gap_site_step _ _ _ _ _ _ _ _ _ _ hst
        rw [hd, hi, ← hout, ← hrow] at key
        refine ⟨⟨r.eid, .OCALL, r.id⟩, thiz, out.1, ?_, by rw [hrows, hrow], hsite,
          by rw [hall]; simp, key⟩
        rw [hrow]
        simp [row_ref, h15, h17]
    · rw [if_neg h17] at hstep
      simp at hstep

theorem negative_gap_in_no_bucket_witness :
    (rows_out late_state [early_row]).2.map
      (fun o => (o.direct.map (fun p => (p.start, p.end_)),
        o.indirect.map (fun q => q.end_))) = [(some (1000, 2000), some 1200)] ∧
    (late_state.site ⟨0, .OCALL, 0⟩).map (fun c =>
      (c.direct_parents_data.map (fun e => (e.count, all_buckets e)),
       c.indirect_parents_data.map (fun e => (e.count, all_buckets e)))) =
      some ([(1, [1, 0, 1, 0, 0, 0, 0, 0]), (0, [0, 0, 0, 0, 0, 0, 0, 0])],
        [(0, [0, 0, 0, 0, 0, 0, 0, 0])]) ∧
    ((rows_out late_state [early_row]).1.site ⟨0, .OCALL, 0⟩).map (fun c =>
      (c.direct_parents_data.map (fun e => (e.count, all_buckets e)),
       c.indirect_parents_data.map (fun e => (e.count, all_buckets e)))) =
      some ([(2, [1, 0, 1, 0, 0, 0, 0, 0]), (0, [0, 0, 0, 0, 0, 0, 0, 0])],
        [(1, [0, 0, 0, 0, 0, 0, 0, 0])]) ∧
    ∀ o ∈ (rows_out late_state [early_row]).2,
      ∃ ref c c1, row_ref o.row = some ref ∧ [early_row] = [o.row] ∧
        late_state.site ref = some c ∧
        (rows_out late_state [early_row]).1.site ref = some c1 :=
  ⟨by decide, by decide, by decide,
   fun o ho =>
     (negative_gap_in_no_bucket late_state (rows_out late_state [early_row]).1 [early_row]
       (rows_out late_state [early_row]).2 (by decide) (by rfl) o ho).imp
       (fun _ h1 => h1.imp (fun _ h2 => h2.imp (fun _ hx =>
         ⟨hx.1, hx.2.1, hx.2.2.1, hx.2.2.2.1⟩)))⟩

/-! ## Trimmed statistics against full statistics -/

theorem length_mul_le_sum (x : Nat) (D : List Nat) (h : ∀ y ∈ D, x ≤ y) :
    D.length * x ≤ D.sum := by
  induction D with
  | nil => simp
  | cons y D ih =>
    have h1 := h y (List.mem_cons_self _ _)
    have h2 := ih (fun z hz => h z (List.mem_cons_of_mem _ hz))
    simp only [List.length_cons, List.sum_cons]
    rw [Nat.add_mul, one_mul]
    omega

theorem cross_sums (T D : List Nat) (h : ∀ x ∈ T, ∀ y ∈ D, x ≤ y) :
    D.length * T.sum ≤ T.length * D.sum := by
  induction T with
  | nil => simp
  | cons x T ih =>
    have h1 := length_mul_le_sum x D (h x (List.mem_cons_self _ _))
    have h2 := ih (fun z hz => h z (List.mem_cons_of_mem _ hz))
    simp only [List.length_cons, List.sum_cons]
    rw [Nat.mul_add, Nat.add_mul, one_mul]
    omega

theorem head_sum_le (l : List Nat) (k : Nat) : (l.take k).sum ≤ l.sum := by
  conv_rhs => rw [← List.take_append_drop k l]
  rw [List.sum_append]
  exact Nat.le_add_right _ _

theorem head_mean_le (l : List Nat) (k : Nat) (hs : l.Sorted (fun a b => a ≤ b))
    (hk : k ≤ l.length) : (l.take k).sum * l.length ≤ l.sum * k := by
  have hsplit : l = l.take k ++ l.drop k := (List.take_append_drop k l).symm
  have hpw : ∀ x ∈ l.take k, ∀ y ∈ l.drop k, x ≤ y := by
    have hs' : (l.take k ++ l.drop k).Pairwise (fun a b => a ≤ b) := by
      rw [← hsplit]; exact hs
    exact (List.pairwise_append.mp hs').2.2
  have hc := cross_sums (l.take k) (l.drop k) hpw
  have hlt : (l.take k).length = k := List.length_take_of_le hk
  have hld : (l.drop k).length = l.length - k := List.length_drop _ _
  have hsum : l.sum = (l.take k).sum + (l.drop k).sum := by
    conv_lhs => rw [hsplit]
    exact List.sum_append
  rw [hlt, hld] at hc
  rw [hsum]
  have hn : l.length = k + (l.length - k) := by omega
  generalize (l.take k).sum = a at hc ⊢
  generalize (l.drop k).sum = b at hc ⊢
  generalize l.length - k = m at hc hn ⊢
  rw [hn, Nat.mul_add, Nat.add_mul]
  have : a * m = m * a := Nat.mul_comm _ _
  have : b * k = k * b := Nat.mul_comm _ _
  omega

theorem head_avg_le (l : List Nat) (k : Nat) (hs : l.Sorted (fun a b => a ≤ b))
    (hk : k ≤ l.length) (hpos : 0 < k) : (l.take k).sum / k ≤ l.sum / l.length := by
  have hn : 0 < l.length := by omega
  rw [Nat.le_div_iff_mul_le hn]
  have h1 : (l.take k).sum / k * k ≤ (l.take k).sum := Nat.div_mul_le_self _ _
  have h2 := head_mean_le l k hs hk
  have h3 : (l.take k).sum / k * l.length * k ≤ l.sum * k := by
    calc (l.take k).sum / k * l.length * k
        = (l.take k).sum / k * k * l.length := by ring
      _ ≤ (l.take k).sum * l.length := Nat.mul_le_mul_right _ h1
      _ ≤ l.sum * k := h2
  exact Nat.le_of_mul_le_mul_right h3 hpos

theorem head_filter_le (l : List Nat) (k : Nat) (p : Nat → Bool) :
    ((l.take k).filter p).length ≤ (l.filter p).length := by
  conv_rhs => rw [← List.take_append_drop k l]
  rw [List.filter_append, List.length_append]
  exact Nat.le_add_right _ _

theorem sorted_durations (l : List Nat) :
    (l.insertionSort (fun a b => a ≤ b)).Sorted (fun a b => a ≤ b) :=
  List.sorted_insertionSort (fun a b => a ≤ b) l

theorem sorted_durations_sum (l : List Nat) :
    (l.insertionSort (fun a b => a ≤ b)).sum = l.sum :=
  (List.perm_insertionSort (fun a b => a ≤ b) l).sum_eq

theorem analyze_call_stats (fsqrt : Nat → Nat) (c : call_data_t)
    (hn : 0 < c.exectimes.length) (hfresh : c.stats_95th = {}) :
    ∃ c' st, analyze_call fsqrt c = .ok c' ∧
      c'.exectimes = c.exectimes.insertionSort (fun a b => a ≤ b) ∧
      c'.exectimes.length = c.exectimes.length ∧
      calc_stats fsqrt { c.all_stats with calls := c.exectimes.length } c' = .ok c'.all_stats ∧
      c'.all_stats.calls = c.exectimes.length ∧
      c'.all_stats.sum = c.all_stats.sum ∧
      c'.all_stats.avg = c.all_stats.sum / c.exectimes.length ∧
      c'.all_stats.num_less_1us = (c'.exectimes.filter (fun val => val < 1000)).length ∧
      c'.all_stats.num_less_5us = (c'.exectimes.filter (fun val => val < 5000)).length ∧
      c'.all_stats.num_less_10us = (c'.exectimes.filter (fun val => val < 10000)).length ∧
      st = c'.stats_95th ∧
      st.calls = percentile_idx (binary64 (95 / 100)) c.exectimes.length ∧
      st.sum = (c'.exectimes.take st.calls).sum ∧
      (0 < st.calls →
        st.avg = st.sum / st.calls ∧
        st.num_less_1us = ((c'.exectimes.take st.calls).filter (fun val => val < 1000)).length ∧
        st.num_less_5us = ((c'.exectimes.take st.calls).filter (fun val => val < 5000)).length ∧
        st.num_less_10us =
          ((c'.exectimes.take st.calls).filter (fun val => val < 10000)).length) ∧
      (st.calls = 0 → st = {}) := by
  obtain ⟨c', hc', hsorted, hall, h95, _⟩ := analyze_call_ok fsqrt c
  have hlen : c'.exectimes.length = c.exectimes.length := by
    rw [hsorted]
    exact List.length_insertionSort _ _
  obtain ⟨sa, hsa, hacalls, hasum, hapos, _⟩ := calc_stats_ok fsqrt
    { c.all_stats with calls := c.exectimes.length } c' (by simp [hlen])
  have hall' := hall
  rw [hsa] at hall
  cases hall
  obtain ⟨a1, _, a3, a4, a5, _⟩ := hapos hn
  simp only [] at hacalls hasum a1 a3 a4 a5
  have htake : c'.exectimes.take c.exectimes.length = c'.exectimes := by
    rw [← hlen]
    exact List.take_length _
  rw [htake] at a3 a4 a5
  have hk := percentile_idx_95_le_pred c.exectimes.length hn
  rw [hfresh, ← hsorted] at h95
  obtain ⟨st, hst, hcalls, hs, hpos, hzero⟩ := calc_stats_ok fsqrt
    { ({} : stats_t) with
      calls := percentile_idx (binary64 (95 / 100)) c.exectimes.length
      sum := (c'.exectimes.take (percentile_idx (binary64 (95 / 100)) c.exectimes.length)).sum } c'
    (by simp only [hlen]; omega)
  rw [h95] at hst
  cases hst
  simp only [] at hcalls hs hpos hzero
  refine ⟨c', c'.stats_95th, hc', hsorted, hlen, hall', hacalls, hasum, a1, a3, a4, a5, rfl,
    hcalls, by rw [hs, hcalls], ?_, ?_⟩
  · intro hp
    rw [hcalls] at hp
    obtain ⟨b1, _, b3, b4, b5, _⟩ := hpos hp
    rw [hs, hcalls]
    exact ⟨b1, b3, b4, b5⟩
  · intro h0
    rw [hcalls] at h0
    rw [hzero h0, h0]
    simp

/-- Claim C27: for a call site with `n >= 1` recorded durations whose `stats_95th` is still
zero-initialised, aggregation returns with `stats_95th.calls = percentile_idx(0.95, n)`,
which is at most `n - 1`: the trimmed statistics range over a prefix of the
ascending-sorted durations that leaves out the last, slowest one.  For `n = 1`, whatever
the duration, the trimmed count is `percentile_idx(0.95, 1) = 0` and every field of the
trimmed statistics (sum, average, std, threshold counts) is 0. -/
theorem single_invocation_trimmed_empty (fsqrt : Nat → Nat) (c : call_data_t)
    (hn : 0 < c.exectimes.length) (hfresh : c.stats_95th = {}) :
    ∃ c', analyze_call fsqrt c = .ok c' ∧
      c'.stats_95th.calls = percentile_idx (binary64 (95 / 100)) c.exectimes.length ∧
      c'.stats_95th.calls ≤ c.exectimes.length - 1 ∧
      c'.stats_95th.sum = (c'.exectimes.dropLast.take c'.stats_95th.calls).sum ∧
      c'.exectimes.take c'.stats_95th.calls =
        c'.exectimes.dropLast.take c'.stats_95th.calls ∧
      (∀ x ∈ c'.exectimes, ∀ y, c'.exectimes.getLast? = some y → x ≤ y) ∧
      percentile_idx (binary64 (95 / 100)) 1 = 0 ∧
      (c.exectimes.length = 1 →
        c'.all_stats.calls = 1 ∧ c'.stats_95th = {} ∧ c'.stats_95th.calls = 0 ∧
        c'.stats_95th.sum = 0 ∧ c'.stats_95th.avg = 0 ∧ c'.stats_95th.std = 0 ∧
        c'.stats_95th.num_less_1us = 0 ∧ c'.stats_95th.num_less_5us = 0 ∧
        c'.stats_95th.num_less_10us = 0) := by
  obtain ⟨c', st, hc', hsorted, hlen, _, hacalls, _, _, _, _, _, hst, hcalls, hsum, _, hzero⟩ :=
    analyze_call_stats fsqrt c hn hfresh
  subst hst
  have hk := percentile_idx_95_le_pred c.exectimes.length hn
  have h1 : percentile_idx (binary64 (95 / 100)) 1 = 0 := by decide!
  have htake : c'.exectimes.take c'.stats_95th.calls =
      c'.exectimes.dropLast.take c'.stats_95th.calls := by
    rw [List.dropLast_eq_take, List.take_take]
    congr 1
    rw [hcalls, hlen]
    omega
  refine ⟨c', hc', hcalls, by rw [hcalls]; exact hk, by rw [← htake]; exact hsum, htake,
    ?_, h1, ?_⟩
  · intro x hx y hy
    have hs : c'.exectimes.Sorted (fun a b => a ≤ b) := by
      rw [hsorted]; exact sorted_durations _
    rw [List.getLast?_eq_getElem?] at hy
    obtain ⟨i, hi⟩ := List.mem_iff_getElem?.mp hx
    have hilt : i < c'.exectimes.length := by
      by_contra hcon
      rw [List.getElem?_eq_none (by omega)] at hi
      cases hi
    have hjlt : c'.exectimes.length - 1 < c'.exectimes.length := by omega
    rw [List.getElem?_eq_getElem hilt] at hi
    rw [List.getElem?_eq_getElem hjlt] at hy
    cases hi
    cases hy
    rcases Nat.lt_or_ge i (c'.exectimes.length - 1) with hlt | hge
    · exact List.pairwise_iff_getElem.mp hs i (c'.exectimes.length - 1) hilt hjlt hlt
    · have : i = c'.exectimes.length - 1 := by omega
      subst this
      exact le_refl _
  · intro hone
    have h0 : c'.stats_95th.calls = 0 := by rw [hcalls, hone, h1]
    have hz := hzero h0
    rw [hz]
    exact ⟨by rw [hacalls, hone], rfl, rfl, rfl, rfl, rfl, rfl, rfl, rfl⟩

theorem single_invocation_trimmed_empty_witness :
    (result_or (analyze_call Nat.sqrt single_call_site) idle_site).stats_95th = {} ∧
    ∃ c', analyze_call Nat.sqrt single_call_site = .ok c' ∧
      c'.stats_95th.calls = percentile_idx (binary64 (95 / 100)) 1 ∧ c'.stats_95th.calls ≤ 1 - 1 :=
  ⟨by decide!,
   (single_invocation_trimmed_empty Nat.sqrt single_call_site
     (by decide) (by decide)).imp (fun _ hx => ⟨hx.1, hx.2.1, hx.2.2.1⟩)⟩

/-- Claim C30: for a call site with `n >= 1` recorded durations whose `all_stats.sum` is
their sum and whose `stats_95th` is still zero-initialised (as the row callback leaves
them), after aggregation `stats_95th.sum <= all_stats.sum`, `stats_95th.avg <=
all_stats.avg`, and each trimmed threshold count is at most the corresponding full count. -/
theorem trimming_never_raises_average (fsqrt : Nat → Nat) (c : call_data_t)
    (hn : 0 < c.exectimes.length) (hfresh : c.stats_95th = {})
    (hsum : c.all_stats.sum = c.exectimes.sum) :
    ∃ c', analyze_call fsqrt c = .ok c' ∧
      c'.stats_95th.sum ≤ c'.all_stats.sum ∧
      c'.stats_95th.avg ≤ c'.all_stats.avg ∧
      c'.stats_95th.num_less_1us ≤ c'.all_stats.num_less_1us ∧
      c'.stats_95th.num_less_5us ≤ c'.all_stats.num_less_5us ∧
      c'.stats_95th.num_less_10us ≤ c'.all_stats.num_less_10us ∧
      c'.stats_95th.calls ≤ c'.all_stats.calls := by
  obtain ⟨c', st, hc', hsorted, hlen, _, hacalls, hasum, haavg, ha1, ha5, ha10, hst, hcalls,
    hssum, hpos, hzero⟩ := analyze_call_stats fsqrt c hn hfresh
  subst hst
  have hk := percentile_idx_95_le_pred c.exectimes.length hn
  have hs : c'.exectimes.Sorted (fun a b => a ≤ b) := by
    rw [hsorted]; exact sorted_durations _
  have htot : c'.exectimes.sum = c.exectimes.sum := by
    rw [hsorted]; exact sorted_durations_sum _
  have hklen : c'.stats_95th.calls ≤ c'.exectimes.length := by
    rw [hcalls, hlen]; omega
  refine ⟨c', hc', ?_, ?_, ?_, ?_, ?_, by rw [hacalls, hcalls]; omega⟩
  · rw [hssum, hasum, hsum, ← htot]
    exact head_sum_le _ _
  · rcases Nat.eq_zero_or_pos c'.stats_95th.calls with h0 | hp
    · rw [hzero h0]
      exact Nat.zero_le _
    · obtain ⟨b1, _, _, _⟩ := hpos hp
      rw [b1, hssum, haavg, hsum, ← htot, ← hlen]
      exact head_avg_le _ _ hs hklen hp
  all_goals
    rcases Nat.eq_zero_or_pos c'.stats_95th.calls with h0 | hp
    · rw [hzero h0]
      exact Nat.zero_le _
    · obtain ⟨_, b3, b4, b5⟩ := hpos hp
      first
        | (rw [b3, ha1]; exact head_filter_le _ _ _)
        | (rw [b4, ha5]; exact head_filter_le _ _ _)
        | (rw [b5, ha10]; exact head_filter_le _ _ _)

theorem trimming_never_raises_average_witness :
    ((result_or (analyze_call Nat.sqrt scenarioD_site) scenarioD_site).stats_95th.avg = 5 ∧
      (result_or (analyze_call Nat.sqrt scenarioD_site) scenarioD_site).all_stats.avg = 14) ∧
    ∃ c', analyze_call Nat.sqrt scenarioD_site = .ok c' ∧
      c'.stats_95th.sum ≤ c'.all_stats.sum ∧
      c'.stats_95th.avg ≤ c'.all_stats.avg ∧
      c'.stats_95th.num_less_1us ≤ c'.all_stats.num_less_1us ∧
      c'.stats_95th.num_less_5us ≤ c'.all_stats.num_less_5us ∧
      c'.stats_95th.num_less_10us ≤ c'.all_stats.num_less_10us ∧
      c'.stats_95th.calls ≤ c'.all_stats.calls :=
  ⟨by decide!, trimming_never_raises_average Nat.sqrt scenarioD_site (by decide) (by decide)
    (by decide)⟩

/-! ## Histogram binning -/

theorem foldl_max_ge (xs : List Nat) (x : Nat) :
    x ≤ xs.foldl max x ∧ ∀ y ∈ xs, y ≤ xs.foldl max x := by
  induction xs generalizing x with
  | nil => simp
  | cons a xs ih =>
    simp only [List.foldl_cons, List.mem_cons, forall_eq_or_imp]
    obtain ⟨h1, h2⟩ := ih (max x a)
    exact ⟨le_trans (le_max_left x a) h1, le_trans (le_max_right x a) h1, h2⟩

theorem foldl_min_le (xs : List Nat) (x : Nat) :
    xs.foldl min x ≤ x ∧ ∀ y ∈ xs, xs.foldl min x ≤ y := by
  induction xs generalizing x with
  | nil => simp
  | cons a xs ih =>
    simp only [List.foldl_cons, List.mem_cons, forall_eq_or_imp]
    obtain ⟨h1, h2⟩ := ih (min x a)
    exact ⟨le_trans h1 (min_le_left x a), le_trans h1 (min_le_right x a), h2⟩

theorem foldl_max_mem (xs : List Nat) (x : Nat) : xs.foldl max x ∈ x :: xs := by
  induction xs generalizing x with
  | nil => simp
  | cons a xs ih =>
    simp only [List.foldl_cons]
    have := ih (max x a)
    rcases List.mem_cons.mp this with h | h
    · rw [h]
      rcases max_choice x a with hm | hm <;> rw [hm] <;> simp
    · exact List.mem_cons_of_mem _ (List.mem_cons_of_mem _ h)

theorem range_extremes (v : List Nat) (size : Nat) (hsize : size < v.length) :
    ∃ mx mn, range_max v size = some mx ∧ range_min v size = some mn ∧ mn ≤ mx ∧ mx ∈ v ∧
      ∀ val ∈ v.take size, mn ≤ val ∧ val ≤ mx := by
  unfold range_max range_min
  cases htake : v.take size with
  | nil =>
    simp only []
    refine ⟨v[size], v[size], List.getElem?_eq_getElem hsize, List.getElem?_eq_getElem hsize,
      le_refl _, List.getElem_mem _, ?_⟩
    intro val hval
    cases hval
  | cons x xs =>
    simp only []
    obtain ⟨a1, a2⟩ := foldl_max_ge xs x
    obtain ⟨b1, b2⟩ := foldl_min_le xs x
    refine ⟨_, _, rfl, rfl, le_trans b1 a1, ?_, ?_⟩
    · have hm := foldl_max_mem xs x
      rw [← htake] at hm
      exact List.mem_of_mem_take hm
    · intro val hval
      rcases List.mem_cons.mp hval with h | h
      · rw [h]; exact ⟨b1, a1⟩
      · exact ⟨b2 val h, a2 val h⟩

theorem sum_set_succ (bin : List Nat) (n : Nat) (h : n < bin.length) :
    (bin.set n (bin.getD n 0 + 1)).sum = bin.sum + 1 := by
  induction bin generalizing n with
  | nil => simp at h
  | cons a bin ih =>
    cases n with
    | zero => simp; omega
    | succ m =>
      simp only [List.length_cons, Nat.succ_lt_succ_iff] at h
      simp only [List.set_cons_succ, List.sum_cons, List.getD_cons_succ]
      rw [ih m h]
      omega

theorem fill_bins_ok (mx mn bins binwidth : Nat) (l bin : List Nat)
    (hlen : bin.length = bins + 1)
    (hall : ∀ val ∈ l, val ≤ mx ∧ usub64 val mn / binwidth < bins + 1) :
    ∃ out, fill_bins mx mn bins binwidth l bin = .ok out ∧ out.length = bins + 1 ∧
      out.sum = bin.sum + l.length := by
  induction l generalizing bin with
  | nil => exact ⟨bin, rfl, hlen, by simp⟩
  | cons val rest ih =>
    obtain ⟨h1, h2⟩ := hall val (List.mem_cons_self _ _)
    unfold fill_bins
    rw [if_pos h1]
    simp only []
    rw [if_pos h2]
    obtain ⟨out, ho, hol, hos⟩ := ih (bin.set (usub64 val mn / binwidth)
      (bin.getD (usub64 val mn / binwidth) 0 + 1))
      (by rw [List.length_set]; exact hlen)
      (fun v hv => hall v (List.mem_cons_of_mem _ hv))
    refine ⟨out, ho, hol, ?_⟩
    rw [hos, sum_set_succ bin _ (by rw [hlen]; exact h2), List.length_cons]
    omega

theorem bin_count_spec (range : Nat) :
    1 ≤ bin_count range ∧ bin_count range ≤ 100 ∧
    (range = 0 → bin_count range = 1) ∧
    (0 < range → range < 100 → bin_count range = range) ∧
    (100 ≤ range → bin_count range = 100) := by
  unfold bin_count
  simp only []
  by_cases h : range < 100
  · by_cases h0 : range = 0
    · simp [h0]
    · rw [if_pos h, if_neg h0]
      exact ⟨by omega, by omega, fun h1 => absurd h1 h0, fun _ _ => rfl, fun h1 => by omega⟩
  · rw [if_neg h, if_neg (by norm_num)]
    exact ⟨by omega, by omega, fun h1 => by omega, fun _ h2 => absurd h2 h, fun _ => rfl⟩

theorem bin_index_lt (x range bins : Nat) (hb : 0 < bins) (hx : x ≤ range) :
    x / (range / bins + 1) < bins := by
  rw [Nat.div_lt_iff_lt_mul (Nat.succ_pos _)]
  have h1 : range < bins * (range / bins + 1) := by
    have := Nat.div_add_mod range bins
    have hm := Nat.mod_lt range hb
    rw [Nat.mul_add, Nat.mul_one]
    omega
  calc x ≤ range := hx
    _ < bins * (range / bins + 1) := h1

theorem usub64_of_le (a b : Nat) (hba : b ≤ a) (ha : a < 2 ^ 64) : usub64 a b = a - b := by
  unfold usub64
  norm_num at ha ⊢
  omega

theorem map_getD_range (bin : List Nat) :
    (List.range bin.length).map (fun i => bin.getD i 0) = bin := by
  apply List.ext_getElem
  · simp
  · intro i h1 h2
    simp [List.getD_eq_getElem?_getD, List.getElem?_eq_getElem h2]

theorem histogram_lines_binning (c : call_data_t) (percentile : Nat)
    (hn : 0 < c.exectimes.length) (hlen : c.exectimes.length ≤ 2 ^ 53)
    (h64 : ∀ x ∈ c.exectimes, x < 2 ^ 64) :
    ∃ (mx mn : Nat) (lines : List (Nat × Nat)),
      histogram_lines c percentile = .ok lines ∧
      range_max c.exectimes
        (percentile_idx (binary32 ((percentile : ℚ) / 100)) c.exectimes.length) = some mx ∧
      range_min c.exectimes
        (percentile_idx (binary32 ((percentile : ℚ) / 100)) c.exectimes.length) = some mn ∧
      mn ≤ mx ∧
      1 ≤ bin_count (mx - mn) ∧ bin_count (mx - mn) ≤ 100 ∧
      (mx - mn = 0 → bin_count (mx - mn) = 1) ∧
      (0 < mx - mn → mx - mn < 100 → bin_count (mx - mn) = mx - mn) ∧
      (∀ val ∈ c.exectimes.take
          (percentile_idx (binary32 ((percentile : ℚ) / 100)) c.exectimes.length),
        mn ≤ val ∧ val ≤ mx ∧
        (val - mn) / ((mx - mn) / bin_count (mx - mn) + 1) < bin_count (mx - mn) + 1) ∧
      lines.length = bin_count (mx - mn) + 1 ∧
      (lines.map (fun line => line.2)).sum =
        percentile_idx (binary32 ((percentile : ℚ) / 100)) c.exectimes.length := by
  have hsize := percentile_idx_le_pred (binary32 ((percentile : ℚ) / 100))
    c.exectimes.length hn hlen
  generalize hsz : percentile_idx (binary32 ((percentile : ℚ) / 100)) c.exectimes.length =
    size at hsize ⊢
  have hlt : size < c.exectimes.length := by omega
  obtain ⟨mx, mn, hmx, hmn, hle, hmem, hall⟩ := range_extremes c.exectimes size hlt
  have hmx64 := h64 mx hmem
  have hrange : usub64 mx mn = mx - mn := usub64_of_le mx mn hle hmx64
  obtain ⟨b1, b2, b3, b4, _⟩ := bin_count_spec (mx - mn)
  have hw : ((mx - mn) / bin_count (mx - mn) + 1) % 2 ^ 64 =
      (mx - mn) / bin_count (mx - mn) + 1 := by
    apply Nat.mod_eq_of_lt
    have h1 : (mx - mn) / bin_count (mx - mn) ≤ mx - mn := Nat.div_le_self _ _
    have h2 : mx - mn < 2 ^ 64 := by omega
    rcases Nat.eq_zero_or_pos (mx - mn) with h0 | hp
    · rw [h0]; norm_num
    · have h3 : (mx - mn) / bin_count (mx - mn) < mx - mn ∨ bin_count (mx - mn) = 1 := by
        by_cases hb : bin_count (mx - mn) = 1
        · exact Or.inr hb
        · exact Or.inl (Nat.div_lt_self hp (by omega))
      rcases h3 with h3 | h3
      · omega
      · rcases Nat.lt_or_ge (mx - mn) 100 with h5 | h5
        · have := b4 hp h5
          have h6 : mx - mn = 1 := by omega
          rw [h6] at h3 ⊢
          rw [h3]
          norm_num
        · obtain ⟨_, _, _, _, b5⟩ := bin_count_spec (mx - mn)
          have := b5 h5
          omega
  have hidx : ∀ val ∈ c.exectimes.take size,
      mn ≤ val ∧ val ≤ mx ∧
      (val - mn) / ((mx - mn) / bin_count (mx - mn) + 1) < bin_count (mx - mn) + 1 := by
    intro val hval
    obtain ⟨h1, h2⟩ := hall val hval
    refine ⟨h1, h2, ?_⟩
    have := bin_index_lt (val - mn) (mx - mn) (bin_count (mx - mn)) b1 (by omega)
    omega
  obtain ⟨bin, hbin, hbl, hbs⟩ := fill_bins_ok mx mn (bin_count (mx - mn))
    ((mx - mn) / bin_count (mx - mn) + 1) (c.exectimes.take size)
    (List.replicate (bin_count (mx - mn) + 1) 0) (by simp)
    (by
      intro val hval
      obtain ⟨h1, h2, h3⟩ := hidx val hval
      have hv : usub64 val mn = val - mn :=
        usub64_of_le val mn h1 (lt_of_le_of_lt h2 hmx64)
      rw [hv]
      exact ⟨h2, h3⟩)
  refine ⟨mx, mn, (List.range (bin_count (mx - mn) + 1)).map
    (fun i => ((mn + i * ((mx - mn) / bin_count (mx - mn) + 1)) % 2 ^ 64, bin.getD i 0)),
    ?_, hmx, hmn, hle, b1, b2, b3, b4, hidx, ?_, ?_⟩
  · unfold histogram_lines
    simp only [hsz, hmx, hmn, hrange, hw, hbin]
  · simp
  · rw [List.map_map]
    have hfun : ((fun line : Nat × Nat => line.2) ∘
        (fun i => ((mn + i * ((mx - mn) / bin_count (mx - mn) + 1)) % 2 ^ 64, bin.getD i 0))) =
        (fun i => bin.getD i 0) := by
      funext i
      rfl
    rw [hfun, ← hbl, map_getD_range, hbs]
    simp
    omega

/-- Claim C21: for a call site with `1 <= n <= 2^53` durations (64-bit values; a length
that `double` holds exactly) and any percentile,
with `size = percentile_idx(percentile / 100.0f, n)` and `min`, `max` taken over the first
`size` durations, the histogram export returns without a failed assertion, having written
either nothing (no folder name, a filtered site, no folder) or the lines below; the bin count
`b` is `max - min` when that is between 1 and 99, 1 when it is 0, and 100 otherwise, so
`1 <= b <= 100`; every duration `val` of the prefix satisfies `val <= max` and has bin
index `(val - min) / binwidth < b + 1`; `b + 1` lines are written, and their bin counts sum
to `size`. -/
theorem histogram_binning (cfg : config_t) (folder_ok : Bool) (c : call_data_t)
    (percentile : Nat)
    (hn : 0 < c.exectimes.length) (hlen : c.exectimes.length ≤ 2 ^ 53)
    (h64 : ∀ x ∈ c.exectimes, x < 2 ^ 64) :
    ∃ (mx mn : Nat) (lines : List (Nat × Nat)),
      (export_call_data_histogram cfg folder_ok c percentile = .ok none ∨
       export_call_data_histogram cfg folder_ok c percentile = .ok (some lines)) ∧
      histogram_lines c percentile = .ok lines ∧
      range_max c.exectimes
        (percentile_idx (binary32 ((percentile : ℚ) / 100)) c.exectimes.length) = some mx ∧
      range_min c.exectimes
        (percentile_idx (binary32 ((percentile : ℚ) / 100)) c.exectimes.length) = some mn ∧
      mn ≤ mx ∧
      1 ≤ bin_count (mx - mn) ∧ bin_count (mx - mn) ≤ 100 ∧
      (mx - mn = 0 → bin_count (mx - mn) = 1) ∧
      (0 < mx - mn → mx - mn < 100 → bin_count (mx - mn) = mx - mn) ∧
      (∀ val ∈ c.exectimes.take
          (percentile_idx (binary32 ((percentile : ℚ) / 100)) c.exectimes.length),
        mn ≤ val ∧ val ≤ mx ∧
        (val - mn) / ((mx - mn) / bin_count (mx - mn) + 1) < bin_count (mx - mn) + 1) ∧
      lines.length = bin_count (mx - mn) + 1 ∧
      (lines.map (fun line => line.2)).sum =
        percentile_idx (binary32 ((percentile : ℚ) / 100)) c.exectimes.length := by
  obtain ⟨mx, mn, lines, hlines, hrest⟩ := histogram_lines_binning c percentile hn hlen h64
  refine ⟨mx, mn, lines, ?_, hlines, hrest⟩
  unfold export_call_data_histogram
  rw [hlines]
  split_ifs
  · exact Or.inl rfl
  · exact Or.inl rfl
  · exact Or.inl rfl
  · exact Or.inl rfl
  · exact Or.inr rfl

theorem histogram_binning_witness :
    histogram_lines scenarioD_analyzed 100 =
      .ok [(1, 2), (3, 2), (5, 2), (7, 2), (9, 1), (11, 0), (13, 0), (15, 0), (17, 0)] ∧
    export_call_data_histogram { default_config with call_data_filename := ['d'] } true
      scenarioD_analyzed 100 =
      .ok (some [(1, 2), (3, 2), (5, 2), (7, 2), (9, 1), (11, 0), (13, 0), (15, 0), (17, 0)]) ∧
    ∃ (mx mn : Nat) (lines : List (Nat × Nat)),
      histogram_lines scenarioD_analyzed 100 = .ok lines ∧
      mn ≤ mx ∧ 1 ≤ bin_count (mx - mn) ∧ bin_count (mx - mn) ≤ 100 ∧
      lines.length = bin_count (mx - mn) + 1 ∧
      (lines.map (fun line => line.2)).sum =
        percentile_idx (binary32 ((100 : ℚ) / 100)) scenarioD_analyzed.exectimes.length :=
  ⟨by decide!, by decide!,
   (histogram_binning default_config true scenarioD_analyzed 100 (by decide!) (by decide!)
     (by decide!)).imp (fun _ h1 => h1.imp (fun _ h2 => h2.imp (fun _ hx =>
       ⟨hx.2.1, hx.2.2.2.2.1, hx.2.2.2.2.2.1, hx.2.2.2.2.2.2.1,
        hx.2.2.2.2.2.2.2.2.2.2.1, by simpa using hx.2.2.2.2.2.2.2.2.2.2.2⟩)))⟩

/-! ## The exported graph -/

theorem dot_edges_spec (s : analyzer_state) (set : List Nat) (child : call_data_t)
    (dashed : Bool) (eid : Nat) (kind : call_type_t)
    (look : call_data_t → Option parent_call_data_t) :
    ∀ (tab : List parent_call_data_t) (parents : List call_data_t) (j : Nat),
      tab.length = parents.length →
      (∀ (i : Nat) (e : parent_call_data_t), tab[i]? = some e →
        entry_names_key eid kind (j + i) e) →
      (∀ i, i < parents.length → s.site ⟨eid, kind, j + i⟩ = parents[i]?) →
      (∀ (i : Nat) (p : call_data_t), parents[i]? = some p → look p = tab[i]?) →
      dot_edges s set child dashed tab =
        .ok (parents.filterMap (fun p => edge_of set child dashed p (look p))) := by
  intro tab
  induction tab with
  | nil =>
    intro parents j hlen _ _ _
    cases parents with
    | nil => rfl
    | cons p ps => simp at hlen
  | cons e rest ih =>
    intro parents j hlen hkey hsite hlook
    cases parents with
    | nil => simp at hlen
    | cons p ps =>
      have hlen1 : rest.length = ps.length := by simpa using hlen
      have hrest := ih ps (j + 1) hlen1
        (fun i e1 he1 => by
          have := hkey (i + 1) e1 (by simpa using he1)
          rwa [show j + (i + 1) = j + 1 + i by omega] at this)
        (fun i hi => by
          have := hsite (i + 1) (by simp; omega)
          rw [show j + (i + 1) = j + 1 + i by omega] at this
          simpa using this)
        (fun i q hq => by
          have := hlook (i + 1) q (by simpa using hq)
          simpa using this)
      have hp : look p = some e := by
        have := hlook 0 p (by simp)
        simpa using this
      have hs : s.site ⟨eid, kind, j⟩ = some p := by
        have := hsite 0 (by simp)
        simpa using this
      rw [List.filterMap_cons, hp]
      rcases hkey 0 e (by simp) with ⟨h0, hnone⟩ | ⟨h1, hsome⟩
      · have hedge : edge_of set child dashed p (some e) = none := by
          simp [edge_of, h0]
        rw [hedge]
        unfold dot_edges
        rw [hnone]
        simp only [skip_call, if_true]
        exact hrest
      · unfold dot_edges
        rw [hsome]
        simp only [Nat.add_zero, hs]
        by_cases hskip : skip_call (some p) set = true
        · have hedge : edge_of set child dashed p (some e) = none := by
            simp [edge_of, passes, hskip]
          rw [hedge, if_pos hskip]
          exact hrest
        · have hedge : edge_of set child dashed p (some e) =
              some (.edge p.name child.name e.count dashed) := by
            simp [edge_of, passes, hskip, h1]
          rw [hedge, if_neg hskip, hrest]

theorem dot_edges_table (s : analyzer_state) (set : List Nat) (child : call_data_t)
    (dashed : Bool) (eid : Nat) (kind : call_type_t)
    (tab : List parent_call_data_t) (parents : List call_data_t)
    (hlen : tab.length = parents.length)
    (hkey : ∀ (i : Nat) (e : parent_call_data_t), tab[i]? = some e →
      entry_names_key eid kind i e)
    (hsite : ∀ i, s.site ⟨eid, kind, i⟩ = parents[i]?)
    (hid : ∀ (i : Nat) (p : call_data_t), parents[i]? = some p → p.call_id = i) :
    dot_edges s set child dashed tab = .ok (spec_edges parents set child dashed tab) := by
  unfold spec_edges
  refine dot_edges_spec s set child dashed eid kind (fun p => tab[p.call_id]?) tab parents 0
    hlen ?_ ?_ ?_
  · intro i e he
    rw [Nat.zero_add]
    exact hkey i e he
  · intro i _
    rw [Nat.zero_add]
    exact hsite i
  · intro i p hp
    simp only [hid i p hp]

theorem site_ecall (s : analyzer_state) (eid i : Nat) :
    s.site ⟨eid, .ECALL, i⟩ = (s.encls eid).ecalls[i]? := rfl

theorem site_ocall (s : analyzer_state) (eid i : Nat) :
    s.site ⟨eid, .OCALL, i⟩ = (s.encls eid).ocalls[i]? := rfl

theorem dot_site_spec (s : analyzer_state) (eid : Nat) (kind : call_type_t)
    (same other : List call_data_t) (own others : List Nat) (box : Bool)
    (hsame : ∀ i, s.site ⟨eid, kind, i⟩ = same[i]?)
    (hother : ∀ i, s.site ⟨eid, other_kind kind, i⟩ = other[i]?)
    (h1 : drawable_sites eid kind same other)
    (h2 : drawable_sites eid (other_kind kind) other same)
    (c : call_data_t) (hc : c ∈ same) :
    dot_site s own others box c = .ok (spec_site same other own others box c) := by
  obtain ⟨k, hk⟩ := List.getElem?_of_mem hc
  obtain ⟨_, hd, hi, hdk, hik⟩ := h1 k c hk
  have e1 := dot_edges_table s own c true eid kind c.indirect_parents_data same hi hik hsame
    (fun i p hp => (h1 i p hp).1)
  have e2 := dot_edges_table s others c false eid (other_kind kind) c.direct_parents_data
    other hd hdk hother (fun i p hp => (h2 i p hp).1)
  unfold dot_site spec_site
  by_cases hskip : skip_call (some c) own = true
  · simp [passes, hskip]
  · simp [passes, hskip, e1, e2]

theorem dot_sites_spec (s : analyzer_state) (own others : List Nat) (box : Bool)
    (f : call_data_t → List dot_line) :
    ∀ (l : List call_data_t), (∀ c ∈ l, dot_site s own others box c = .ok (f c)) →
      dot_sites s own others box l = .ok ((l.map f).flatten) := by
  intro l
  induction l with
  | nil => intro _; rfl
  | cons c cs ih =>
    intro h
    unfold dot_sites
    rw [h c (by simp), ih (fun d hd => h d (by simp [hd]))]
    simp

/-- For an enclave whose tables can be drawn, `dot_graph` returns the graph the
specification describes. -/
theorem graph_of_drawable (cfg : config_t) (s : analyzer_state) (eid : Nat)
    (h : drawable s eid) :
    dot_graph cfg s eid = .ok (graph_spec cfg (s.encls eid) eid) := by
  obtain ⟨he, ho⟩ := h
  have r1 := dot_sites_spec s cfg.ecall_set cfg.ocall_set true
    (spec_site (s.encls eid).ecalls (s.encls eid).ocalls cfg.ecall_set cfg.ocall_set true)
    (s.encls eid).ecalls
    (fun c hc => dot_site_spec s eid .ECALL _ _ _ _ true (site_ecall s eid) (site_ocall s eid)
      he ho c hc)
  have r2 := dot_sites_spec s cfg.ocall_set cfg.ecall_set false
    (spec_site (s.encls eid).ocalls (s.encls eid).ecalls cfg.ocall_set cfg.ecall_set false)
    (s.encls eid).ocalls
    (fun c hc => dot_site_spec s eid .OCALL _ _ _ _ false (site_ocall s eid) (site_ecall s eid)
      ho he c hc)
  unfold dot_graph graph_spec
  rw [r1, r2]

theorem call_data_step_isSome (s s1 : analyzer_state) (r : call_row) (oo : Option observation)
    (h : call_data_step s r = .ok (s1, oo)) (ref : call_ref) :
    (s1.site ref).isSome = (s.site ref).isSome := by
  unfold call_data_step at h
  by_cases h15 : r.type = 15
  · rw [if_pos h15] at h
    cases hb : ecall_branch s r with
    | error f => rw [hb] at h; cases h
    | ok res =>
      obtain ⟨s1', o⟩ := res
      rw [hb] at h
      simp only [Except.ok.injEq, Prod.mk.injEq] at h
      obtain ⟨hs, _⟩ := h
      subst hs
      obtain ⟨thiz, out, hsite, _, _, hall, _⟩ := ecall_branch_effect s s1' r o hb
      rw [hall]
      by_cases hr : ref = ⟨r.eid, .ECALL, r.id⟩
      · rw [if_pos hr, hr, hsite]; rfl
      · rw [if_neg hr]
  · rw [if_neg h15] at h
    by_cases h17 : r.type = 17
    · rw [if_pos h17] at h
      cases hb : ocall_branch s r with
      | error f => rw [hb] at h; cases h
      | ok res =>
        obtain ⟨s1', o⟩ := res
        rw [hb] at h
        simp only [Except.ok.injEq, Prod.mk.injEq] at h
        obtain ⟨hs, _⟩ := h
        subst hs
        obtain ⟨thiz, out, hsite, _, _, hall, _⟩ := ocall_branch_effect s s1' r o hb
        rw [hall]
        by_cases hr : ref = ⟨r.eid, .OCALL, r.id⟩
        · rw [if_pos hr, hr, hsite]; rfl
        · rw [if_neg hr]
    · rw [if_neg h17] at h
      simp only [Except.ok.injEq, Prod.mk.injEq] at h
      rw [← h.1]

theorem process_rows_isSome (ref : call_ref) :
    ∀ (rows : List call_row) (s s1 : analyzer_state) (os : List observation),
      process_rows s rows = .ok (s1, os) → (s1.site ref).isSome = (s.site ref).isSome := by
  intro rows
  induction rows with
  | nil =>
    intro s s1 os h
    simp only [process_rows, Except.ok.injEq, Prod.mk.injEq] at h
    rw [← h.1]
  | cons r rs ih =>
    intro s s2 os h
    rw [process_rows] at h
    cases h1 : call_data_step s r with
    | error f => rw [h1] at h; cases h
    | ok res1 =>
      obtain ⟨s1, oo⟩ := res1
      rw [h1] at h
      simp only [] at h
      cases h2 : process_rows s1 rs with
      | error f => rw [h2] at h; cases h
      | ok res2 =>
        obtain ⟨s3, os2⟩ := res2
        rw [h2] at h
        simp only [Except.ok.injEq, Prod.mk.injEq] at h
        obtain ⟨hs, _⟩ := h
        subst hs
        rw [ih s1 s3 os2 h2, call_data_step_isSome s s1 r oo h1 ref]

theorem analyze_sites_length (fsqrt : Nat → Nat) :
    ∀ (l l1 : List call_data_t), analyze_sites fsqrt l = .ok l1 → l1.length = l.length := by
  intro l
  induction l with
  | nil =>
    intro l1 h
    simp only [analyze_sites, Except.ok.injEq] at h
    rw [← h]
  | cons d ds ih =>
    intro l1 h
    unfold analyze_sites at h
    cases h1 : analyze_call fsqrt d with
    | error f => rw [h1] at h; cases h
    | ok d1 =>
      rw [h1] at h
      simp only [] at h
      cases h2 : analyze_sites fsqrt ds with
      | error f => rw [h2] at h; cases h
      | ok ds1 =>
        rw [h2] at h
        simp only [Except.ok.injEq] at h
        subst h
        simp [ih ds1 h2]

theorem aggregate_lengths (fsqrt : Nat → Nat) (s s2 : analyzer_state) (eid : Nat)
    (h : aggregate fsqrt s eid = .ok s2) :
    (s2.encls eid).ecalls.length = (s.encls eid).ecalls.length ∧
    (s2.encls eid).ocalls.length = (s.encls eid).ocalls.length := by
  unfold aggregate analyze_enclave at h
  cases h1 : analyze_sites fsqrt (s.encls eid).ecalls with
  | error f => rw [h1] at h; cases h
  | ok l1 =>
    rw [h1] at h
    simp only [] at h
    cases h2 : analyze_sites fsqrt (s.encls eid).ocalls with
    | error f => rw [h2] at h; cases h
    | ok l2 =>
      rw [h2] at h
      simp only [Except.ok.injEq] at h
      subst h
      simp only [map_set, if_true, sort_enclave]
      exact ⟨analyze_sites_length fsqrt _ _ h1, analyze_sites_length fsqrt _ _ h2⟩

theorem length_eq_of_isSome {α : Type} (l l1 : List α)
    (h : ∀ i : Nat, (l1[i]?).isSome = (l[i]?).isSome) : l1.length = l.length := by
  apply le_antisymm
  · by_contra hlt
    have hlt1 : l.length < l1.length := by omega
    have := h l.length
    rw [List.getElem?_eq_getElem hlt1, List.getElem?_eq_none (le_refl _)] at this
    cases this
  · by_contra hlt
    have hlt1 : l1.length < l.length := by omega
    have := h l1.length
    rw [List.getElem?_eq_getElem hlt1, List.getElem?_eq_none (le_refl _)] at this
    cases this

theorem process_rows_lengths (rows : List call_row) (s s1 : analyzer_state)
    (os : List observation) (h : process_rows s rows = .ok (s1, os)) (eid : Nat) :
    (s1.encls eid).ecalls.length = (s.encls eid).ecalls.length ∧
    (s1.encls eid).ocalls.length = (s.encls eid).ocalls.length :=
  ⟨length_eq_of_isSome _ _ (fun i => process_rows_isSome ⟨eid, .ECALL, i⟩ rows s s1 os h),
   length_eq_of_isSome _ _ (fun i => process_rows_isSome ⟨eid, .OCALL, i⟩ rows s s1 os h)⟩

theorem aggregate_isSome (fsqrt : Nat → Nat) (s s2 : analyzer_state) (ref : call_ref)
    (h : aggregate fsqrt s ref.eid = .ok s2) :
    (s2.site ref).isSome = (s.site ref).isSome := by
  obtain ⟨h1, h2⟩ := aggregate_lengths fsqrt s s2 ref.eid h
  obtain ⟨eid, ty, idx⟩ := ref
  simp only [] at h1 h2
  cases ty with
  | UNDEF => rfl
  | ECALL =>
    simp only [analyzer_state.site]
    by_cases hi : idx < (s.encls eid).ecalls.length
    · rw [List.getElem?_eq_getElem (by omega), List.getElem?_eq_getElem (by omega)]
      rfl
    · rw [List.getElem?_eq_none (by omega), List.getElem?_eq_none (by omega)]
  | OCALL =>
    simp only [analyzer_state.site]
    by_cases hi : idx < (s.encls eid).ocalls.length
    · rw [List.getElem?_eq_getElem (by omega), List.getElem?_eq_getElem (by omega)]
      rfl
    · rw [List.getElem?_eq_none (by omega), List.getElem?_eq_none (by omega)]

theorem counted_names_key (tab tab1 : List parent_call_data_t) (n : Nat → Nat)
    (eid : Nat) (kind : call_type_t) (m : Nat)
    (h0 : tab = List.replicate m {}) (hlen : tab1.length = tab.length)
    (h : table_counted tab tab1 n (fun k => ⟨eid, kind, k⟩)) :
    ∀ (i : Nat) (e : parent_call_data_t), tab1[i]? = some e → entry_names_key eid kind i e := by
  intro i e he
  have hi : i < m := by
    have := (List.getElem?_eq_some.1 he).1
    rw [hlen, h0, List.length_replicate] at this
    exact this
  have h0i : tab[i]? = some {} := by
    rw [h0, List.getElem?_replicate_of_lt hi]
  obtain ⟨e1, he1, hcount, hsome, hsame⟩ := h i {} h0i
  rw [he] at he1
  cases he1
  by_cases hn : n i = 0
  · left
    rw [hsame hn]
    exact ⟨rfl, rfl⟩
  · right
    refine ⟨?_, hsome hn⟩
    rw [hcount]
    show 0 + n i ≠ 0
    omega

theorem site_drawable (fsqrt : Nat → Nat) (s0 s1 s2 : analyzer_state) (rows : List call_row)
    (os : List observation) (ref : call_ref)
    (hrows : process_rows s0 rows = .ok (s1, os))
    (hagg : aggregate fsqrt s1 ref.eid = .ok s2)
    (nsame nother : Nat)
    (hload : ∀ c0, s0.site ref = some c0 → c0.call_id = ref.idx ∧
      c0.direct_parents_data = List.replicate nother {} ∧
      c0.indirect_parents_data = List.replicate nsame {})
    (c2 : call_data_t) (h2 : s2.site ref = some c2) :
    c2.call_id = ref.idx ∧
    c2.direct_parents_data.length = nother ∧
    c2.indirect_parents_data.length = nsame ∧
    (∀ (i : Nat) (e : parent_call_data_t), c2.direct_parents_data[i]? = some e →
      entry_names_key ref.eid (other_kind ref.type) i e) ∧
    (∀ (i : Nat) (e : parent_call_data_t), c2.indirect_parents_data[i]? = some e →
      entry_names_key ref.eid ref.type i e) := by
  have hs0 : (s0.site ref).isSome = true := by
    rw [← process_rows_isSome ref rows s0 s1 os hrows, ← aggregate_isSome fsqrt s1 s2 ref hagg,
      h2]
    rfl
  obtain ⟨c0, hc0⟩ := Option.isSome_iff_exists.1 hs0
  obtain ⟨hid0, hd0, hi0⟩ := hload c0 hc0
  obtain ⟨c1, hc1, hdir, hind⟩ := tables_after_rows ref rows s0 s1 os c0 hrows hc0
  obtain ⟨c1a, hc1a, gdir, gind, _⟩ := tables_grow_after_rows ref rows s0 s1 os c0 hrows hc0
  rw [hc1] at hc1a
  cases hc1a
  obtain ⟨c1b, hc1b, _, kid, _⟩ := process_rows_kind ref rows s0 s1 os c0 hrows hc0
  rw [hc1] at hc1b
  cases hc1b
  obtain ⟨c2a, hc2a, han⟩ := aggregate_site fsqrt s1 s2 ref c1 hagg hc1
  rw [h2] at hc2a
  cases hc2a
  obtain ⟨c2b, han2, _, _, _, _, td, ti, _⟩ := analyze_call_ok fsqrt c1
  rw [han] at han2
  cases han2
  obtain ⟨_, kid2, _⟩ := analyze_call_kind fsqrt c1 c2 han
  refine ⟨by rw [kid2, kid, hid0], ?_, ?_, ?_, ?_⟩
  · rw [td, gdir.1, hd0, List.length_replicate]
  · rw [ti, gind.1, hi0, List.length_replicate]
  · rw [td]
    exact counted_names_key _ _ _ _ _ nother hd0 gdir.1 hdir
  · rw [ti]
    exact counted_names_key _ _ _ _ _ nsame hi0 gind.1 hind

theorem loaded_sites_getElem (same other : List call_data_t) (h : loaded_sites same other)
    (k : Nat) (c : call_data_t) (hc : same[k]? = some c) :
    c.call_id = k ∧ c.direct_parents_data = List.replicate other.length {} ∧
    c.indirect_parents_data = List.replicate same.length {} :=
  h (k, c) (List.mk_mem_enum_iff_getElem?.2 hc)

/-- After reconstruction and aggregation of an enclave that was loaded as `analyze_calls`
loads it, the relation tables of the enclave can be drawn. -/
theorem drawable_after_reconstruction (fsqrt : Nat → Nat) (s0 s1 s2 : analyzer_state)
    (rows : List call_row) (os : List observation) (eid : Nat)
    (hload : loaded_enclave (s0.encls eid))
    (hrows : process_rows s0 rows = .ok (s1, os))
    (hagg : aggregate fsqrt s1 eid = .ok s2) : drawable s2 eid := by
  obtain ⟨le1, lo1⟩ := process_rows_lengths rows s0 s1 os hrows eid
  obtain ⟨le2, lo2⟩ := aggregate_lengths fsqrt s1 s2 eid hagg
  constructor
  · intro k c hc
    have := site_drawable fsqrt s0 s1 s2 rows os ⟨eid, .ECALL, k⟩ hrows hagg
      (s0.encls eid).ecalls.length (s0.encls eid).ocalls.length
      (fun c0 h0 => loaded_sites_getElem _ _ hload.1 k c0 h0) c hc
    rw [le2, le1, lo2, lo1]
    exact this
  · intro k c hc
    have := site_drawable fsqrt s0 s1 s2 rows os ⟨eid, .OCALL, k⟩ hrows hagg
      (s0.encls eid).ocalls.length (s0.encls eid).ecalls.length
      (fun c0 h0 => loaded_sites_getElem _ _ hload.2 k c0 h0) c hc
    rw [le2, le1, lo2, lo1]
    exact this

/-- Claim C22: for an enclave loaded as `analyze_calls` loads it (dense site ids,
zeroed relation tables), after any rows that reconstruct without a fault and after the
aggregation, `dot_graph` returns the graph of the specification: between the opening and
the closing line, for every site in registry order that passes `skip_call` with the
inclusion set of its kind exactly one node line, followed by one dashed edge from every
passing site of the same kind whose id keys an indirect entry of non-zero count and one
solid edge from every passing site of the other kind whose id keys a direct entry of
non-zero count, each labelled with that count, and nothing else. -/
theorem graph_export (fsqrt : Nat → Nat) (cfg : config_t) (s0 s1 s2 : analyzer_state)
    (rows : List call_row) (os : List observation) (eid : Nat)
    (hload : loaded_enclave (s0.encls eid))
    (hrows : process_rows s0 rows = .ok (s1, os))
    (hagg : aggregate fsqrt s1 eid = .ok s2) :
    dot_graph cfg s2 eid = .ok (graph_spec cfg (s2.encls eid) eid) :=
  graph_of_drawable cfg s2 eid
    (drawable_after_reconstruction fsqrt s0 s1 s2 rows os eid hload hrows hagg)

theorem graph_export_witness :
    loaded_enclave (scenarioA_state.encls 0) ∧
    dot_graph default_config scenarioA_report_state 0 =
      .ok (graph_spec default_config (scenarioA_report_state.encls 0) 0) ∧
    graph_spec default_config (scenarioA_report_state.encls 0) 0 =
      [.open_graph 0, .node "ecall_A" 0 true, .node "ecall_C" 1 true,
       .edge "ocall_B" "ecall_C" 1 false, .node "ocall_B" 0 false,
       .edge "ecall_A" "ocall_B" 1 false, .close_graph] ∧
    graph_spec { default_config with ecall_set := [0] } (scenarioA_report_state.encls 0) 0 =
      [.open_graph 0, .node "ecall_A" 0 true, .node "ocall_B" 0 false,
       .edge "ecall_A" "ocall_B" 1 false, .close_graph] :=
  ⟨by decide,
   graph_export Nat.sqrt default_config scenarioA_state
     (rows_out scenarioA_state scenarioA_rows).1 scenarioA_report_state scenarioA_rows
     (rows_out scenarioA_state scenarioA_rows).2 0 (by decide) (by rfl)
     (by
       obtain ⟨s2, h⟩ := aggregate_ok Nat.sqrt (rows_out scenarioA_state scenarioA_rows).1 0
       show _ = Except.ok (result_or
         (aggregate Nat.sqrt (rows_out scenarioA_state scenarioA_rows).1 0)
         (rows_out scenarioA_state scenarioA_rows).1)
       rw [h]
       rfl),
   by decide!, by decide!⟩

/-! ## The options g and p -/

theorem find_char_none (delim : Char) (s : List Char) (h : delim ∉ s) :
    find_char delim s = none := by
  induction s with
  | nil => rfl
  | cons ch rest ih =>
    have h1 : ch ≠ delim := fun hh => h (by simp [hh])
    have h2 : delim ∉ rest := fun hh => h (by simp [hh])
    simp [find_char, h1, ih h2]

theorem find_char_append (delim : Char) (t s : List Char) (h : delim ∉ t) :
    find_char delim (t ++ delim :: s) = some t.length := by
  induction t with
  | nil => simp [find_char]
  | cons ch rest ih =>
    have h1 : ch ≠ delim := fun hh => h (by simp [hh])
    have h2 : delim ∉ rest := fun hh => h (by simp [hh])
    simp [find_char, h1, ih h2]

theorem find_char_lt (delim : Char) (s : List Char) (pos : Nat)
    (h : find_char delim s = some pos) : pos < s.length := by
  induction s generalizing pos with
  | nil => simp [find_char] at h
  | cons ch rest ih =>
    unfold find_char at h
    split_ifs at h with hc
    · simp only [Option.some.injEq] at h
      subst h
      simp
    · cases hr : find_char delim rest with
      | none => rw [hr] at h; simp at h
      | some q =>
        rw [hr] at h
        simp only [Option.map_some', Option.some.injEq] at h
        subst h
        have := ih q hr
        simp
        omega

theorem option_g_loop_fuel :
    ∀ (fuel1 fuel2 : Nat) (cfg : config_t) (s : List Char),
      s.length < fuel1 → s.length < fuel2 →
      option_g_loop fuel1 cfg s = option_g_loop fuel2 cfg s := by
  intro fuel1
  induction fuel1 with
  | zero => intro fuel2 cfg s h; omega
  | succ f ih =>
    intro fuel2 cfg s h1 h2
    cases fuel2 with
    | zero => omega
    | succ g =>
      unfold option_g_loop
      cases hp : find_char ',' s with
      | none => rfl
      | some pos =>
        have hlt := find_char_lt ',' s pos hp
        simp only []
        apply ih
        · rw [List.length_drop]; omega
        · rw [List.length_drop]; omega

theorem option_g_no_comma (cfg : config_t) (s : List Char) (h : ',' ∉ s) :
    option_g cfg s = cfg := by
  unfold option_g option_g_loop
  rw [find_char_none ',' s h]

theorem option_g_token (cfg : config_t) (t s : List Char) (h : ',' ∉ t) :
    option_g cfg (t ++ ',' :: s) = option_g (select_token cfg t) s := by
  unfold option_g
  rw [option_g_loop]
  rw [find_char_append ',' t s h]
  have h1 : (t ++ ',' :: s).take t.length = t := by simp
  have h2 : (t ++ ',' :: s).drop (t.length + 1) = s := by
    rw [← List.drop_drop]
    simp
  simp only [h1, h2]
  apply option_g_loop_fuel
  · simp; omega
  · omega

theorem mem_set_insert (id x : Nat) (set : List Nat) :
    id ∈ set_insert x set ↔ id = x ∨ id ∈ set := by
  unfold set_insert
  split_ifs with h
  · constructor
    · intro hh; exact Or.inr hh
    · rintro (hh | hh)
      · rw [hh]; exact h
      · exact hh
  · simp [List.mem_orderedInsert]

/-- Claim C25, counterexample: for the list `e1,e19,e54` the `-g` option puts 1 and 19 into
`ecall_set` and not 54, the id of the last token; the ids that the list names with the
letter `e` are 1, 19 and 54.  A list of one id selects nothing. -/
theorem last_id_not_selected :
    (option_g default_config "e1,e19,e54".toList).ecall_set = [1, 19] ∧
    requested_ids 'e' "e1,e19,e54".toList = [1, 19, 54] ∧
    ¬ (∀ id ∈ requested_ids 'e' "e1,e19,e54".toList,
        id ∈ (option_g default_config "e1,e19,e54".toList).ecall_set) ∧
    (option_g default_config "e5".toList).ecall_set = [] ∧
    requested_ids 'e' "e5".toList = [5] ∧
    (option_g default_config "o7,e2,o3".toList).ocall_set = [7] ∧
    requested_ids 'o' "o7,e2,o3".toList = [7, 3] := by
  decide

/-- Claim C25, amended: the `-g` option handles, from left to right, exactly the tokens that
a comma ends.  A text without a comma leaves the configuration as it is; a first token `t`
followed by a comma is handled by `select_token` and the text after that comma is parsed
the same way.  A token that starts with `e` has the number after the letter inserted into
`ecall_set`, one that starts with `o` into `ocall_set`, any other token changes nothing;
inserting adds the number to the members of the set. -/
theorem comma_terminated_ids_selected (cfg : config_t) (t s : List Char) (ht : ',' ∉ t) :
    option_g cfg t = cfg ∧
    option_g cfg (t ++ ',' :: s) = option_g (select_token cfg t) s ∧
    (t.head? = some 'e' →
      (select_token cfg t).ecall_set = set_insert (strtoul (t.drop 1)) cfg.ecall_set ∧
      (select_token cfg t).ocall_set = cfg.ocall_set) ∧
    (t.head? = some 'o' →
      (select_token cfg t).ocall_set = set_insert (strtoul (t.drop 1)) cfg.ocall_set ∧
      (select_token cfg t).ecall_set = cfg.ecall_set) ∧
    (t.head? ≠ some 'e' → t.head? ≠ some 'o' → select_token cfg t = cfg) ∧
    (∀ id x : Nat, ∀ set : List Nat, id ∈ set_insert x set ↔ id = x ∨ id ∈ set) := by
  refine ⟨option_g_no_comma cfg t ht, option_g_token cfg t s ht, ?_, ?_, ?_, mem_set_insert⟩
  · intro h
    have h2 : t.head? ≠ some 'o' := by rw [h]; decide
    simp [select_token, h]
  · intro h
    have h2 : t.head? ≠ some 'e' := by rw [h]; decide
    simp [select_token, h]
  · intro h1 h2
    simp [select_token, h1, h2]

theorem comma_terminated_ids_selected_witness :
    (option_g default_config "e1,e19,e54,".toList).ecall_set = [1, 19, 54] ∧
    option_g default_config ("e1".toList ++ ',' :: "e19,e54,".toList) =
      option_g (select_token default_config "e1".toList) "e19,e54,".toList ∧
    (select_token default_config "e1".toList).ecall_set = [1] ∧
    option_g default_config "e1".toList = default_config :=
  ⟨by decide,
   (comma_terminated_ids_selected default_config "e1".toList "e19,e54,".toList
     (by decide)).2.1,
   by decide,
   (comma_terminated_ids_selected default_config "e1".toList [] (by decide)).1⟩

theorem option_p_first_letter (cfg : config_t) (s : List Char) (h : 'c' ∈ s) :
    (option_p cfg s).phases = { calls := true, sync := false, sec := false } := by
  simp [option_p, h]

/-- Claim C26 at its failing input, the phases string `cs`: the `-p` option enables the
call analysis only, although the string asks for the synchronisation analysis as well.
The string `csi`, which the usage text gives as the default with all three phases enabled,
enables the call analysis only; `si` enables the synchronisation analysis only.  For the
strings of one letter the phases enabled are the phases asked for. -/
theorem phases_after_first_letter_ignored :
    (option_p default_config "cs".toList).phases =
      { calls := true, sync := false, sec := false } ∧
    requested_phases "cs".toList = { calls := true, sync := true, sec := false } ∧
    default_config.phases = { calls := true, sync := true, sec := true } ∧
    requested_phases "csi".toList = default_config.phases ∧
    (option_p default_config "csi".toList).phases =
      { calls := true, sync := false, sec := false } ∧
    (option_p default_config "si".toList).phases =
      { calls := false, sync := true, sec := false } ∧
    requested_phases "si".toList = { calls := true, sync := true, sec := true } ∧
    (option_p default_config "c".toList).phases = requested_phases "c".toList ∧
    (option_p default_config "s".toList).phases = requested_phases "s".toList ∧
    (option_p default_config "i".toList).phases = requested_phases "i".toList := by
  decide

/-! ## The indirect-parent walk below slot 0 -/

theorem indirect_walk_bounded (calls : List single_call_data_t) (kind other : call_type_t)
    (parent : Option Nat)
    (hty : ∀ (j : Nat) (c : single_call_data_t), calls[j]? = some c →
      c.type = kind ∨ c.type = other)
    (hpar : parents_below calls) :
    ∀ (fuel : Nat) (i : Int), i < (calls.length : Int) →
      ((0 ≤ i ∧ i < (fuel : Int)) ∨ (i = -1 ∧ 1 ≤ fuel)) →
      (∃ res, indirect_walk calls kind other parent fuel (some i) = .ok res) ∨
      (indirect_walk calls kind other parent fuel (some i) = .error .out_of_bounds ∧
        parent = none) := by
  intro fuel
  induction fuel with
  | zero =>
    intro i _ hi
    exfalso
    omega
  | succ f ih =>
    intro i hlen hi
    unfold indirect_walk
    by_cases hgt : ptr_gt i parent = true
    · rw [if_pos hgt]
      rcases hi with ⟨h0, hlt⟩ | ⟨hneg, _⟩
      · have hi' : i.toNat < calls.length := by omega
        have hread : read_slot calls i = some calls[i.toNat] := by
          unfold read_slot
          rw [if_pos h0, List.getElem?_eq_getElem hi']
        rw [hread]
        simp only []
        have hget : calls[i.toNat]? = some calls[i.toNat] := List.getElem?_eq_getElem hi'
        by_cases hk : calls[i.toNat].type = kind
        · rw [if_pos hk]
          by_cases hp : calls[i.toNat].parent = parent
          · rw [if_pos hp]
            exact Or.inl ⟨_, rfl⟩
          · rw [if_neg hp]
            cases hq : calls[i.toNat].parent with
            | none => 
              simp only []
              left
              exact ⟨none, indirect_walk_none _ _ _ _ _⟩
            | some q =>
              simp only []
              have hql := hpar i.toNat _ q hget hq
              apply ih
              · omega
              · by_cases hq0 : q = 0
                · right
                  subst hq0
                  exact ⟨by simp, by omega⟩
                · left
                  omega
        · rw [if_neg hk]
          have hoth : calls[i.toNat].type = other := by
            rcases hty i.toNat _ hget with h | h
            · exact absurd h hk
            · exact h
          rw [if_pos hoth]
          cases hq : calls[i.toNat].parent with
          | none =>
            simp only []
            left
            exact ⟨none, indirect_walk_none _ _ _ _ _⟩
          | some q =>
            simp only []
            have hql := hpar i.toNat _ q hget hq
            apply ih
            · omega
            · left
              omega
      · subst hneg
        have hread : read_slot calls (-1) = none := by
          unfold read_slot
          simp
        rw [hread]
        right
        refine ⟨rfl, ?_⟩
        cases parent with
        | none => rfl
        | some p =>
          exfalso
          simp [ptr_gt] at hgt
          omega
    · rw [if_neg hgt]
      exact Or.inl ⟨_, rfl⟩

theorem find_indirect_parent_bounded (t : thread_t) (kind other : call_type_t)
    (parent : Option Nat)
    (hty : ∀ (j : Nat) (c : single_call_data_t), t.calls[j]? = some c →
      c.type = kind ∨ c.type = other)
    (hpar : parents_below t.calls) :
    (∃ res, find_indirect_parent t kind other parent = .ok res) ∨
    (find_indirect_parent t kind other parent = .error .out_of_bounds ∧ parent = none) := by
  unfold find_indirect_parent
  by_cases h0 : t.next_call_index ≠ 0
  · rw [if_pos h0]
    have hn : t.next_call_index = t.calls.length := rfl
    apply indirect_walk_bounded t.calls kind other parent hty hpar
    · rw [hn]; omega
    · left
      omega
  · rw [if_neg h0]
    exact Or.inl ⟨_, rfl⟩

/-- Claim C29 at its failing input: a new record without parent whose walk
meets a record of the new record's kind whose parent is slot 0.  Here slot 0 holds a
parentless out-of-boundary call and slot 1 an into-boundary call made from it; every
parent reference points to a lower slot.  For the parentless into-boundary row that
follows, the walk starts at slot 1, steps to `c->parent - 1`, the address before the array,
finds `c != nullptr` and `c > scd.parent` (null), and reads `c->type` there: the loop
neither matches nor stops when it runs out of records. -/
theorem walk_reads_before_first_slot :
    parentless_first_thread.calls.map (fun c => (c.type, c.parent)) =
      [(.OCALL, none), (.ECALL, some 0)] ∧
    parentless_first_thread.next_call_index = 2 ∧
    (∀ (j : Nat) (c : single_call_data_t) (q : Nat),
      parentless_first_thread.calls[j]? = some c → c.parent = some q → q < j) ∧
    indirect_walk parentless_first_thread.calls .ECALL .OCALL none 1 (some (-1)) =
      .error .out_of_bounds ∧
    find_indirect_parent parentless_first_thread .ECALL .OCALL none =
      .error .out_of_bounds ∧
    failure_of (process_rows scenarioA_state (parentless_first_rows.take 2)) = none ∧
    failure_of (process_rows scenarioA_state parentless_first_rows) =
      some .out_of_bounds := by
  refine ⟨by decide, by decide, ?_, by decide, by decide, by decide, by decide⟩
  intro j c q hc hq
  have hcalls : parentless_first_thread.calls.map (fun c => c.parent) = [none, some 0] := by
    decide
  have hlen : parentless_first_thread.calls.length = 2 := by decide
  have hj : j < 2 := by
    by_contra hcon
    rw [List.getElem?_eq_none (by omega)] at hc
    cases hc
  have hm : (parentless_first_thread.calls.map (fun c => c.parent))[j]? = some c.parent := by
    rw [List.getElem?_map, hc]
    rfl
  rw [hcalls, hq] at hm
  interval_cases j
  · simp at hm
  · simp at hm
    omega

end SgxPerf
